import Mathlib

/-!
# gpu_nbody: Barnes-Hut quadtree and step driver

A shallow embedding of `quadtree.h`, `src/quadtree.cpp`, `src/simulation.cpp`, the
constants of `src/Constants.h`, `gen_bodies_disk` of `utils.cpp` and `toPixelSpace` of
`src/render.cpp`, followed by theorems about it.

Conventions of the embedding.

* `double` is an arbitrary linearly ordered field `K`; every function is computable and is
  evaluated over `ℚ` in the concrete theorems. Rounding is not modelled.
* `std::sqrt` is a parameter `sqrt : K → K` of the functions that call it. `sqrtQ` is the
  instance used over `ℚ`; it is exact on squares of rationals.
* `std::vector` is `List`; a `size_t` index is a `Nat`. A read outside the vector makes the
  function return `none`; every write is to an index that was read before or was just
  appended. The `uint32_t node` of `insert` wraps modulo `2^32` (`UINT32_MOD`).
* `while` loops take a fuel argument and return `none` when it runs out.
* The random draws of `gen_bodies_disk` are a parameter (`draws`), as are `cos` and `sin`.
* `Node(Quad)` and `Node(Quad, next)` give `centm` and `mass` no initialiser: a new node has
  in these two members what its storage held. `resetSt`, `subdivideSt`, `splitSt`, `insertSt`,
  `insertAllSt`, `build_quadtreeSt` and `Simulation.attract`, `step`, `stepN` take that content
  as an argument (`Storage`, by node index). `reset`, `subdivide`, `split`, `insert`,
  `insertAll` and `build_quadtree` are their instances over zeroed storage (`Node.ofQuad`); a
  theorem about these describes the code when the storage reads as zero.
* `Simulation::frame` is a `std::size_t`: `frame += 1` wraps modulo `2^64` (`SIZE_MOD`).
* The quotient `G * n.mass / denom` of `accel` and the quotient `centm / mass` of `propogate`
  are field quotients, which are `0` for a zero divisor. In the C++ a positive numerator over
  a zero `denom` gives `+inf`, clamped to `DBL_MAX` and multiplied by the displacement: when
  that is zero the term is zero in both. A zero numerator over a zero `denom` (a node of mass
  zero whose `centm` is the query position) is a NaN in the C++ and zero here. NaN and
  infinities are not modelled: `walkQuotients` and `propogateDivisors` log the divisors, and
  `QuotientDefined` says when a term of `accel` has in the C++ the value it has here.
-/

namespace NBody

/-! ## Data model (`quadtree.h`) -/

/-- Struct `vec2`: an `(x, y)` pair. -/
structure Vec2 (K : Type) where
  x : K
  y : K
deriving DecidableEq

/-- Struct `Body`. -/
structure Body (K : Type) where
  pos : Vec2 K
  vel : Vec2 K
  accel : Vec2 K
  radius : K
  mass : K
deriving DecidableEq

/-- Struct `Quad`: the bounding box of a node. -/
structure Quad (K : Type) where
  center : Vec2 K
  length : K
deriving DecidableEq

/-- Struct `Node`. -/
structure Node (K : Type) where
  children : Nat
  next : Nat
  centm : Vec2 K
  mass : K
  quad : Quad K
deriving DecidableEq

/-- Struct `Quadtree`: the node list and the list of subdivided node indices. -/
structure Quadtree (K : Type) where
  nodes : List (Node K)
  parents : List Nat
deriving DecidableEq

/-- Struct `Simulation` (`simulation.h`). -/
structure Simulation (K : Type) where
  delta_t : K
  frame : Nat
  bodies : List (Body K)
  ygg : Quadtree K
deriving DecidableEq

/-- The constants of `Constants.h` that the tree reads. -/
structure Constants (K : Type) where
  THETA : K
  EPSILON : K
  G : K
deriving DecidableEq

section Defs

variable {K : Type} [LinearOrderedField K]

/-- The values compiled into the program: `THETA 1`, `EPSILON 1`, `G 0.01`. -/
def Constants.compiled : Constants K := { THETA := 1, EPSILON := 1, G := 1 / 100 }

/-- Value of `std::numeric_limits<double>::max()`, `(2^53 - 1) * 2^971`. -/
def DBL_MAX : K := (2 ^ 53 - 1) * 2 ^ 971

/-- Value of `std::numeric_limits<double>::min()`, the smallest positive normal double `2^-1022`. -/
def DBL_MIN : K := 1 / 2 ^ 1022

/-- Modulus of the `uint32_t` node index of `Quadtree::insert`. -/
def UINT32_MOD : Nat := 4294967296

namespace Vec2

/-- Operator `vec2 * double`. -/
def smul (v : Vec2 K) (other : K) : Vec2 K := ⟨v.x * other, v.y * other⟩

/-- Operator `vec2 + vec2`. -/
def add (v other : Vec2 K) : Vec2 K := ⟨v.x + other.x, v.y + other.y⟩

/-- Operator `vec2 / double`. -/
def sdiv (v : Vec2 K) (other : K) : Vec2 K := ⟨v.x / other, v.y / other⟩

/-- Method `mag_sq`. -/
def mag_sq (v : Vec2 K) : K := v.x * v.x + v.y * v.y

end Vec2

/-- Constructor `Body(mass, pos, vel, accel)`: `radius` has no initialiser and reads as zero. -/
def Body.ofFields (mass : K) (pos vel accel : Vec2 K) : Body K :=
  { pos := pos, vel := vel, accel := accel, radius := 0, mass := mass }

/-- Method `Body::update`: velocity first, then position with the new velocity. -/
def Body.update (b : Body K) (delta_t : K) : Body K :=
  let vel := b.vel.add (b.accel.smul delta_t)
  let pos := b.pos.add (vel.smul delta_t)
  { b with vel := vel, pos := pos }

/-- The four running extrema of `Quad::new_containing`. -/
structure Bounds (K : Type) where
  min_x : K
  min_y : K
  max_x : K
  max_y : K

/-- One iteration of the loop of `Quad::new_containing`. -/
def Bounds.step (s : Bounds K) (body : Body K) : Bounds K :=
  { min_x := min s.min_x body.pos.x
    min_y := min s.min_y body.pos.y
    max_x := max s.max_x body.pos.x
    max_y := max s.max_y body.pos.y }

/-- The seeds of `Quad::new_containing`. -/
def Bounds.seed : Bounds K :=
  { min_x := DBL_MAX, min_y := DBL_MAX, max_x := DBL_MIN, max_y := DBL_MIN }

/-- Method `Quad::new_containing`. -/
def Quad.new_containing (bodies : List (Body K)) : Quad K :=
  let s := bodies.foldl Bounds.step Bounds.seed
  { center := ⟨(s.min_x + s.max_x) * (1 / 2), (s.min_y + s.max_y) * (1 / 2)⟩
    length := max (s.max_x - s.min_x) (s.max_y - s.min_y) }

/-- Method `Quad::find_quadrant`: NW = 0, NE = 1, SW = 2, SE = 3. -/
def Quad.find_quadrant (q : Quad K) (pos : Vec2 K) : Nat :=
  if pos.x ≤ q.center.x ∧ pos.y ≥ q.center.y then 0
  else if pos.x > q.center.x ∧ pos.y ≥ q.center.y then 1
  else if pos.x ≤ q.center.x ∧ pos.y < q.center.y then 2
  else 3

/-- Method `Quad::into_quadrant`. -/
def Quad.into_quadrant (q : Quad K) (quadrant : Nat) : Quad K :=
  let length := q.length * (1 / 2)
  let offset := length * (1 / 2)
  match quadrant with
  | 0 => { center := ⟨q.center.x - offset, q.center.y + offset⟩, length := length }
  | 1 => { center := ⟨q.center.x + offset, q.center.y + offset⟩, length := length }
  | 2 => { center := ⟨q.center.x - offset, q.center.y - offset⟩, length := length }
  | 3 => { center := ⟨q.center.x + offset, q.center.y - offset⟩, length := length }
  | _ => { center := q.center, length := length }

/-- Method `Quad::subdivide_quad`: the four sub-quads `[NW, NE, SW, SE]`. -/
def Quad.subdivide_quad (q : Quad K) : List (Quad K) :=
  [q.into_quadrant 0, q.into_quadrant 1, q.into_quadrant 2, q.into_quadrant 3]

/-- Constructors `Node(Quad)` and `Node(Quad, next)`: `children` is `0`; `centm` and `mass`
have no initialiser and read as zero. -/
def Node.ofQuad (quad : Quad K) (next : Nat) : Node K :=
  { children := 0, next := next, centm := ⟨0, 0⟩, mass := 0, quad := quad }

/-- Constructors `Node(Quad)` and `Node(Quad, next)` with the storage made explicit: `centm`
and `mass`, which have no initialiser, keep what the storage held. `Node.ofQuad` is the case
of zeroed storage. -/
def Node.ofStorage {K : Type} (storedCentm : Vec2 K) (storedMass : K) (quad : Quad K)
    (next : Nat) : Node K :=
  { children := 0, next := next, centm := storedCentm, mass := storedMass, quad := quad }

/-- What the storage of new nodes holds in the two members the constructors leave
uninitialised, `centm` and `mass`, by the index the node gets in `nodes`. -/
abbrev Storage (K : Type) : Type := Nat → Vec2 K × K

/-- Zeroed storage. -/
def Storage.zero : Storage K := fun _ => (⟨0, 0⟩, 0)

/-- Wrap of `std::size_t`, the type of `Simulation::frame`. -/
def SIZE_MOD : Nat := 18446744073709551616

/-- Method `Node::has_children`. -/
def Node.has_children (n : Node K) : Bool := if n.children = 0 then false else true

/-- Method `Node::is_empty`. -/
def Node.is_empty (n : Node K) : Bool := if n.mass = 0 then true else false

/-- Method `Node::is_leaf`. -/
def Node.is_leaf (n : Node K) : Bool := decide (n.children = 0)

namespace Quadtree

/-- Method `Quadtree::reset`. -/
def reset (_t : Quadtree K) (root : Quad K) : Quadtree K :=
  { nodes := [Node.ofQuad root 0], parents := [] }

/-- Method `Quadtree::subdivide`: returns the index of the first child and the new tree. -/
def subdivide (t : Quadtree K) (node : Nat) : Option (Nat × Quadtree K) :=
  match t.nodes[node]? with
  | none => none
  | some n =>
    let parents := t.parents ++ [node]
    let children := t.nodes.length
    let nodes := t.nodes.modify (fun m => { m with children := children }) node
    let nexts := [children + 1, children + 2, children + 3, n.next]
    let quads := n.quad.subdivide_quad
    some (children, { nodes := nodes ++ List.zipWith Node.ofQuad quads nexts, parents := parents })

/-- The descent loop of `Quadtree::insert`, from `node` down to a node without children. -/
def descend (t : Quadtree K) (body_pos : Vec2 K) : Nat → Nat → Option Nat
  | 0, _ => none
  | fuel + 1, node =>
    match t.nodes[node]? with
    | none => none
    | some n =>
      if n.has_children then
        descend t body_pos fuel ((n.children + n.quad.find_quadrant body_pos) % UINT32_MOD)
      else some node

/-- The subdivision loop of `Quadtree::insert` (`while(true)` with `bp`, `np` captured
before it). -/
def split (body_pos : Vec2 K) (body_mass : K) (bp np : Vec2 K) :
    Nat → Quadtree K → Nat → Option (Quadtree K)
  | 0, _, _ => none
  | fuel + 1, t, node =>
    match t.subdivide node with
    | none => none
    | some (children, t1) =>
      match t1.nodes[node]? with
      | none => none
      | some n =>
        let q1 := n.quad.find_quadrant np
        let q2 := n.quad.find_quadrant bp
        if q1 = q2 then
          split body_pos body_mass bp np fuel t1 ((children + q1) % UINT32_MOD)
        else
          let n1 := children + q1
          let n2 := children + q2
          let nodes1 := t1.nodes.modify (fun m => { m with centm := n.centm, mass := n.mass }) n1
          let nodes2 := nodes1.modify (fun m => { m with centm := body_pos, mass := body_mass }) n2
          some { t1 with nodes := nodes2 }

/-- Method `Quadtree::insert`. -/
def insert (fuel : Nat) (t : Quadtree K) (body_pos : Vec2 K) (body_mass : K) :
    Option (Quadtree K) :=
  match t.descend body_pos fuel 0 with
  | none => none
  | some node =>
    match t.nodes[node]? with
    | none => none
    | some n =>
      if n.is_empty then
        some { t with
          nodes := t.nodes.modify (fun m => { m with centm := body_pos, mass := body_mass }) node }
      else if body_pos = n.centm then
        some { t with nodes := t.nodes.modify (fun m => { m with mass := m.mass + body_mass }) node }
      else
        split body_pos body_mass body_pos n.centm fuel t node

/-- One iteration of the loop of `Quadtree::propogate`, its three assignments in order. -/
def propogateStep (nodes : List (Node K)) (node : Nat) : Option (List (Node K)) := do
  let n ← nodes[node]?
  let i := n.children
  let c0 ← nodes[i]?
  let c1 ← nodes[i + 1]?
  let c2 ← nodes[i + 2]?
  let c3 ← nodes[i + 3]?
  let centm := (((c0.centm.smul c0.mass).add (c1.centm.smul c1.mass)).add
    (c2.centm.smul c2.mass)).add (c3.centm.smul c3.mass)
  let nodes1 := nodes.modify (fun m => { m with centm := centm }) node
  let d0 ← nodes1[i]?
  let d1 ← nodes1[i + 1]?
  let d2 ← nodes1[i + 2]?
  let d3 ← nodes1[i + 3]?
  let nodes2 := nodes1.modify (fun m => { m with mass := d0.mass + d1.mass + d2.mass + d3.mass }) node
  some (nodes2.modify (fun m => { m with centm := m.centm.sdiv m.mass }) node)

/-- The loop of `Quadtree::propogate` over a list of node indices. -/
def propogateLoop : List (Node K) → List Nat → Option (List (Node K))
  | nodes, [] => some nodes
  | nodes, node :: rest =>
    match propogateStep nodes node with
    | none => none
    | some nodes1 => propogateLoop nodes1 rest

/-- Method `Quadtree::propogate`: the loop over `parents` reversed. -/
def propogate (t : Quadtree K) : Option (Quadtree K) :=
  match propogateLoop t.nodes t.parents.reverse with
  | none => none
  | some nodes => some { t with nodes := nodes }

/-- The loop of `Quadtree::accel`, from `node` with running sum `accel`. It also returns the
node indices it read, most recent first (`seen`). -/
def walk (c : Constants K) (sqrt : K → K) (t : Quadtree K) (body_pos : Vec2 K) :
    Nat → Nat → Vec2 K → List Nat → Option (Vec2 K × List Nat)
  | 0, _, _, _ => none
  | fuel + 1, node, accel, seen =>
    match t.nodes[node]? with
    | none => none
    | some n =>
      let theta_sq := c.THETA * c.THETA
      let epsil_sq := c.EPSILON * c.EPSILON
      let dist : Vec2 K := ⟨n.centm.x - body_pos.x, n.centm.y - body_pos.y⟩
      let dist_sq := dist.mag_sq
      if n.is_leaf ∨ n.quad.length * n.quad.length < dist_sq * theta_sq then
        let denom := (dist_sq + epsil_sq) * sqrt dist_sq
        let accel1 := accel.add (dist.smul (min (c.G * n.mass / denom) DBL_MAX))
        if n.next = 0 then some (accel1, node :: seen)
        else walk c sqrt t body_pos fuel n.next accel1 (node :: seen)
      else walk c sqrt t body_pos fuel n.children accel (node :: seen)

/-- Method `Quadtree::accel`. -/
def accel (c : Constants K) (sqrt : K → K) (fuel : Nat) (t : Quadtree K) (body_pos : Vec2 K) :
    Option (Vec2 K) :=
  (walk c sqrt t body_pos fuel 0 ⟨0, 0⟩ []).map Prod.fst

/-- The insertion loop of `Simulation::attract` (also the way every test tree is built). -/
def insertAll (fuel : Nat) : Quadtree K → List (Vec2 K × K) → Option (Quadtree K)
  | t, [] => some t
  | t, (pos, mass) :: rest =>
    match t.insert fuel pos mass with
    | none => none
    | some t1 => insertAll fuel t1 rest

/-- Method `Quadtree::reset`, for any content of the storage: the root is `Node(root)`, whose
`centm` and `mass` are what the storage held. `reset` is the case of zeroed storage. -/
def resetSt (st : Storage K) (_t : Quadtree K) (root : Quad K) : Quadtree K :=
  { nodes := [Node.ofStorage (st 0).1 (st 0).2 root 0], parents := [] }

/-- Method `Quadtree::subdivide`, for any content of the storage: the four children are
`Node(quads[i], nexts[i])`, whose `centm` and `mass` are what the storage held. `subdivide`
is the case of zeroed storage. -/
def subdivideSt (st : Storage K) (t : Quadtree K) (node : Nat) : Option (Nat × Quadtree K) :=
  match t.nodes[node]? with
  | none => none
  | some n =>
    let parents := t.parents ++ [node]
    let children := t.nodes.length
    let nodes := t.nodes.modify (fun m => { m with children := children }) node
    let nexts := [children + 1, children + 2, children + 3, n.next]
    let quads := n.quad.subdivide_quad
    let stored := [st children, st (children + 1), st (children + 2), st (children + 3)]
    some (children,
      { nodes := nodes ++ List.zipWith (fun (s : Vec2 K × K) (qx : Quad K × Nat) =>
          Node.ofStorage s.1 s.2 qx.1 qx.2) stored (List.zip quads nexts),
        parents := parents })

/-- The subdivision loop of `Quadtree::insert`, for any content of the storage. -/
def splitSt (st : Storage K) (body_pos : Vec2 K) (body_mass : K) (bp np : Vec2 K) :
    Nat → Quadtree K → Nat → Option (Quadtree K)
  | 0, _, _ => none
  | fuel + 1, t, node =>
    match t.subdivideSt st node with
    | none => none
    | some (children, t1) =>
      match t1.nodes[node]? with
      | none => none
      | some n =>
        let q1 := n.quad.find_quadrant np
        let q2 := n.quad.find_quadrant bp
        if q1 = q2 then
          splitSt st body_pos body_mass bp np fuel t1 ((children + q1) % UINT32_MOD)
        else
          let n1 := children + q1
          let n2 := children + q2
          let nodes1 := t1.nodes.modify (fun m => { m with centm := n.centm, mass := n.mass }) n1
          let nodes2 := nodes1.modify (fun m => { m with centm := body_pos, mass := body_mass }) n2
          some { t1 with nodes := nodes2 }

/-- Method `Quadtree::insert`, for any content of the storage. `insert` is the case of
zeroed storage. -/
def insertSt (st : Storage K) (fuel : Nat) (t : Quadtree K) (body_pos : Vec2 K)
    (body_mass : K) : Option (Quadtree K) :=
  match t.descend body_pos fuel 0 with
  | none => none
  | some node =>
    match t.nodes[node]? with
    | none => none
    | some n =>
      if n.is_empty then
        some { t with
          nodes := t.nodes.modify (fun m => { m with centm := body_pos, mass := body_mass }) node }
      else if body_pos = n.centm then
        some { t with nodes := t.nodes.modify (fun m => { m with mass := m.mass + body_mass }) node }
      else
        splitSt st body_pos body_mass body_pos n.centm fuel t node

/-- The insertion loop of `Simulation::attract`, for any content of the storage. -/
def insertAllSt (st : Storage K) (fuel : Nat) :
    Quadtree K → List (Vec2 K × K) → Option (Quadtree K)
  | t, [] => some t
  | t, (pos, mass) :: rest =>
    match t.insertSt st fuel pos mass with
    | none => none
    | some t1 => insertAllSt st fuel t1 rest

end Quadtree

/-- Function `build_quadtree` of `utils.cpp`: the square of `new_containing`, `reset`, and
one `insert` per body in list order. -/
def build_quadtree (fuel : Nat) (bodies : List (Body K)) : Option (Quadtree K) :=
  Quadtree.insertAll fuel (Quadtree.reset ⟨[], []⟩ (Quad.new_containing bodies))
    (bodies.map (fun body => (body.pos, body.mass)))

/-- Function `build_quadtree` of `utils.cpp`, for any content of the storage. -/
def build_quadtreeSt (st : Storage K) (fuel : Nat) (bodies : List (Body K)) :
    Option (Quadtree K) :=
  Quadtree.insertAllSt st fuel (Quadtree.resetSt st ⟨[], []⟩ (Quad.new_containing bodies))
    (bodies.map (fun body => (body.pos, body.mass)))

/-- The term the loop of `Quadtree::accel` adds for an accepted node of mass `mass` with
centre of mass `centm`, seen from `body_pos`. -/
def contribution (c : Constants K) (sqrt : K → K) (centm : Vec2 K) (mass : K)
    (body_pos : Vec2 K) : Vec2 K :=
  let dist : Vec2 K := ⟨centm.x - body_pos.x, centm.y - body_pos.y⟩
  dist.smul (min (c.G * mass / ((dist.mag_sq + c.EPSILON * c.EPSILON) * sqrt dist.mag_sq)) DBL_MAX)

/-- The centre of mass of two bodies, `(M a + m b) / (M + m)`. -/
def centroid2 (A B : Body K) : Vec2 K :=
  ((A.pos.smul A.mass).add (B.pos.smul B.mass)).sdiv (A.mass + B.mass)

/-- Specification side: the direct softened two-body acceleration exerted on a body at `b`
by a mass `M` at `a`, `G * M * (a - b) / ((|a-b|^2 + EPSILON^2) * |a-b|)`. -/
def newtonDirect (c : Constants K) (sqrt : K → K) (M : K) (a b : Vec2 K) : Vec2 K :=
  let d : Vec2 K := ⟨a.x - b.x, a.y - b.y⟩
  (d.smul (c.G * M)).sdiv ((d.mag_sq + c.EPSILON * c.EPSILON) * sqrt d.mag_sq)

namespace Simulation

/-- Method `Simulation::iterate`. -/
def iterate (s : Simulation K) : Simulation K :=
  { s with bodies := s.bodies.map (fun body => body.update s.delta_t) }

/-- The last loop of `Simulation::attract`: each body gets `ygg.accel(body.pos)`. -/
def evaluate (c : Constants K) (sqrt : K → K) (fuel : Nat) (ygg : Quadtree K) :
    List (Body K) → Option (List (Body K))
  | [] => some []
  | body :: rest =>
    match ygg.accel c sqrt fuel body.pos with
    | none => none
    | some a =>
      match evaluate c sqrt fuel ygg rest with
      | none => none
      | some rest1 => some ({ body with accel := a } :: rest1)

/-- Method `Simulation::attract`, for the content `st` of the storage of the nodes it
creates. -/
def attract (c : Constants K) (sqrt : K → K) (st : Storage K) (fuel : Nat)
    (s : Simulation K) : Option (Simulation K) := do
  let root := Quad.new_containing s.bodies
  let ygg0 := s.ygg.resetSt st root
  let ygg1 ← Quadtree.insertAllSt st fuel ygg0 (s.bodies.map (fun body => (body.pos, body.mass)))
  let ygg2 ← ygg1.propogate
  let bodies ← evaluate c sqrt fuel ygg2 s.bodies
  some { s with bodies := bodies, ygg := ygg2 }

/-- Method `Simulation::step`; `frame` is a `std::size_t` and `frame += 1` wraps. -/
def step (c : Constants K) (sqrt : K → K) (st : Storage K) (fuel : Nat) (s : Simulation K) :
    Option (Simulation K) :=
  match attract c sqrt st fuel (iterate s) with
  | none => none
  | some s1 => some { s1 with frame := (s1.frame + 1) % SIZE_MOD }

end Simulation

end Defs

/-! ## Invariants, reachability and the example data used by the theorems -/

section Aux

variable {K : Type} [LinearOrderedField K]

/-- The four children `subdivide` appends below a root with square `q`. -/
def rootKids (q : Quad K) : List (Node K) :=
  [Node.ofQuad (q.into_quadrant 0) 2, Node.ofQuad (q.into_quadrant 1) 3,
   Node.ofQuad (q.into_quadrant 2) 4, Node.ofQuad (q.into_quadrant 3) 0]

/-- The two index fields of every node, `(children, next)`, in node order. -/
def skel {K : Type} (t : Quadtree K) : List (Nat × Nat) :=
  t.nodes.map (fun n => (n.children, n.next))

/-- The `(children, next)` list after `subdivide` of index `i`, whose `next` is `x`. -/
def subdivSkel (s : List (Nat × Nat)) (i x : Nat) : List (Nat × Nat) :=
  s.modify (fun e => (s.length, e.2)) i ++
    [(0, s.length + 1), (0, s.length + 2), (0, s.length + 3), (0, x)]

/-- The threading invariant of the node list: the root's `next` is `0`; every `next` is a
valid index; a node with children lies before them, its four children are consecutive, the
first three point to their right sibling and the last one to the `next` of the parent; a
block of four children has one parent; blocks start at indices `1 mod 4`. -/
structure Threaded (s : List (Nat × Nat)) : Prop where
  root : ∃ c : Nat, s[0]? = some (c, 0)
  next_lt : ∀ (i c x : Nat), s[i]? = some (c, x) → x < s.length
  kids : ∀ (i c x : Nat), s[i]? = some (c, x) → c ≠ 0 →
    i < c ∧ c % 4 = 1 ∧ ∃ c0 c1 c2 c3 : Nat, s[c]? = some (c0, c + 1) ∧
      s[c + 1]? = some (c1, c + 2) ∧ s[c + 2]? = some (c2, c + 3) ∧ s[c + 3]? = some (c3, x)
  uniq : ∀ (i j c x y : Nat), s[i]? = some (c, x) → s[j]? = some (c, y) → c ≠ 0 → i = j
  len : s.length % 4 = 1

/-- Index `j` is one of the four children of index `p`. -/
def IsChild (s : List (Nat × Nat)) (p j : Nat) : Prop :=
  ∃ c x : Nat, s[p]? = some (c, x) ∧ c ≠ 0 ∧ c ≤ j ∧ j ≤ c + 3

/-- Index `j` lies in the subtree of index `i`. -/
inductive Desc (s : List (Nat × Nat)) : Nat → Nat → Prop
  | refl (i : Nat) : Desc s i i
  | step {i p j : Nat} : Desc s i p → IsChild s p j → Desc s i j

/-- Trees obtained from `reset` by finitely many calls of `insert` that return. -/
inductive Reachable : Quadtree K → Prop
  | reset (t0 : Quadtree K) (q : Quad K) : Reachable (t0.reset q)
  | insert {t t1 : Quadtree K} (fuel : Nat) (p : Vec2 K) (m : K) :
      Reachable t → t.insert fuel p m = some t1 → Reachable t1

end Aux

section AuxRoll

variable {K : Type} [LinearOrderedField K]

/-- The `children` field of node `i`, `0` outside the list. -/
def kidN {K : Type} (nodes : List (Node K)) (i : Nat) : Nat :=
  ((nodes[i]?).map (fun n => n.children)).getD 0

/-- The fields of a node that `propogate` never writes: `children`, `next` and `quad`. -/
def Node.frame {K : Type} (n : Node K) : Nat × Nat × Quad K := (n.children, n.next, n.quad)

/-- The weighted sum `centm * mass` over four nodes, in the order `propogate` adds them. -/
def weightedSum (c0 c1 c2 c3 : Node K) : Vec2 K :=
  (((c0.centm.smul c0.mass).add (c1.centm.smul c1.mass)).add (c2.centm.smul c2.mass)).add
    (c3.centm.smul c3.mass)

/-- Node `i` summarises its four children: its mass is the sum of their masses and, when
that sum is not zero, its `centm` is their weighted sum divided by it. -/
def Rolled (nodes : List (Node K)) (i : Nat) : Prop :=
  ∃ n c0 c1 c2 c3 : Node K, nodes[i]? = some n ∧ nodes[n.children]? = some c0 ∧
    nodes[n.children + 1]? = some c1 ∧ nodes[n.children + 2]? = some c2 ∧
    nodes[n.children + 3]? = some c3 ∧
    n.mass = c0.mass + c1.mass + c2.mass + c3.mass ∧
    (c0.mass + c1.mass + c2.mass + c3.mass ≠ 0 →
      n.centm = (weightedSum c0 c1 c2 c3).sdiv (c0.mass + c1.mass + c2.mass + c3.mass))

/-- The log invariant of `parents`: every logged index lies before its children, every
logged index lies before the children of the indices logged after it, and every node with
children is logged. -/
structure Logged (t : Quadtree K) : Prop where
  self_lt : ∀ p ∈ t.parents, p < kidN t.nodes p
  before : t.parents.Pairwise (fun a b => a < kidN t.nodes b)
  logged : ∀ (i : Nat) (n : Node K), t.nodes[i]? = some n → n.children ≠ 0 → i ∈ t.parents

end AuxRoll

section AuxRec

variable {K : Type} [LinearOrderedField K]

/-- Specification side: the recursive Barnes-Hut evaluation `R(i, p)`, with a bound on the
depth of the recursion. Node `i` contributes its own term when it is childless or passes the
acceptance test `length^2 < dist_sq * THETA^2`; otherwise `R(i, p)` is the sum of `R` over its
four children `c, c+1, c+2, c+3`. -/
def recEval (c : Constants K) (sqrt : K → K) (t : Quadtree K) (p : Vec2 K) :
    Nat → Nat → Option (Vec2 K)
  | 0, _ => none
  | depth + 1, i =>
    match t.nodes[i]? with
    | none => none
    | some n =>
      if n.children = 0 ∨ n.quad.length * n.quad.length <
          (Vec2.mag_sq ⟨n.centm.x - p.x, n.centm.y - p.y⟩) * (c.THETA * c.THETA) then
        some (contribution c sqrt n.centm n.mass p)
      else
        match recEval c sqrt t p depth n.children, recEval c sqrt t p depth (n.children + 1),
          recEval c sqrt t p depth (n.children + 2), recEval c sqrt t p depth (n.children + 3) with
        | some r0, some r1, some r2, some r3 => some (((r0.add r1).add r2).add r3)
        | _, _, _, _ => none

end AuxRec

section AuxStep

variable {K : Type} [LinearOrderedField K]

/-- The loop of `main`: `n` calls of `step` in a row, call `i` on storage `sts i`. -/
def Simulation.stepN (c : Constants K) (sqrt : K → K) (fuel : Nat) :
    Nat → (Nat → Storage K) → Simulation K → Option (Simulation K)
  | 0, _, s => some s
  | n + 1, sts, s =>
    match Simulation.step c sqrt (sts 0) fuel s with
    | none => none
    | some s1 => Simulation.stepN c sqrt fuel n (fun i => sts (i + 1)) s1

end AuxStep

section AuxGeo

variable {K : Type} [LinearOrderedField K]

/-- Point `p` lies in the closed square `q`. -/
def Quad.contains (q : Quad K) (p : Vec2 K) : Prop :=
  q.center.x - q.length / 2 ≤ p.x ∧ p.x ≤ q.center.x + q.length / 2 ∧
    q.center.y - q.length / 2 ≤ p.y ∧ p.y ≤ q.center.y + q.length / 2

/-- The larger of the two coordinate distances between `a` and `b`. -/
def gap (a b : Vec2 K) : K := max |a.x - b.x| |a.y - b.y|

/-- The geometric invariant of the node list, for a bound `side` on the squares and a
predicate `S` on positions: the four children of a node carry its four sub-squares; a
childless node of nonzero mass holds a position of `S` that lies in its square; every square
has a side between `0` and `side`. -/
structure Geo (t : Quadtree K) (side : K) (S : Vec2 K → Prop) : Prop where
  kidsQuad : ∀ (i : Nat) (n : Node K), t.nodes[i]? = some n → n.children ≠ 0 →
    ∀ k, k < 4 → ∃ ck, t.nodes[n.children + k]? = some ck ∧ ck.quad = n.quad.into_quadrant k
  leaf : ∀ (i : Nat) (n : Node K), t.nodes[i]? = some n → n.children = 0 → n.mass ≠ 0 →
    n.quad.contains n.centm ∧ S n.centm
  side_le : ∀ (i : Nat) (n : Node K), t.nodes[i]? = some n →
    0 ≤ n.quad.length ∧ n.quad.length ≤ side

end AuxGeo

section AuxSep

variable {K : Type} [LinearOrderedField K]

/-- The bodies of `s`, once moved by `iterate`, are pairwise at the same position or further
apart (on one axis at least) than the side of their square of `new_containing` over `2^k`,
and `1 + 4 k n` node indices fit in 32 bits, `n` the number of bodies. -/
def Simulation.Separated (k : Nat) (s : Simulation K) : Prop :=
  (∀ a ∈ s.iterate.bodies, ∀ b ∈ s.iterate.bodies, a.pos ≠ b.pos →
    (Quad.new_containing s.iterate.bodies).length < 2 ^ k * gap a.pos b.pos) ∧
  1 + 4 * k * s.bodies.length ≤ UINT32_MOD

end AuxSep

/-- Square root on `ℚ` by integer square roots of numerator and denominator; exact on the
square of a rational. -/
def sqrtQ (x : ℚ) : ℚ := (Nat.sqrt x.num.toNat : ℚ) / (Nat.sqrt x.den : ℚ)

/-- The root square of the examples: centre `(0, 0)`, side 32. -/
def demoRoot : Quad ℚ := ⟨⟨0, 0⟩, 32⟩

/-- The two bodies of the examples, as positions with masses: mass 2 at `(3, 4)` and mass 3
at `(6, 8)`. -/
def demoBodies : List (Vec2 ℚ × ℚ) := [(⟨3, 4⟩, 2), (⟨6, 8⟩, 3)]

/-- The tree after `reset(demoRoot)` and the insertion of `bodies` in order. -/
def demoTree (bodies : List (Vec2 ℚ × ℚ)) : Option (Quadtree ℚ) :=
  Quadtree.insertAll 2 (Quadtree.reset ⟨[], []⟩ demoRoot) bodies

/-- Body A of the scenario: mass 100 at `(0, 0)`, at rest. -/
def bodyA : Body ℚ := Body.ofFields 100 ⟨0, 0⟩ ⟨0, 0⟩ ⟨0, 0⟩

/-- Body B of the scenario: mass 1 at `(1, 0)`, at rest. -/
def bodyB : Body ℚ := Body.ofFields 1 ⟨1, 0⟩ ⟨0, 0⟩ ⟨0, 0⟩

/-- The heavy body of the two-body example: mass 9 at `(1, 1)`. -/
def heavyBody : Body ℚ := Body.ofFields 9 ⟨1, 1⟩ ⟨0, 0⟩ ⟨0, 0⟩

/-- The orbiter of the two-body example: mass 1 at `(4, 5)`. -/
def orbiter : Body ℚ := Body.ofFields 1 ⟨4, 5⟩ ⟨0, 0⟩ ⟨0, 0⟩

/-- A tree whose second insert subdivides four levels deep: `(1, 1)` and `(3, 3)` in the
square of side 32 centred at the origin share a quadrant three times. -/
def deepTree : Quadtree ℚ :=
  (Quadtree.insertAll 4 (Quadtree.reset ⟨[], []⟩ ⟨⟨0, 0⟩, 32⟩) [(⟨1, 1⟩, 1), (⟨3, 3⟩, 1)]).getD
    ⟨[], []⟩

/-- Integer square root by bisection over the bits `k - 1, ..., 0`, from the partial root `r`. -/
def isqrtBits (n : Nat) : Nat → Nat → Nat
  | 0, r => r
  | k + 1, r =>
    if (r + 2 ^ k) * (r + 2 ^ k) ≤ n then isqrtBits n k (r + 2 ^ k) else isqrtBits n k r

/-- Square root on `ℚ` like `sqrtQ`, with the integer square roots computed by bisection over
the binary digits, so that it evaluates on large operands. -/
def sqrtBisect (x : ℚ) : ℚ :=
  (isqrtBits x.num.toNat (Nat.toDigits 2 x.num.toNat).length 0 : ℚ) /
    (isqrtBits x.den (Nat.toDigits 2 x.den).length 0 : ℚ)

/-- A body of mass `2^1023`, a finite double, at distance `2^-10` from the origin. -/
def nearBody : Vec2 ℚ × ℚ := (⟨1 / 2 ^ 10, 0⟩, 2 ^ 1023)

section AuxDisk

variable {K : Type} [LinearOrderedField K]

/-- Macro `WIDTH` of `Constants.h`, `1024*2`. -/
def WIDTH : Int := 1024 * 2

/-- Macro `HEIGHT` of `Constants.h`, `1024*2`. -/
def HEIGHT : Int := 1024 * 2

/-- Macro `SYSTEM_SIZE` of `Constants.h`, `1.5`. -/
def SYSTEM_SIZE : K := 3 / 2

/-- Macro `RENDER_SCALE` of `Constants.h`, `3.5`. -/
def RENDER_SCALE : K := 7 / 2

/-- Function `toPixelSpace` of `render.cpp`. -/
def toPixelSpace (p : K) (size : Int) : K :=
  ((size : K) / 2) * (1 + p / (SYSTEM_SIZE * RENDER_SCALE))

/-- The five random draws `gen_bodies_disk` makes for one body of the disk, in the order it
makes them. -/
structure DiskDraw (K : Type) where
  mass_variation : K
  angle : K
  radius : K
  thickness : K
  velocity_variation : K

/-- The central body `gen_bodies_disk` writes to `bodies[0]`; `HEIGHT/2` and `WIDTH/2` are
integer quotients, converted to `double` by `vec2`. The vector was value-initialised, so
`radius` is zero. -/
def diskCentral : Body K :=
  { mass := 100, pos := ⟨((HEIGHT / 2 : Int) : K), ((WIDTH / 2 : Int) : K)⟩, vel := ⟨0, 0⟩,
    accel := ⟨0, 0⟩, radius := 0 }

/-- Body `i` of the disk, `1 ≤ i < n`, from its draws, as the loop of `gen_bodies_disk`
writes it: the position is `radius * (cos angle, sin angle)` plus the thickness on `y`. -/
def diskBody (c : Constants K) (sqrt cos sin : K → K) (d : DiskDraw K) : Body K :=
  let orbitalSpeed := sqrt (c.G * (diskCentral : Body K).mass / d.radius) * d.velocity_variation
  { mass := 1 / 1000 * d.mass_variation
    pos := ⟨d.radius * cos d.angle, d.radius * sin d.angle + d.thickness⟩
    vel := ⟨-orbitalSpeed * sin d.angle, orbitalSpeed * cos d.angle⟩
    accel := ⟨0, 0⟩
    radius := 0 }

/-- Function `gen_bodies_disk` of `utils.cpp`, with the random draws of body `i` given by
`draws i` and `sqrt`, `cos`, `sin` as parameters. The write to `bodies[0]` of an empty vector
(`n = 0`) is outside the model. -/
def gen_bodies_disk (c : Constants K) (sqrt cos sin : K → K) (draws : Nat → DiskDraw K)
    (n : Nat) : Option (List (Body K)) :=
  if n = 0 then none
  else some (diskCentral ::
    (List.range (n - 1)).map (fun j => diskBody c sqrt cos sin (draws (j + 1))))

end AuxDisk

section AuxShape

variable {K : Type} [LinearOrderedField K]

/-- The shape invariant of the two vectors: four nodes per logged subdivision besides the
root, and entry `k` of `parents` is an index below `4k + 1` whose children start at
`4k + 1`. -/
def Shape {K : Type} (t : Quadtree K) : Prop :=
  t.nodes.length = 1 + 4 * t.parents.length ∧
    ∀ (k p : Nat), t.parents[k]? = some p → p < 4 * k + 1 ∧ kidN t.nodes p = 4 * k + 1

end AuxShape

section AuxPath

variable {K : Type} [LinearOrderedField K]

/-- The four children of every node with children carry its four sub-squares, in order. -/
def KidsQuad (t : Quadtree K) : Prop :=
  ∀ (i : Nat) (n : Node K), t.nodes[i]? = some n → n.children ≠ 0 →
    ∀ k, k < 4 → ∃ ck, t.nodes[n.children + k]? = some ck ∧ ck.quad = n.quad.into_quadrant k

/-- The descent loop of `Quadtree::insert` as in `descend`, which also returns the node
indices it read, most recent first (`seen`). -/
def Quadtree.descendSeen (t : Quadtree K) (body_pos : Vec2 K) :
    Nat → Nat → List Nat → Option (Nat × List Nat)
  | 0, _, _ => none
  | fuel + 1, node, seen =>
    match t.nodes[node]? with
    | none => none
    | some n =>
      if n.has_children then
        descendSeen t body_pos fuel ((n.children + n.quad.find_quadrant body_pos) % UINT32_MOD)
          (node :: seen)
      else some (node, node :: seen)

end AuxPath

section AuxBuilt

variable {K : Type} [LinearOrderedField K]

/-- Trees obtained from `reset(q)` by finitely many calls of `insert` that return, each for
a position inside the closed square `q`. -/
inductive Built (q : Quad K) : Quadtree K → Prop
  | reset (t0 : Quadtree K) : Built q (t0.reset q)
  | insert {t t1 : Quadtree K} (fuel : Nat) (p : Vec2 K) (m : K) :
      Built q t → q.contains p → t.insert fuel p m = some t1 → Built q t1

/-- Position `o` is held by the tree: it is the `centm` of a childless node of nonzero
mass. -/
def Quadtree.Holds (t : Quadtree K) (o : Vec2 K) : Prop :=
  ∃ (i : Nat) (n : Node K), t.nodes[i]? = some n ∧ n.children = 0 ∧ n.mass ≠ 0 ∧ n.centm = o

end AuxBuilt

section AuxFed

variable {K : Type} [LinearOrderedField K]

/-- No mass is negative, and every node with children has a child that has children itself,
or has positive mass, or is the node `x` that the subdivision loop is about to subdivide. -/
def Fed (t : Quadtree K) (x : Option Nat) : Prop :=
  (∀ (i : Nat) (n : Node K), t.nodes[i]? = some n → 0 ≤ n.mass) ∧
  ∀ (i : Nat) (n : Node K), t.nodes[i]? = some n → n.children ≠ 0 →
    ∃ k, k < 4 ∧ ∃ ck, t.nodes[n.children + k]? = some ck ∧
      (ck.children ≠ 0 ∨ 0 < ck.mass ∨ x = some (n.children + k))

/-- The divisor of one iteration of the loop of `Quadtree::propogate`: the value of
`nodes[node].mass` by which `centm` is divided, that is the sum of the masses of the four
children read after the first assignment. -/
def Quadtree.propogateDivisor (nodes : List (Node K)) (node : Nat) : Option K := do
  let n ← nodes[node]?
  let i := n.children
  let c0 ← nodes[i]?
  let c1 ← nodes[i + 1]?
  let c2 ← nodes[i + 2]?
  let c3 ← nodes[i + 3]?
  let centm := (((c0.centm.smul c0.mass).add (c1.centm.smul c1.mass)).add
    (c2.centm.smul c2.mass)).add (c3.centm.smul c3.mass)
  let nodes1 := nodes.modify (fun m => { m with centm := centm }) node
  let d0 ← nodes1[i]?
  let d1 ← nodes1[i + 1]?
  let d2 ← nodes1[i + 2]?
  let d3 ← nodes1[i + 3]?
  some (d0.mass + d1.mass + d2.mass + d3.mass)

/-- The divisors of the loop of `Quadtree::propogate` over a list of node indices, in the
order the loop meets them. -/
def Quadtree.propogateDivisors : List (Node K) → List Nat → Option (List K)
  | _, [] => some []
  | nodes, node :: rest =>
    match Quadtree.propogateDivisor nodes node, Quadtree.propogateStep nodes node with
    | some d, some nodes1 => (propogateDivisors nodes1 rest).map (fun ds => d :: ds)
    | _, _ => none

end AuxFed

section AuxStorage

variable {K : Type} [LinearOrderedField K]

/-- The loop of `Quadtree::accel` with a ghost log: for every node whose term is added, the
numerator `G * n.mass`, the denominator `denom` and the displacement `dist` of that term,
most recent first. The control flow is that of `walk`. -/
def Quadtree.walkQuotients (c : Constants K) (sqrt : K → K) (t : Quadtree K)
    (body_pos : Vec2 K) : Nat → Nat → List (K × K × Vec2 K) → Option (List (K × K × Vec2 K))
  | 0, _, _ => none
  | fuel + 1, node, log =>
    match t.nodes[node]? with
    | none => none
    | some n =>
      let theta_sq := c.THETA * c.THETA
      let epsil_sq := c.EPSILON * c.EPSILON
      let dist : Vec2 K := ⟨n.centm.x - body_pos.x, n.centm.y - body_pos.y⟩
      let dist_sq := dist.mag_sq
      if n.is_leaf ∨ n.quad.length * n.quad.length < dist_sq * theta_sq then
        let denom := (dist_sq + epsil_sq) * sqrt dist_sq
        if n.next = 0 then some ((c.G * n.mass, denom, dist) :: log)
        else walkQuotients c sqrt t body_pos fuel n.next ((c.G * n.mass, denom, dist) :: log)
      else walkQuotients c sqrt t body_pos fuel n.children log

/-- The term `dist * std::min(num / denom, DBL_MAX)` of a logged triple `(num, denom, dist)`
has in IEEE arithmetic the value the field gives it: the denominator is not zero, or the
numerator is positive and the displacement is zero (the quotient is `+inf`, clamped to
`DBL_MAX` and multiplied by zero). Over a zero denominator a zero numerator gives NaN, and a
negative one `-inf`, which the clamp keeps. -/
def QuotientDefined (e : K × K × Vec2 K) : Prop :=
  e.2.1 ≠ 0 ∨ (0 < e.1 ∧ e.2.2 = ⟨0, 0⟩)

instance QuotientDefined.decidable (e : K × K × Vec2 K) : Decidable (QuotientDefined e) :=
  inferInstanceAs (Decidable (e.2.1 ≠ 0 ∨ (0 < e.1 ∧ e.2.2 = ⟨0, 0⟩)))

/-- Storage whose first node holds `centm` and `mass`, zeroed elsewhere. -/
def Storage.rootHolds (centm : Vec2 K) (mass : K) : Storage K :=
  fun i => if i = 0 then (centm, mass) else (⟨0, 0⟩, 0)

/-- Storage whose first node is zeroed and whose other nodes hold `mass` at `(0, 0)`. -/
def Storage.kidsHold (mass : K) : Storage K :=
  fun i => if i = 0 then (⟨0, 0⟩, 0) else (⟨0, 0⟩, mass)

end AuxStorage

/-! ## Bounding square (`Quad::new_containing`) -/

section Bounding

variable {K : Type} [LinearOrderedField K]

theorem Bounds.foldl_min_x_le (bodies : List (Body K)) (s : Bounds K) :
    (bodies.foldl Bounds.step s).min_x ≤ s.min_x ∧
      ∀ b ∈ bodies, (bodies.foldl Bounds.step s).min_x ≤ b.pos.x := by
  induction bodies generalizing s with
  | nil => simp
  | cons a rest ih =>
    obtain ⟨h1, h2⟩ := ih (s.step a)
    have ha : (s.step a).min_x ≤ a.pos.x := min_le_right _ _
    have hs : (s.step a).min_x ≤ s.min_x := min_le_left _ _
    refine ⟨le_trans h1 hs, ?_⟩
    intro b hb
    rcases List.mem_cons.mp hb with rfl | hb
    · exact le_trans h1 ha
    · exact h2 b hb

theorem Bounds.foldl_min_y_le (bodies : List (Body K)) (s : Bounds K) :
    (bodies.foldl Bounds.step s).min_y ≤ s.min_y ∧
      ∀ b ∈ bodies, (bodies.foldl Bounds.step s).min_y ≤ b.pos.y := by
  induction bodies generalizing s with
  | nil => simp
  | cons a rest ih =>
    obtain ⟨h1, h2⟩ := ih (s.step a)
    have ha : (s.step a).min_y ≤ a.pos.y := min_le_right _ _
    have hs : (s.step a).min_y ≤ s.min_y := min_le_left _ _
    refine ⟨le_trans h1 hs, ?_⟩
    intro b hb
    rcases List.mem_cons.mp hb with rfl | hb
    · exact le_trans h1 ha
    · exact h2 b hb

theorem Bounds.le_foldl_max_x (bodies : List (Body K)) (s : Bounds K) :
    s.max_x ≤ (bodies.foldl Bounds.step s).max_x ∧
      ∀ b ∈ bodies, b.pos.x ≤ (bodies.foldl Bounds.step s).max_x := by
  induction bodies generalizing s with
  | nil => simp
  | cons a rest ih =>
    obtain ⟨h1, h2⟩ := ih (s.step a)
    have ha : a.pos.x ≤ (s.step a).max_x := le_max_right _ _
    have hs : s.max_x ≤ (s.step a).max_x := le_max_left _ _
    refine ⟨le_trans hs h1, ?_⟩
    intro b hb
    rcases List.mem_cons.mp hb with rfl | hb
    · exact le_trans ha h1
    · exact h2 b hb

theorem Bounds.le_foldl_max_y (bodies : List (Body K)) (s : Bounds K) :
    s.max_y ≤ (bodies.foldl Bounds.step s).max_y ∧
      ∀ b ∈ bodies, b.pos.y ≤ (bodies.foldl Bounds.step s).max_y := by
  induction bodies generalizing s with
  | nil => simp
  | cons a rest ih =>
    obtain ⟨h1, h2⟩ := ih (s.step a)
    have ha : a.pos.y ≤ (s.step a).max_y := le_max_right _ _
    have hs : s.max_y ≤ (s.step a).max_y := le_max_left _ _
    refine ⟨le_trans hs h1, ?_⟩
    intro b hb
    rcases List.mem_cons.mp hb with rfl | hb
    · exact le_trans ha h1
    · exact h2 b hb

/-- C4, bounding invariant: the square computed by `new_containing` from a list of bodies
contains the position of every body of the list on both axes, whatever the signs of the
coordinates, with the seeds `DBL_MAX` for the minima and `DBL_MIN` for the maxima. -/
theorem new_containing_contains (bodies : List (Body K)) (b : Body K) (hb : b ∈ bodies) :
    (Quad.new_containing bodies).center.x - (Quad.new_containing bodies).length / 2 ≤ b.pos.x ∧
    b.pos.x ≤ (Quad.new_containing bodies).center.x + (Quad.new_containing bodies).length / 2 ∧
    (Quad.new_containing bodies).center.y - (Quad.new_containing bodies).length / 2 ≤ b.pos.y ∧
    b.pos.y ≤ (Quad.new_containing bodies).center.y + (Quad.new_containing bodies).length / 2 := by
  have h1 := (Bounds.foldl_min_x_le bodies Bounds.seed).2 b hb
  have h2 := (Bounds.foldl_min_y_le bodies Bounds.seed).2 b hb
  have h3 := (Bounds.le_foldl_max_x bodies Bounds.seed).2 b hb
  have h4 := (Bounds.le_foldl_max_y bodies Bounds.seed).2 b hb
  simp only [Quad.new_containing]
  set s := bodies.foldl Bounds.step Bounds.seed with hs
  have hx : s.max_x - s.min_x ≤ max (s.max_x - s.min_x) (s.max_y - s.min_y) := le_max_left _ _
  have hy : s.max_y - s.min_y ≤ max (s.max_x - s.min_x) (s.max_y - s.min_y) := le_max_right _ _
  refine ⟨?_, ?_, ?_, ?_⟩ <;> linarith

/-- Witness for C4 on a list whose coordinates are all negative. -/
theorem new_containing_contains_witness :
    (Quad.new_containing [Body.ofFields (1 : ℚ) ⟨-4, -4⟩ ⟨0, 0⟩ ⟨0, 0⟩,
        Body.ofFields 1 ⟨-3, -7⟩ ⟨0, 0⟩ ⟨0, 0⟩]).center.x -
      (Quad.new_containing [Body.ofFields (1 : ℚ) ⟨-4, -4⟩ ⟨0, 0⟩ ⟨0, 0⟩,
        Body.ofFields 1 ⟨-3, -7⟩ ⟨0, 0⟩ ⟨0, 0⟩]).length / 2 ≤ -3 :=
  (new_containing_contains [Body.ofFields (1 : ℚ) ⟨-4, -4⟩ ⟨0, 0⟩ ⟨0, 0⟩,
    Body.ofFields 1 ⟨-3, -7⟩ ⟨0, 0⟩ ⟨0, 0⟩] (Body.ofFields 1 ⟨-3, -7⟩ ⟨0, 0⟩ ⟨0, 0⟩)
    (by simp)).1

end Bounding

/-! ## Subdivision (`Quadtree::subdivide`) -/

section Subdivide

variable {K : Type} [LinearOrderedField K]

theorem Quadtree.subdivide_eq (t : Quadtree K) (i : Nat) (n : Node K)
    (hn : t.nodes[i]? = some n) :
    t.subdivide i = some (t.nodes.length,
      { nodes := t.nodes.modify (fun m => { m with children := t.nodes.length }) i ++
          [Node.ofQuad (n.quad.into_quadrant 0) (t.nodes.length + 1),
           Node.ofQuad (n.quad.into_quadrant 1) (t.nodes.length + 2),
           Node.ofQuad (n.quad.into_quadrant 2) (t.nodes.length + 3),
           Node.ofQuad (n.quad.into_quadrant 3) n.next],
        parents := t.parents ++ [i] }) := by
  simp [Quadtree.subdivide, hn, Quad.subdivide_quad]

/-- Reading the node list after `subdivide`: old indices see the old node, with `children`
rewritten at the subdivided index; the four new indices hold the four fresh children. -/
theorem Quadtree.subdivide_getElem? (t t1 : Quadtree K) (i c : Nat) (n : Node K)
    (hn : t.nodes[i]? = some n) (h : t.subdivide i = some (c, t1)) (j : Nat) :
    t1.nodes[j]? =
      if j < t.nodes.length then
        (t.nodes[j]?).map (fun m => if i = j then { m with children := t.nodes.length } else m)
      else if j = t.nodes.length then
        some (Node.ofQuad (n.quad.into_quadrant 0) (t.nodes.length + 1))
      else if j = t.nodes.length + 1 then
        some (Node.ofQuad (n.quad.into_quadrant 1) (t.nodes.length + 2))
      else if j = t.nodes.length + 2 then
        some (Node.ofQuad (n.quad.into_quadrant 2) (t.nodes.length + 3))
      else if j = t.nodes.length + 3 then
        some (Node.ofQuad (n.quad.into_quadrant 3) n.next)
      else none := by
  rw [Quadtree.subdivide_eq t i n hn] at h
  simp only [Option.some.injEq, Prod.mk.injEq] at h
  obtain ⟨-, rfl⟩ := h
  simp only
  by_cases hj : j < t.nodes.length
  · rw [List.getElem?_append_left (by simpa using hj), if_pos hj, List.getElem?_modify]
    rfl
  · rw [List.getElem?_append_right (by simpa using hj), if_neg hj]
    simp only [List.length_modify]
    obtain ⟨d, rfl⟩ : ∃ d, j = t.nodes.length + d := ⟨j - t.nodes.length, by omega⟩
    simp only [Nat.add_sub_cancel_left]
    match d with
    | 0 => simp
    | 1 => simp
    | 2 => simp
    | 3 => simp
    | d + 4 =>
      have e1 : ¬ (t.nodes.length + (d + 4) = t.nodes.length) := by omega
      have e2 : ¬ (d + 4 = 1) := by omega
      have e3 : ¬ (d + 4 = 2) := by omega
      have e4 : ¬ (d + 4 = 3) := by omega
      simp [e1, e2, e3, e4]

/-- C10, contract of `subdivide`: on a tree with `n` nodes and a valid index `i` it returns
`n`; the new tree has `n + 4` nodes; the nodes at `n .. n+3` are childless, carry the quads
`into_quadrant 0 .. 3` of node `i` and the `next` values `n+1, n+2, n+3` and the old `next`
of node `i`; `i` is appended to `parents`; node `i` keeps every field but `children`, which
becomes `n`; every other old node is unchanged. -/
theorem subdivide_contract (t : Quadtree K) (i : Nat) (ni : Node K)
    (hi : t.nodes[i]? = some ni) :
    ∃ t1, t.subdivide i = some (t.nodes.length, t1) ∧
      t1.nodes.length = t.nodes.length + 4 ∧
      t1.parents = t.parents ++ [i] ∧
      t1.nodes[i]? = some { ni with children := t.nodes.length } ∧
      (∀ j m, j ≠ i → t.nodes[j]? = some m → t1.nodes[j]? = some m) ∧
      (t1.nodes[t.nodes.length]?).map (fun m => (m.children, m.next, m.quad)) =
        some (0, t.nodes.length + 1, ni.quad.into_quadrant 0) ∧
      (t1.nodes[t.nodes.length + 1]?).map (fun m => (m.children, m.next, m.quad)) =
        some (0, t.nodes.length + 2, ni.quad.into_quadrant 1) ∧
      (t1.nodes[t.nodes.length + 2]?).map (fun m => (m.children, m.next, m.quad)) =
        some (0, t.nodes.length + 3, ni.quad.into_quadrant 2) ∧
      (t1.nodes[t.nodes.length + 3]?).map (fun m => (m.children, m.next, m.quad)) =
        some (0, ni.next, ni.quad.into_quadrant 3) := by
  have hlt : i < t.nodes.length := (List.getElem?_eq_some.mp hi).1
  refine ⟨_, Quadtree.subdivide_eq t i ni hi, by simp, rfl, ?_, ?_, ?_, ?_, ?_, ?_⟩
  · rw [Quadtree.subdivide_getElem? t _ i _ ni hi (Quadtree.subdivide_eq t i ni hi)]
    simp [hlt, hi]
  · intro j m hji hj
    have hjlt : j < t.nodes.length := (List.getElem?_eq_some.mp hj).1
    rw [Quadtree.subdivide_getElem? t _ i _ ni hi (Quadtree.subdivide_eq t i ni hi)]
    simp [hjlt, hj, Ne.symm hji]
  · rw [Quadtree.subdivide_getElem? t _ i _ ni hi (Quadtree.subdivide_eq t i ni hi)]
    simp [Node.ofQuad]
  · rw [Quadtree.subdivide_getElem? t _ i _ ni hi (Quadtree.subdivide_eq t i ni hi)]
    simp [Node.ofQuad]
  · rw [Quadtree.subdivide_getElem? t _ i _ ni hi (Quadtree.subdivide_eq t i ni hi)]
    simp [Node.ofQuad]
  · rw [Quadtree.subdivide_getElem? t _ i _ ni hi (Quadtree.subdivide_eq t i ni hi)]
    simp [Node.ofQuad]

/-- Witness for C10: subdividing the root of a freshly reset tree over `ℚ`. -/
theorem subdivide_contract_witness :
    ∃ t1, (Quadtree.reset (⟨[], []⟩ : Quadtree ℚ) ⟨⟨0, 0⟩, 8⟩).subdivide 0 = some (1, t1) ∧
      t1.nodes.length = 5 ∧ t1.parents = [0] :=
  (subdivide_contract (Quadtree.reset (⟨[], []⟩ : Quadtree ℚ) ⟨⟨0, 0⟩, 8⟩) 0
    (Node.ofQuad ⟨⟨0, 0⟩, 8⟩ 0) rfl).imp (fun _ h => ⟨h.1, h.2.1, h.2.2.1⟩)

end Subdivide

/-! ## Insertion (`Quadtree::insert`): two levels of subdivision

In a square of side 32 centred at the origin, `(3, 4)` and `(6, 8)` fall in the same quadrant
of the root (NE) and in different quadrants of that child. The subdivision loop of `insert`
then runs twice, and its last branch copies `nodes[node].centm` and `nodes[node].mass` of the
child it moved to, which was created by the first pass and never written, instead of the
occupant of the leaf it started from. -/

section TwoLevels

/-- C1 on the code: after `reset`, the two inserts and `propogate`, the root has children
(`children = 1`) and mass `3`, while the bodies inserted, both of which descend through the
root, have total mass `2 + 3 = 5`. -/
theorem propogate_root_mass_two_levels :
    ((demoTree demoBodies).bind Quadtree.propogate).bind
        (fun t => (t.nodes[0]?).map (fun n => (n.children, n.mass))) = some (1, 3) ∧
      (demoBodies.map Prod.snd).sum = 5 := by
  decide!

/-- C2 on the code: after `reset`, the two inserts and `propogate`, the root's `centm` is
`(6, 8)`, while the centroid of the two bodies is `(24/5, 32/5)`. -/
theorem propogate_root_centm_two_levels :
    ((demoTree demoBodies).bind Quadtree.propogate).bind
        (fun t => (t.nodes[0]?).map (fun n => n.centm)) = some ⟨6, 8⟩ ∧
      ((demoBodies.map (fun b => b.1.smul b.2)).foldl Vec2.add ⟨0, 0⟩).sdiv
        (demoBodies.map Prod.snd).sum = ⟨24 / 5, 32 / 5⟩ := by
  decide!

/-- C3 on the code: with the root a non-empty childless node holding mass 2 at `(3, 4)`, the
descent for `(6, 8)` ends at the root, and after `insert((6, 8), 3)` the nodes are, as
`(children, centm, mass)`: the root and node 2 subdivided, mass 3 at `(6, 8)` in node 5, and
no childless node holding `(3, 4)`: node 7, where the occupant belongs, has mass 0. -/
theorem insert_loses_occupant_two_levels :
    (demoTree [(⟨3, 4⟩, 2)]).map
        (fun t => (t.descend ⟨6, 8⟩ 1 0, t.nodes.map (fun n => (n.children, n.centm, n.mass)))) =
      some (some 0, [(0, ⟨3, 4⟩, 2)]) ∧
    (demoTree demoBodies).map (fun t => t.nodes.map (fun n => (n.children, n.centm, n.mass))) =
      some [(1, ⟨3, 4⟩, 2), (0, ⟨0, 0⟩, 0), (5, ⟨0, 0⟩, 0), (0, ⟨0, 0⟩, 0), (0, ⟨0, 0⟩, 0),
            (0, ⟨6, 8⟩, 3), (0, ⟨0, 0⟩, 0), (0, ⟨0, 0⟩, 0), (0, ⟨0, 0⟩, 0)] := by
  decide!

/-- C8 on the code: the tree built from the two bodies in one order and the tree built from
them in the other order give different accelerations at the query position `(-3, -4)`, which
is at distance 5 from the `centm` of the never-written nodes, 10 from `(3, 4)` and 15 from
`(6, 8)`. In both trees every term that `accel` adds has a denominator that is not zero
(`130`, `1010` or `3390`), listed with its numerator `G * mass`. -/
theorem accel_depends_on_order_two_levels :
    ((demoTree demoBodies).bind Quadtree.propogate).bind
        (fun t => t.accel Constants.compiled sqrtQ 9 ⟨-3, -4⟩) = some ⟨9 / 113000, 3 / 28250⟩ ∧
    ((demoTree demoBodies.reverse).bind Quadtree.propogate).bind
        (fun t => t.accel Constants.compiled sqrtQ 9 ⟨-3, -4⟩) = some ⟨3 / 25250, 2 / 12625⟩ ∧
    ((demoTree demoBodies).bind Quadtree.propogate).bind
        (fun t => (t.walkQuotients Constants.compiled sqrtQ ⟨-3, -4⟩ 9 0 []).map
          (fun qs => qs.map (fun q => (q.1, q.2.1)))) =
      some [(0, 130), (0, 130), (0, 130), (0, 130), (0, 130), (3 / 100, 3390), (0, 130)] ∧
    ((demoTree demoBodies.reverse).bind Quadtree.propogate).bind
        (fun t => (t.walkQuotients Constants.compiled sqrtQ ⟨-3, -4⟩ 9 0 []).map
          (fun qs => qs.map (fun q => (q.1, q.2.1)))) =
      some [(0, 130), (0, 130), (0, 130), (1 / 50, 1010), (0, 130), (0, 130), (0, 130)] := by
  decide!

end TwoLevels

/-! ## Fuel: a loop that returns keeps its result with more fuel -/

section Fuel

variable {K : Type} [LinearOrderedField K]

theorem Quadtree.descend_mono (t : Quadtree K) (p : Vec2 K) {f f1 : Nat} (hf : f ≤ f1)
    {node r : Nat} (h : t.descend p f node = some r) : t.descend p f1 node = some r := by
  induction f generalizing f1 node with
  | zero => simp [Quadtree.descend] at h
  | succ f ih =>
    obtain ⟨g, rfl⟩ : ∃ g, f1 = g + 1 := ⟨f1 - 1, by omega⟩
    simp only [Quadtree.descend] at h ⊢
    cases hn : t.nodes[node]? with
    | none => simp [hn] at h
    | some n =>
      simp only [hn] at h ⊢
      by_cases hc : n.has_children = true
      · rw [if_pos hc] at h ⊢
        exact ih (Nat.le_of_succ_le_succ hf) h
      · rw [if_neg hc] at h ⊢
        exact h

theorem Quadtree.split_mono (body_pos : Vec2 K) (body_mass : K) (bp np : Vec2 K) {f f1 : Nat}
    (hf : f ≤ f1) {t r : Quadtree K} {node : Nat}
    (h : Quadtree.split body_pos body_mass bp np f t node = some r) :
    Quadtree.split body_pos body_mass bp np f1 t node = some r := by
  induction f generalizing f1 t node with
  | zero => simp [Quadtree.split] at h
  | succ f ih =>
    obtain ⟨g, rfl⟩ : ∃ g, f1 = g + 1 := ⟨f1 - 1, by omega⟩
    simp only [Quadtree.split] at h ⊢
    cases hs : t.subdivide node with
    | none => simp [hs] at h
    | some ct =>
      obtain ⟨c, t1⟩ := ct
      simp only [hs] at h ⊢
      cases hn : t1.nodes[node]? with
      | none => simp [hn] at h
      | some n =>
        simp only [hn] at h ⊢
        by_cases hq : n.quad.find_quadrant np = n.quad.find_quadrant bp
        · rw [if_pos hq] at h ⊢
          exact ih (Nat.le_of_succ_le_succ hf) h
        · rw [if_neg hq] at h ⊢
          exact h

theorem Quadtree.insert_mono {f f1 : Nat} (hf : f ≤ f1) {t r : Quadtree K} {p : Vec2 K} {m : K}
    (h : t.insert f p m = some r) : t.insert f1 p m = some r := by
  simp only [Quadtree.insert] at h ⊢
  cases hd : t.descend p f 0 with
  | none => simp [hd] at h
  | some node =>
    rw [Quadtree.descend_mono t p hf hd]
    simp only [hd] at h ⊢
    cases hn : t.nodes[node]? with
    | none => simp [hn] at h
    | some n =>
      simp only [hn] at h ⊢
      by_cases he : n.is_empty = true
      · rw [if_pos he] at h ⊢
        exact h
      · rw [if_neg he] at h ⊢
        by_cases hp : p = n.centm
        · rw [if_pos hp] at h ⊢
          exact h
        · rw [if_neg hp] at h ⊢
          exact Quadtree.split_mono _ _ _ _ hf h

theorem Quadtree.insertAll_mono {f f1 : Nat} (hf : f ≤ f1) {t r : Quadtree K}
    {bodies : List (Vec2 K × K)} (h : Quadtree.insertAll f t bodies = some r) :
    Quadtree.insertAll f1 t bodies = some r := by
  induction bodies generalizing t with
  | nil => simpa [Quadtree.insertAll] using h
  | cons b rest ih =>
    obtain ⟨pos, mass⟩ := b
    simp only [Quadtree.insertAll] at h ⊢
    cases hi : t.insert f pos mass with
    | none => simp [hi] at h
    | some t1 =>
      rw [Quadtree.insert_mono hf hi]
      simp only [hi] at h ⊢
      exact ih h

theorem Quadtree.walk_mono (c : Constants K) (sqrt : K → K) (t : Quadtree K) (p : Vec2 K)
    {f f1 : Nat} (hf : f ≤ f1) {node : Nat} {a : Vec2 K} {seen : List Nat}
    {r : Vec2 K × List Nat} (h : Quadtree.walk c sqrt t p f node a seen = some r) :
    Quadtree.walk c sqrt t p f1 node a seen = some r := by
  induction f generalizing f1 node a seen with
  | zero => simp [Quadtree.walk] at h
  | succ f ih =>
    obtain ⟨g, rfl⟩ : ∃ g, f1 = g + 1 := ⟨f1 - 1, by omega⟩
    simp only [Quadtree.walk] at h ⊢
    cases hn : t.nodes[node]? with
    | none => simp [hn] at h
    | some n =>
      simp only [hn] at h ⊢
      split at h
      · rw [if_pos (by assumption)]
        split at h
        · rw [if_pos (by assumption)]; exact h
        · rw [if_neg (by assumption)]; exact ih (Nat.le_of_succ_le_succ hf) h
      · rw [if_neg (by assumption)]; exact ih (Nat.le_of_succ_le_succ hf) h

theorem Quadtree.accel_mono (c : Constants K) (sqrt : K → K) (t : Quadtree K) (p : Vec2 K)
    {f f1 : Nat} (hf : f ≤ f1) {r : Vec2 K} (h : t.accel c sqrt f p = some r) :
    t.accel c sqrt f1 p = some r := by
  simp only [Quadtree.accel, Option.map_eq_some'] at h ⊢
  obtain ⟨a, ha, rfl⟩ := h
  exact ⟨a, Quadtree.walk_mono c sqrt t p hf ha, rfl⟩

theorem Simulation.evaluate_mono (c : Constants K) (sqrt : K → K) (ygg : Quadtree K)
    {f f1 : Nat} (hf : f ≤ f1) {bodies r : List (Body K)}
    (h : Simulation.evaluate c sqrt f ygg bodies = some r) :
    Simulation.evaluate c sqrt f1 ygg bodies = some r := by
  induction bodies generalizing r with
  | nil => simpa [Simulation.evaluate] using h
  | cons b rest ih =>
    simp only [Simulation.evaluate] at h ⊢
    cases ha : ygg.accel c sqrt f b.pos with
    | none => simp [ha] at h
    | some a =>
      rw [Quadtree.accel_mono c sqrt ygg b.pos hf ha]
      simp only [ha] at h ⊢
      cases hr : Simulation.evaluate c sqrt f ygg rest with
      | none => simp [hr] at h
      | some r1 =>
        rw [ih hr]
        simpa [hr] using h

end Fuel

/-! ## Two bodies and an accepted root (`Quadtree::accel`) -/

section TwoBody

variable {K : Type} [LinearOrderedField K]

theorem Quad.find_quadrant_lt (q : Quad K) (p : Vec2 K) : q.find_quadrant p < 4 := by
  unfold Quad.find_quadrant
  split_ifs <;> omega

theorem Quadtree.insertAll_two_distinct (t0 : Quadtree K) (q : Quad K) (a b : Vec2 K) (M m : K)
    (hM : M ≠ 0) (hq : q.find_quadrant a ≠ q.find_quadrant b) (fuel : Nat) :
    Quadtree.insertAll (fuel + 1) (t0.reset q) [(a, M), (b, m)] =
      some ⟨⟨1, 0, a, M, q⟩ ::
        ((rootKids q).modify (fun k => { k with centm := a, mass := M })
          (q.find_quadrant a)).modify (fun k => { k with centm := b, mass := m })
          (q.find_quadrant b), [0]⟩ := by
  have hab : ¬ (b = a) := fun h => hq (by rw [h])
  have e1 : (1 + q.find_quadrant a) = q.find_quadrant a + 1 := Nat.add_comm _ _
  have e2 : (1 + q.find_quadrant b) = q.find_quadrant b + 1 := Nat.add_comm _ _
  simp [Quadtree.insertAll, Quadtree.insert, Quadtree.descend, Quadtree.reset, Node.ofQuad,
    Node.has_children, Node.is_empty, hM, hab, Quadtree.split, Quadtree.subdivide,
    Quad.subdivide_quad, hq, rootKids, e1, e2]

theorem Quadtree.propogate_root (r c0 c1 c2 c3 : Node K) (hr : r.children = 1) :
    Quadtree.propogate ⟨[r, c0, c1, c2, c3], [0]⟩ =
      some ⟨[{ r with
          centm := ((((c0.centm.smul c0.mass).add (c1.centm.smul c1.mass)).add
            (c2.centm.smul c2.mass)).add (c3.centm.smul c3.mass)).sdiv
              (c0.mass + c1.mass + c2.mass + c3.mass)
          mass := c0.mass + c1.mass + c2.mass + c3.mass }, c0, c1, c2, c3], [0]⟩ := by
  simp only [Quadtree.propogate, List.reverse_cons, List.reverse_nil, List.nil_append,
    Quadtree.propogateLoop, Quadtree.propogateStep, Option.bind_eq_bind,
    List.getElem?_cons_zero, Option.some_bind, hr, List.getElem?_cons_succ,
    List.modify_zero_cons, zero_add, Nat.reduceAdd]

theorem rootKids_sums (q : Quad K) (a b : Vec2 K) (M m : K)
    (k1 k2 : Nat) (h1 : k1 < 4) (h2 : k2 < 4) (hk : k1 ≠ k2) :
    ∃ c0 c1 c2 c3 : Node K,
      ((rootKids q).modify (fun k => { k with centm := a, mass := M }) k1).modify
          (fun k => { k with centm := b, mass := m }) k2 = [c0, c1, c2, c3] ∧
      c0.mass + c1.mass + c2.mass + c3.mass = M + m ∧
      (((c0.centm.smul c0.mass).add (c1.centm.smul c1.mass)).add
            (c2.centm.smul c2.mass)).add (c3.centm.smul c3.mass) = (a.smul M).add (b.smul m) := by
  interval_cases k1 <;> interval_cases k2 <;>
    first
    | exact absurd rfl hk
    | (refine ⟨_, _, _, _, rfl, ?_, ?_⟩
       · simp only [Node.ofQuad]; ring
       · simp only [Node.ofQuad, Vec2.smul, Vec2.add, Vec2.mk.injEq]; constructor <;> ring)

/-- The loop of `accel` on a tree whose root is accepted: one pass, the root's term. -/
theorem Quadtree.accel_root_accepted (c : Constants K) (sqrt : K → K) (t : Quadtree K)
    (body_pos : Vec2 K) (n : Node K) (hn : t.nodes[0]? = some n) (hnext : n.next = 0)
    (hacc : n.quad.length * n.quad.length <
      (Vec2.mag_sq ⟨n.centm.x - body_pos.x, n.centm.y - body_pos.y⟩) * (c.THETA * c.THETA))
    (fuel : Nat) :
    t.accel c sqrt (fuel + 1) body_pos = some (contribution c sqrt n.centm n.mass body_pos) := by
  simp [Quadtree.accel, Quadtree.walk, hn, hnext, hacc, contribution, Vec2.add, Vec2.smul]

/-- C6 as stated fails: for mass 9 at `(1, 1)` and mass 1 at `(4, 5)` under the compiled
constants, the root (side 4, centre of mass at squared distance `81/4` from the orbiter)
passes the acceptance test at the orbiter, and `accel` returns `(-6/2125, -8/2125)`, while
the direct two-body acceleration by the heavy body is `(-27/13000, -9/3250)`. -/
theorem accel_two_body_not_direct :
    ((build_quadtree 1 [heavyBody, orbiter]).bind Quadtree.propogate).bind
        (fun t => (t.nodes[0]?).map (fun n => decide (n.quad.length * n.quad.length <
          (Vec2.mag_sq ⟨n.centm.x - orbiter.pos.x, n.centm.y - orbiter.pos.y⟩) *
            ((Constants.compiled : Constants ℚ).THETA * (Constants.compiled : Constants ℚ).THETA)))) =
      some true ∧
    ((build_quadtree 1 [heavyBody, orbiter]).bind Quadtree.propogate).bind
        (fun t => t.accel Constants.compiled sqrtQ 1 orbiter.pos) =
      some ⟨-6 / 2125, -8 / 2125⟩ ∧
    newtonDirect Constants.compiled sqrtQ heavyBody.mass heavyBody.pos orbiter.pos =
      ⟨-27 / 13000, -9 / 3250⟩ ∧
    ((build_quadtree 1 [heavyBody, orbiter]).bind Quadtree.propogate).bind
        (fun t => t.accel Constants.compiled sqrtQ 1 orbiter.pos) ≠
      some (newtonDirect Constants.compiled sqrtQ heavyBody.mass heavyBody.pos orbiter.pos) := by
  decide!

end TwoBody

/-! ## The threaded traversal (`Quadtree::accel` over `Quadtree::subdivide`) -/

section Threading

theorem length_subdivSkel (s : List (Nat × Nat)) (i x : Nat) :
    (subdivSkel s i x).length = s.length + 4 := by
  simp [subdivSkel]

theorem subdivSkel_getElem? (s : List (Nat × Nat)) (i x j : Nat) :
    (subdivSkel s i x)[j]? =
      if j < s.length then (s[j]?).map (fun e => if i = j then (s.length, e.2) else e)
      else if j = s.length then some (0, s.length + 1)
      else if j = s.length + 1 then some (0, s.length + 2)
      else if j = s.length + 2 then some (0, s.length + 3)
      else if j = s.length + 3 then some (0, x)
      else none := by
  unfold subdivSkel
  by_cases hj : j < s.length
  · rw [List.getElem?_append_left (by simpa using hj), if_pos hj, List.getElem?_modify]
    rfl
  · rw [List.getElem?_append_right (by simpa using hj), if_neg hj]
    simp only [List.length_modify]
    obtain ⟨d, rfl⟩ : ∃ d, j = s.length + d := ⟨j - s.length, by omega⟩
    simp only [Nat.add_sub_cancel_left]
    match d with
    | 0 => simp
    | 1 => simp
    | 2 => simp
    | 3 => simp
    | d + 4 =>
      have e1 : ¬ (s.length + (d + 4) = s.length) := by omega
      have e2 : ¬ (d + 4 = 1) := by omega
      have e3 : ¬ (d + 4 = 2) := by omega
      have e4 : ¬ (d + 4 = 3) := by omega
      simp [e1, e2, e3, e4]

/-- Reading an entry of the list after a subdivision: an old entry, with `children`
rewritten at the subdivided index, or one of the four new childless entries. -/
theorem subdivSkel_inv (s : List (Nat × Nat)) (i x j c y : Nat)
    (h : (subdivSkel s i x)[j]? = some (c, y)) :
    (j < s.length ∧ ∃ c0, s[j]? = some (c0, y) ∧ c = if i = j then s.length else c0) ∨
    (s.length ≤ j ∧ j < s.length + 4 ∧ c = 0 ∧ y = if j = s.length + 3 then x else j + 1) := by
  rw [subdivSkel_getElem?] at h
  by_cases hj : j < s.length
  · left
    rw [if_pos hj] at h
    obtain ⟨e, he, hce⟩ := Option.map_eq_some'.mp h
    obtain ⟨c0, y0⟩ := e
    refine ⟨hj, c0, ?_, ?_⟩
    · by_cases hij : i = j
      · simp only [hij, if_true, Prod.mk.injEq] at hce
        rw [he, ← hce.2]
      · simp only [hij, if_false, Prod.mk.injEq] at hce
        rw [he, ← hce.2]
    · by_cases hij : i = j
      · simp only [hij, if_true, Prod.mk.injEq] at hce ⊢
        exact hce.1.symm
      · simp only [hij, if_false, Prod.mk.injEq] at hce ⊢
        exact hce.1.symm
  · right
    rw [if_neg hj] at h
    split_ifs at h with h0 h1 h2 h3 <;>
      simp only [Option.some.injEq, Prod.mk.injEq] at h <;>
      refine ⟨by omega, by omega, h.1.symm, ?_⟩
    · rw [if_neg (by omega)]; omega
    · rw [if_neg (by omega)]; omega
    · rw [if_neg (by omega)]; omega
    · rw [if_pos h3]; exact h.2.symm

/-- An old entry stays where it was, up to `children` at the subdivided index. -/
theorem subdivSkel_old (s : List (Nat × Nat)) (i x j c y : Nat) (h : s[j]? = some (c, y)) :
    (subdivSkel s i x)[j]? = some (if i = j then s.length else c, y) := by
  have hj : j < s.length := (List.getElem?_eq_some.mp h).1
  rw [subdivSkel_getElem?, if_pos hj, h]
  by_cases hij : i = j <;> simp [hij]

theorem Threaded.children_lt {s : List (Nat × Nat)} (hs : Threaded s) {i c x : Nat}
    (h : s[i]? = some (c, x)) (hc : c ≠ 0) : c + 3 < s.length := by
  obtain ⟨-, -, c0, c1, c2, c3, -, -, -, h3⟩ := hs.kids i c x h hc
  exact (List.getElem?_eq_some.mp h3).1

/-- The invariant survives `subdivide` of any valid index. -/
theorem Threaded.subdivSkel {s : List (Nat × Nat)} (hs : Threaded s) {i ci x : Nat}
    (hi : s[i]? = some (ci, x)) : Threaded (subdivSkel s i x) := by
  have hilt : i < s.length := (List.getElem?_eq_some.mp hi).1
  have hxlt : x < s.length := hs.next_lt i ci x hi
  have hlen := hs.len
  have new0 : (NBody.subdivSkel s i x)[s.length]? = some (0, s.length + 1) := by
    rw [subdivSkel_getElem?]; simp
  have new1 : (NBody.subdivSkel s i x)[s.length + 1]? = some (0, s.length + 1 + 1) := by
    rw [subdivSkel_getElem?]; simp
  have new2 : (NBody.subdivSkel s i x)[s.length + 2]? = some (0, s.length + 3) := by
    rw [subdivSkel_getElem?]; simp
  have new3 : (NBody.subdivSkel s i x)[s.length + 3]? = some (0, x) := by
    rw [subdivSkel_getElem?]; simp
  refine ⟨?_, ?_, ?_, ?_, ?_⟩
  · obtain ⟨c, hc⟩ := hs.root
    exact ⟨_, subdivSkel_old s i x 0 c 0 hc⟩
  · intro j c y h
    rw [length_subdivSkel]
    rcases subdivSkel_inv s i x j c y h with ⟨-, c0, h0, -⟩ | ⟨h1, h2, -, hy⟩
    · have := hs.next_lt j c0 y h0
      omega
    · split_ifs at hy <;> omega
  · intro j c y h hc
    rcases subdivSkel_inv s i x j c y h with ⟨hj, c0, h0, hceq⟩ | ⟨-, -, hc0, -⟩
    · by_cases hij : i = j
      · subst hij
        rw [if_pos rfl] at hceq
        rw [hi] at h0
        simp only [Option.some.injEq, Prod.mk.injEq] at h0
        obtain ⟨-, rfl⟩ := h0
        subst hceq
        exact ⟨hilt, hlen, 0, 0, 0, 0, new0, new1, new2, new3⟩
      · rw [if_neg hij] at hceq
        subst hceq
        obtain ⟨hlt, hmod, k0, k1, k2, k3, e0, e1, e2, e3⟩ := hs.kids j c y h0 hc
        exact ⟨hlt, hmod, _, _, _, _, subdivSkel_old s i x _ _ _ e0,
          subdivSkel_old s i x _ _ _ e1, subdivSkel_old s i x _ _ _ e2,
          subdivSkel_old s i x _ _ _ e3⟩
    · exact absurd hc0 hc
  · intro j1 j2 c y1 y2 h1 h2 hc
    rcases subdivSkel_inv s i x j1 c y1 h1 with ⟨-, c1, e1, hc1⟩ | ⟨-, -, hc0, -⟩
    · rcases subdivSkel_inv s i x j2 c y2 h2 with ⟨-, c2, e2, hc2⟩ | ⟨-, -, hc0, -⟩
      · by_cases hi1 : i = j1 <;> by_cases hi2 : i = j2
        · rw [← hi1, ← hi2]
        · rw [if_pos hi1] at hc1
          rw [if_neg hi2] at hc2
          have := hs.children_lt e2 (by rw [← hc2]; exact hc)
          omega
        · rw [if_neg hi1] at hc1
          rw [if_pos hi2] at hc2
          have := hs.children_lt e1 (by rw [← hc1]; exact hc)
          omega
        · rw [if_neg hi1] at hc1
          rw [if_neg hi2] at hc2
          subst hc1
          rw [← hc2] at e2
          exact hs.uniq j1 j2 c y1 y2 e1 e2 hc
      · exact absurd hc0 hc
    · exact absurd hc0 hc
  · rw [length_subdivSkel]
    omega

theorem IsChild.lt {s : List (Nat × Nat)} (hs : Threaded s) {p j : Nat} (h : IsChild s p j) :
    p < j := by
  obtain ⟨c, x, hp, hc, h1, -⟩ := h
  have := (hs.kids p c x hp hc).1
  omega

theorem IsChild.unique {s : List (Nat × Nat)} (hs : Threaded s) {p q j : Nat}
    (h1 : IsChild s p j) (h2 : IsChild s q j) : p = q := by
  obtain ⟨c, x, hp, hc, a1, a2⟩ := h1
  obtain ⟨d, y, hq, hd, b1, b2⟩ := h2
  have m1 := (hs.kids p c x hp hc).2.1
  have m2 := (hs.kids q d y hq hd).2.1
  have hcd : c = d := by omega
  subst hcd
  exact hs.uniq p q c x y hp hq hc

theorem Desc.le {s : List (Nat × Nat)} (hs : Threaded s) {i j : Nat} (h : Desc s i j) :
    i ≤ j := by
  induction h with
  | refl => exact Nat.le_refl _
  | step _ hc ih => exact Nat.le_trans ih (Nat.le_of_lt (hc.lt hs))

theorem Desc.trans {s : List (Nat × Nat)} {a b c : Nat} (h1 : Desc s a b) (h2 : Desc s b c) :
    Desc s a c := by
  induction h2 with
  | refl => exact h1
  | step _ hc ih => exact Desc.step ih hc

/-- The ancestors of an index form a chain. -/
theorem Desc.chain {s : List (Nat × Nat)} (hs : Threaded s) {x y j : Nat}
    (hy : Desc s y j) (hx : Desc s x j) (hxy : x ≤ y) : Desc s x y := by
  induction hy with
  | refl => exact hx
  | @step p j _ hc ih =>
    cases hx with
    | refl =>
      have h1 := Desc.le hs (by assumption : Desc s y p)
      have h2 := hc.lt hs
      omega
    | step hx1 hc1 =>
      have := IsChild.unique hs hc hc1
      subst this
      exact ih hx1

/-- The subtrees of two different children of a node are disjoint. -/
theorem Desc.siblings {s : List (Nat × Nat)} (hs : Threaded s) {p x y j : Nat}
    (hx : IsChild s p x) (hy : IsChild s p y) (hxy : x < y)
    (h1 : Desc s x j) (h2 : Desc s y j) : False := by
  have h := Desc.chain hs h2 h1 (Nat.le_of_lt hxy)
  cases h with
  | refl => omega
  | step hq hc =>
    have := IsChild.unique hs hc hy
    subst this
    have h3 := Desc.le hs hq
    have h4 := hx.lt hs
    omega

theorem skel_getElem? {K : Type} (t : Quadtree K) (i : Nat) :
    (skel t)[i]? = (t.nodes[i]?).map (fun n => (n.children, n.next)) := by
  simp [skel]

theorem skel_length {K : Type} (t : Quadtree K) : (skel t).length = t.nodes.length := by
  simp [skel]

/-- Writing `centm` and `mass` of a node leaves the `(children, next)` list as it was. -/
theorem skel_modify {K : Type} (nodes : List (Node K)) (parents parents1 : List Nat) (f : Node K → Node K)
    (i : Nat) (hf : ∀ n, (f n).children = n.children ∧ (f n).next = n.next) :
    skel ⟨nodes.modify f i, parents1⟩ = skel ⟨nodes, parents⟩ := by
  apply List.ext_getElem?
  intro j
  rw [skel_getElem?, skel_getElem?]
  simp only [List.getElem?_modify]
  cases nodes[j]? with
  | none => rfl
  | some n =>
    by_cases hij : i = j
    · simp [hij, (hf n).1, (hf n).2]
    · simp [hij]

theorem threaded_modify {K : Type} (nodes : List (Node K)) (parents parents1 : List Nat)
    (f : Node K → Node K) (i : Nat) (hf : ∀ n, (f n).children = n.children ∧ (f n).next = n.next)
    (h : Threaded (skel ⟨nodes, parents⟩)) : Threaded (skel ⟨nodes.modify f i, parents1⟩) := by
  rw [skel_modify nodes parents parents1 f i hf]
  exact h

theorem skel_node {K : Type} (t : Quadtree K) (i c x : Nat) (h : (skel t)[i]? = some (c, x)) :
    ∃ n, t.nodes[i]? = some n ∧ n.children = c ∧ n.next = x := by
  rw [skel_getElem?] at h
  obtain ⟨n, hn, he⟩ := Option.map_eq_some'.mp h
  simp only [Prod.mk.injEq] at he
  exact ⟨n, hn, he.1, he.2⟩

variable {K : Type} [LinearOrderedField K]

theorem skel_reset (t0 : Quadtree K) (q : Quad K) : skel (t0.reset q) = [(0, 0)] := rfl

theorem threaded_reset : Threaded [(0, 0)] := by
  refine ⟨⟨0, rfl⟩, ?_, ?_, ?_, rfl⟩
  · intro i c x h
    match i with
    | 0 =>
      simp only [List.getElem?_cons_zero, Option.some.injEq, Prod.mk.injEq] at h
      simp [← h.2]
    | i + 1 => simp at h
  · intro i c x h hc
    match i with
    | 0 =>
      simp only [List.getElem?_cons_zero, Option.some.injEq, Prod.mk.injEq] at h
      exact absurd h.1.symm hc
    | i + 1 => simp at h
  · intro i j c x y h1 h2 hc
    match i, j with
    | 0, 0 => rfl
    | i + 1, _ => simp at h1
    | 0, j + 1 => simp at h2

theorem skel_subdivide (t t1 : Quadtree K) (i c : Nat) (n : Node K)
    (hn : t.nodes[i]? = some n) (h : t.subdivide i = some (c, t1)) :
    skel t1 = subdivSkel (skel t) i n.next := by
  apply List.ext_getElem?
  intro j
  rw [skel_getElem?, Quadtree.subdivide_getElem? t t1 i c n hn h j, subdivSkel_getElem?,
    skel_length, skel_getElem?]
  by_cases hj : j < t.nodes.length
  · rw [if_pos hj, if_pos hj]
    cases t.nodes[j]? with
    | none => rfl
    | some m => by_cases hij : i = j <;> simp [hij]
  · rw [if_neg hj, if_neg hj]
    split_ifs <;> simp [Node.ofQuad]

theorem Quadtree.split_threaded (body_pos : Vec2 K) (body_mass : K) (bp np : Vec2 K)
    (fuel : Nat) (t r : Quadtree K) (node : Nat) (ht : Threaded (skel t))
    (h : Quadtree.split body_pos body_mass bp np fuel t node = some r) :
    Threaded (skel r) := by
  induction fuel generalizing t node r with
  | zero => simp [Quadtree.split] at h
  | succ fuel ih =>
    simp only [Quadtree.split] at h
    cases hs : t.subdivide node with
    | none => simp [hs] at h
    | some ct =>
      obtain ⟨c, t1⟩ := ct
      simp only [hs] at h
      have hnode : ∃ n0, t.nodes[node]? = some n0 := by
        cases hn0 : t.nodes[node]? with
        | none => simp [Quadtree.subdivide, hn0] at hs
        | some n0 => exact ⟨n0, rfl⟩
      obtain ⟨n0, hn0⟩ := hnode
      have ht1 : Threaded (skel t1) := by
        rw [skel_subdivide t t1 node c n0 hn0 hs]
        have hsk : (skel t)[node]? = some (n0.children, n0.next) := by
          rw [skel_getElem?, hn0]; rfl
        exact ht.subdivSkel hsk
      cases hn : t1.nodes[node]? with
      | none => simp [hn] at h
      | some n =>
        simp only [hn] at h
        by_cases hq : n.quad.find_quadrant np = n.quad.find_quadrant bp
        · rw [if_pos hq] at h
          exact ih t1 r _ ht1 h
        · rw [if_neg hq] at h
          simp only [Option.some.injEq] at h
          subst h
          exact threaded_modify _ t1.parents _ _ _ (fun _ => ⟨rfl, rfl⟩)
            (threaded_modify _ t1.parents t1.parents _ _ (fun _ => ⟨rfl, rfl⟩) ht1)

theorem Quadtree.insert_threaded (fuel : Nat) (t r : Quadtree K) (p : Vec2 K) (m : K)
    (ht : Threaded (skel t)) (h : t.insert fuel p m = some r) : Threaded (skel r) := by
  simp only [Quadtree.insert] at h
  cases hd : t.descend p fuel 0 with
  | none => simp [hd] at h
  | some node =>
    simp only [hd] at h
    cases hn : t.nodes[node]? with
    | none => simp [hn] at h
    | some n =>
      simp only [hn] at h
      by_cases he : n.is_empty = true
      · rw [if_pos he] at h
        simp only [Option.some.injEq] at h
        subst h
        exact threaded_modify _ t.parents _ _ _ (fun _ => ⟨rfl, rfl⟩) ht
      · rw [if_neg he] at h
        by_cases hp : p = n.centm
        · rw [if_pos hp] at h
          simp only [Option.some.injEq] at h
          subst h
          exact threaded_modify _ t.parents _ _ _ (fun _ => ⟨rfl, rfl⟩) ht
        · rw [if_neg hp] at h
          exact Quadtree.split_threaded _ _ _ _ fuel t r node ht h

/-- Every tree reachable from `reset` by inserts satisfies the threading invariant. -/
theorem Reachable.threaded {t : Quadtree K} (h : Reachable t) : Threaded (skel t) := by
  induction h with
  | reset t0 q => exact threaded_reset
  | insert fuel p m _ hi ih => exact Quadtree.insert_threaded fuel _ _ p m ih hi

theorem Vec2.add_add (a b c : Vec2 K) : (a.add b).add c = a.add (b.add c) := by
  simp [Vec2.add, add_assoc]

/-- The loop of `accel` entered at node `i` leaves the subtree of `i` after finitely many
passes, having read only indices of that subtree, each once, and then either stops (when
`next` of `i` is `0`) or continues at `next` of `i`. -/
theorem Quadtree.walk_subtree (c : Constants K) (sqrt : K → K) (t : Quadtree K) (p : Vec2 K)
    (ht : Threaded (skel t)) (d i : Nat) (n : Node K) (hn : t.nodes[i]? = some n)
    (hd : t.nodes.length - i ≤ d) :
    ∃ (k : Nat) (v : Vec2 K) (tr : List Nat), tr.Nodup ∧
      (∀ j ∈ tr, Desc (skel t) i j ∧ j < t.nodes.length) ∧
      ∀ (fuel : Nat) (acc : Vec2 K) (seen : List Nat),
        Quadtree.walk c sqrt t p (fuel + k) i acc seen =
          if n.next = 0 then some (acc.add v, tr ++ seen)
          else Quadtree.walk c sqrt t p fuel n.next (acc.add v) (tr ++ seen) := by
  have hilt : i < t.nodes.length := (List.getElem?_eq_some.mp hn).1
  induction d generalizing i n with
  | zero => omega
  | succ d ih =>
    by_cases hacc : n.is_leaf = true ∨ n.quad.length * n.quad.length <
        (Vec2.mag_sq ⟨n.centm.x - p.x, n.centm.y - p.y⟩) * (c.THETA * c.THETA)
    · refine ⟨1, contribution c sqrt n.centm n.mass p, [i], List.nodup_singleton i, ?_, ?_⟩
      · intro j hj
        rw [List.mem_singleton] at hj
        subst hj
        exact ⟨Desc.refl _, hilt⟩
      · intro fuel acc seen
        simp only [Quadtree.walk, hn, if_pos hacc]
        rfl
    · have hch : n.children ≠ 0 := by
        intro h0
        exact hacc (Or.inl (by simp [Node.is_leaf, h0]))
      have hsk : (skel t)[i]? = some (n.children, n.next) := by rw [skel_getElem?, hn]; rfl
      obtain ⟨hlt, -, c0, c1, c2, c3, e0, e1, e2, e3⟩ := ht.kids i n.children n.next hsk hch
      obtain ⟨n0, hn0, -, hx0⟩ := skel_node t _ _ _ e0
      obtain ⟨n1, hn1, -, hx1⟩ := skel_node t _ _ _ e1
      obtain ⟨n2, hn2, -, hx2⟩ := skel_node t _ _ _ e2
      obtain ⟨n3, hn3, -, hx3⟩ := skel_node t _ _ _ e3
      have l0 := (List.getElem?_eq_some.mp hn0).1
      have l1 := (List.getElem?_eq_some.mp hn1).1
      have l2 := (List.getElem?_eq_some.mp hn2).1
      have l3 := (List.getElem?_eq_some.mp hn3).1
      obtain ⟨k0, v0, tr0, nd0, m0, w0⟩ := ih _ n0 hn0 (by omega) l0
      obtain ⟨k1, v1, tr1, nd1, m1, w1⟩ := ih _ n1 hn1 (by omega) l1
      obtain ⟨k2, v2, tr2, nd2, m2, w2⟩ := ih _ n2 hn2 (by omega) l2
      obtain ⟨k3, v3, tr3, nd3, m3, w3⟩ := ih _ n3 hn3 (by omega) l3
      have ch0 : IsChild (skel t) i n.children := ⟨_, _, hsk, hch, by omega, by omega⟩
      have ch1 : IsChild (skel t) i (n.children + 1) := ⟨_, _, hsk, hch, by omega, by omega⟩
      have ch2 : IsChild (skel t) i (n.children + 2) := ⟨_, _, hsk, hch, by omega, by omega⟩
      have ch3 : IsChild (skel t) i (n.children + 3) := ⟨_, _, hsk, hch, by omega, by omega⟩
      have notI : ∀ (x : Nat) (tr : List Nat), i < x →
          (∀ j ∈ tr, Desc (skel t) x j ∧ j < t.nodes.length) → i ∉ tr := by
        intro x tr hx hm hi
        have := Desc.le ht (hm i hi).1
        omega
      have disj : ∀ (x y : Nat) (tx ty : List Nat), IsChild (skel t) i x →
          IsChild (skel t) i y → x < y →
          (∀ j ∈ tx, Desc (skel t) x j ∧ j < t.nodes.length) →
          (∀ j ∈ ty, Desc (skel t) y j ∧ j < t.nodes.length) → ∀ j, j ∈ tx → j ∈ ty → False := by
        intro x y tx ty hx hy hxy hmx hmy j hjx hjy
        exact Desc.siblings ht hx hy hxy (hmx j hjx).1 (hmy j hjy).1
      refine ⟨k0 + k1 + k2 + k3 + 1, v0.add (v1.add (v2.add v3)),
        tr3 ++ (tr2 ++ (tr1 ++ (tr0 ++ [i]))), ?_, ?_, ?_⟩
      · simp only [List.nodup_append, List.disjoint_left, List.mem_append, List.mem_singleton,
          List.nodup_singleton]
        refine ⟨nd3, ⟨nd2, ⟨nd1, ⟨nd0, trivial, ?_⟩, ?_⟩, ?_⟩, ?_⟩
        · intro j hj hji
          subst hji
          exact notI _ tr0 hlt m0 hj
        · intro j hj hor
          rcases hor with h | h
          · exact disj _ _ tr0 tr1 ch0 ch1 (by omega) m0 m1 j h hj
          · subst h
            exact notI _ tr1 (by omega) m1 hj
        · intro j hj hor
          rcases hor with h | h | h
          · exact disj _ _ tr1 tr2 ch1 ch2 (by omega) m1 m2 j h hj
          · exact disj _ _ tr0 tr2 ch0 ch2 (by omega) m0 m2 j h hj
          · subst h
            exact notI _ tr2 (by omega) m2 hj
        · intro j hj hor
          rcases hor with h | h | h | h
          · exact disj _ _ tr2 tr3 ch2 ch3 (by omega) m2 m3 j h hj
          · exact disj _ _ tr1 tr3 ch1 ch3 (by omega) m1 m3 j h hj
          · exact disj _ _ tr0 tr3 ch0 ch3 (by omega) m0 m3 j h hj
          · subst h
            exact notI _ tr3 (by omega) m3 hj
      · intro j hj
        simp only [List.mem_append, List.mem_singleton] at hj
        rcases hj with h | h | h | h | h
        · exact ⟨Desc.trans (Desc.step (Desc.refl i) ch3) (m3 j h).1, (m3 j h).2⟩
        · exact ⟨Desc.trans (Desc.step (Desc.refl i) ch2) (m2 j h).1, (m2 j h).2⟩
        · exact ⟨Desc.trans (Desc.step (Desc.refl i) ch1) (m1 j h).1, (m1 j h).2⟩
        · exact ⟨Desc.trans (Desc.step (Desc.refl i) ch0) (m0 j h).1, (m0 j h).2⟩
        · subst h
          exact ⟨Desc.refl _, hilt⟩
      · intro fuel acc seen
        have ef : fuel + (k0 + k1 + k2 + k3 + 1) = (fuel + k3 + k2 + k1 + k0) + 1 := by omega
        rw [ef]
        simp only [Quadtree.walk, hn, if_neg hacc]
        rw [w0, hx0, if_neg (Nat.succ_ne_zero _), w1, hx1, if_neg (Nat.succ_ne_zero _),
          w2, hx2, if_neg (Nat.succ_ne_zero _), w3, hx3]
        simp only [Vec2.add_add, List.append_assoc, List.singleton_append]

theorem Reachable.insertAll {t r : Quadtree K} (h : Reachable t) (fuel : Nat)
    (bodies : List (Vec2 K × K)) (hr : Quadtree.insertAll fuel t bodies = some r) :
    Reachable r := by
  induction bodies generalizing t with
  | nil =>
    simp only [Quadtree.insertAll, Option.some.injEq] at hr
    exact hr ▸ h
  | cons b rest ih =>
    obtain ⟨pos, mass⟩ := b
    simp only [Quadtree.insertAll] at hr
    cases hi : t.insert fuel pos mass with
    | none => simp [hi] at hr
    | some t1 =>
      simp only [hi] at hr
      exact ih (Reachable.insert fuel pos mass h hi) hr

/-- C9, the query loop terminates and is single-pass: on every tree reachable from `reset`
by inserts, for every query position and every choice of constants, there is a number of
passes `k` after which the loop of `accel` has returned (for every fuel from `k` on); every
index it read is a valid node index, and no index was read twice. -/
theorem accel_terminates_single_pass (c : Constants K) (sqrt : K → K) (t : Quadtree K)
    (h : Reachable t) (p : Vec2 K) :
    ∃ (k : Nat) (v : Vec2 K) (seen : List Nat),
      (∀ fuel, Quadtree.walk c sqrt t p (fuel + k) 0 ⟨0, 0⟩ [] = some (v, seen)) ∧
      (∀ fuel, t.accel c sqrt (fuel + k) p = some v) ∧
      seen.Nodup ∧ ∀ j ∈ seen, j < t.nodes.length := by
  have ht := h.threaded
  obtain ⟨c0, hc0⟩ := ht.root
  obtain ⟨n, hn, -, hx⟩ := skel_node t 0 c0 0 hc0
  obtain ⟨k, v, tr, nd, hm, hw⟩ :=
    Quadtree.walk_subtree c sqrt t p ht t.nodes.length 0 n hn (Nat.sub_le _ _)
  have hw1 : ∀ fuel, Quadtree.walk c sqrt t p (fuel + k) 0 ⟨0, 0⟩ [] =
      some ((⟨0, 0⟩ : Vec2 K).add v, tr) := by
    intro fuel
    rw [hw fuel ⟨0, 0⟩ [], if_pos hx, List.append_nil]
  refine ⟨k, (⟨0, 0⟩ : Vec2 K).add v, tr, hw1, ?_, nd, fun j hj => (hm j hj).2⟩
  intro fuel
  simp [Quadtree.accel, hw1 fuel]

theorem deepTree_reachable : Reachable deepTree ∧ deepTree.parents = [0, 2, 7, 11] :=
  ⟨Reachable.insertAll (Reachable.reset ⟨[], []⟩ ⟨⟨0, 0⟩, 32⟩) 4
    [(⟨1, 1⟩, 1), (⟨3, 3⟩, 1)] (by decide!), by decide!⟩

/-- Witness for C9: a query on the tree subdivided three levels deep. -/
theorem accel_terminates_single_pass_witness :
    ∃ (k : Nat) (v : Vec2 ℚ) (seen : List Nat),
      (∀ fuel, Quadtree.walk Constants.compiled sqrtQ deepTree ⟨5, 5⟩ (fuel + k) 0 ⟨0, 0⟩ [] =
        some (v, seen)) ∧
      (∀ fuel, deepTree.accel Constants.compiled sqrtQ (fuel + k) ⟨5, 5⟩ = some v) ∧
      seen.Nodup ∧ ∀ j ∈ seen, j < deepTree.nodes.length :=
  accel_terminates_single_pass Constants.compiled sqrtQ deepTree deepTree_reachable.1 ⟨5, 5⟩

end Threading

/-! ## Geometry and integration (`find_quadrant`, `into_quadrant`, `Body::update`) -/

section Geometry

variable {K : Type} [LinearOrderedField K]

/-- C13, quadrant classification with left/top ties: `find_quadrant` returns 0 (NW) exactly
when `p.x <= center.x` and `p.y >= center.y`, 1 (NE) exactly when `p.x > center.x` and
`p.y >= center.y`, 2 (SW) exactly when `p.x <= center.x` and `p.y < center.y`, 3 (SE) exactly
when `p.x > center.x` and `p.y < center.y`; the centre of the square classifies as 0. -/
theorem find_quadrant_spec (q : Quad K) (p : Vec2 K) :
    (q.find_quadrant p = 0 ↔ p.x ≤ q.center.x ∧ p.y ≥ q.center.y) ∧
    (q.find_quadrant p = 1 ↔ p.x > q.center.x ∧ p.y ≥ q.center.y) ∧
    (q.find_quadrant p = 2 ↔ p.x ≤ q.center.x ∧ p.y < q.center.y) ∧
    (q.find_quadrant p = 3 ↔ p.x > q.center.x ∧ p.y < q.center.y) ∧
    q.find_quadrant q.center = 0 := by
  have key : ∀ k : Nat, (if p.x ≤ q.center.x ∧ p.y ≥ q.center.y then 0
      else if p.x > q.center.x ∧ p.y ≥ q.center.y then 1
      else if p.x ≤ q.center.x ∧ p.y < q.center.y then 2 else 3) = k ↔
      (k = 0 ∧ p.x ≤ q.center.x ∧ p.y ≥ q.center.y) ∨
      (k = 1 ∧ p.x > q.center.x ∧ p.y ≥ q.center.y) ∨
      (k = 2 ∧ p.x ≤ q.center.x ∧ p.y < q.center.y) ∨
      (k = 3 ∧ p.x > q.center.x ∧ p.y < q.center.y) := by
    intro k
    rcases le_or_lt p.x q.center.x with hx | hx <;>
      rcases le_or_lt q.center.y p.y with hy | hy
    · have a1 : ¬ (p.x > q.center.x) := not_lt.mpr hx
      have a2 : ¬ (p.y < q.center.y) := not_lt.mpr hy
      simp only [hx, hy, a1, a2, ge_iff_le, and_self, if_true, and_false, false_and, or_false]
      exact ⟨fun h => ⟨h.symm, trivial⟩, fun h => h.1.symm⟩
    · have a1 : ¬ (p.x > q.center.x) := not_lt.mpr hx
      have a2 : ¬ (q.center.y ≤ p.y) := not_le.mpr hy
      simp only [hx, hy, a1, a2, ge_iff_le, and_self, if_true, and_false, false_and, or_false,
        false_or, and_true, if_false]
      exact ⟨fun h => h.symm, fun h => h.symm⟩
    · have a1 : ¬ (p.x ≤ q.center.x) := not_le.mpr hx
      have a2 : ¬ (p.y < q.center.y) := not_lt.mpr hy
      simp only [hx, hy, a1, a2, ge_iff_le, gt_iff_lt, and_self, if_true, and_false, false_and,
        or_false, false_or, and_true, if_false]
      exact ⟨fun h => h.symm, fun h => h.symm⟩
    · have a1 : ¬ (p.x ≤ q.center.x) := not_le.mpr hx
      have a2 : ¬ (q.center.y ≤ p.y) := not_le.mpr hy
      simp only [hx, hy, a1, a2, ge_iff_le, gt_iff_lt, and_self, if_true, and_false, false_and,
        or_false, false_or, and_true, if_false]
      exact ⟨fun h => h.symm, fun h => h.symm⟩
  unfold Quad.find_quadrant
  refine ⟨?_, ?_, ?_, ?_, ?_⟩
  · rw [key 0]; simp
  · rw [key 1]; simp
  · rw [key 2]; simp
  · rw [key 3]; simp
  · simp

/-- C14, child squares: `into_quadrant k` of a square with centre `(cx, cy)` and side `L` has
side `L/2` and centre `(cx - L/4, cy + L/4)` for `k = 0`, `(cx + L/4, cy + L/4)` for `k = 1`,
`(cx - L/4, cy - L/4)` for `k = 2`, `(cx + L/4, cy - L/4)` for `k = 3`, and `subdivide_quad`
returns these four squares in the order NW, NE, SW, SE. -/
theorem into_quadrant_spec (q : Quad K) :
    q.into_quadrant 0 = ⟨⟨q.center.x - q.length / 4, q.center.y + q.length / 4⟩, q.length / 2⟩ ∧
    q.into_quadrant 1 = ⟨⟨q.center.x + q.length / 4, q.center.y + q.length / 4⟩, q.length / 2⟩ ∧
    q.into_quadrant 2 = ⟨⟨q.center.x - q.length / 4, q.center.y - q.length / 4⟩, q.length / 2⟩ ∧
    q.into_quadrant 3 = ⟨⟨q.center.x + q.length / 4, q.center.y - q.length / 4⟩, q.length / 2⟩ ∧
    q.subdivide_quad =
      [⟨⟨q.center.x - q.length / 4, q.center.y + q.length / 4⟩, q.length / 2⟩,
       ⟨⟨q.center.x + q.length / 4, q.center.y + q.length / 4⟩, q.length / 2⟩,
       ⟨⟨q.center.x - q.length / 4, q.center.y - q.length / 4⟩, q.length / 2⟩,
       ⟨⟨q.center.x + q.length / 4, q.center.y - q.length / 4⟩, q.length / 2⟩] := by
  have e4 : q.length / 2 * (1 / 2) = q.length / 4 := by ring
  have e2 : q.length * (1 / 2) = q.length / 2 := by ring
  have h0 : q.into_quadrant 0 =
      ⟨⟨q.center.x - q.length / 4, q.center.y + q.length / 4⟩, q.length / 2⟩ := by
    simp only [Quad.into_quadrant, e2, e4]
  have h1 : q.into_quadrant 1 =
      ⟨⟨q.center.x + q.length / 4, q.center.y + q.length / 4⟩, q.length / 2⟩ := by
    simp only [Quad.into_quadrant, e2, e4]
  have h2 : q.into_quadrant 2 =
      ⟨⟨q.center.x - q.length / 4, q.center.y - q.length / 4⟩, q.length / 2⟩ := by
    simp only [Quad.into_quadrant, e2, e4]
  have h3 : q.into_quadrant 3 =
      ⟨⟨q.center.x + q.length / 4, q.center.y - q.length / 4⟩, q.length / 2⟩ := by
    simp only [Quad.into_quadrant, e2, e4]
  refine ⟨h0, h1, h2, h3, ?_⟩
  simp only [Quad.subdivide_quad, h0, h1, h2, h3]

/-- C16, `Body::update` is a semi-implicit Euler step: the new velocity is
`vel + accel * delta_t`, the new position is `pos` plus the new velocity times `delta_t`,
which is `pos + vel * delta_t + accel * delta_t^2`, and `accel`, `mass` (and `radius`) are
unchanged. -/
theorem update_spec (b : Body K) (delta_t : K) :
    (b.update delta_t).vel = b.vel.add (b.accel.smul delta_t) ∧
    (b.update delta_t).pos = b.pos.add ((b.update delta_t).vel.smul delta_t) ∧
    (b.update delta_t).pos =
      ⟨b.pos.x + b.vel.x * delta_t + b.accel.x * delta_t ^ 2,
       b.pos.y + b.vel.y * delta_t + b.accel.y * delta_t ^ 2⟩ ∧
    (b.update delta_t).accel = b.accel ∧ (b.update delta_t).mass = b.mass ∧
    (b.update delta_t).radius = b.radius := by
  refine ⟨rfl, rfl, ?_, rfl, rfl, rfl⟩
  simp only [Body.update, Vec2.add, Vec2.smul, Vec2.mk.injEq]
  constructor <;> ring

end Geometry

/-! ## A single body (`Quadtree::accel` on a leaf root) -/

section SingleBody

variable {K : Type} [LinearOrderedField K]

theorem DBL_MAX_pos : (0 : K) < DBL_MAX := by
  unfold DBL_MAX
  have h1 : (1 : K) < 2 ^ 53 := one_lt_pow₀ (by norm_num) (by norm_num)
  have h2 : (0 : K) < 2 ^ 971 := by positivity
  exact mul_pos (by linarith) h2

theorem Vec2.mag_sq_nonneg (v : Vec2 K) : 0 ≤ v.mag_sq := by
  unfold Vec2.mag_sq
  nlinarith [mul_self_nonneg v.x, mul_self_nonneg v.y]

/-- C12 as stated fails: a single body of mass `2^1023` at `(2^-10, 0)`, queried from the
origin under the compiled constants, gives `(2^-10 * DBL_MAX, 0)`, the clamped value, and not
the value of the formula, whose factor `G * m / ((d^2 + 1) * d)` exceeds `DBL_MAX`. -/
theorem accel_single_body_clamped :
    ((Quadtree.reset ⟨[], []⟩ (⟨⟨0, 0⟩, 1⟩ : Quad ℚ)).insert 1 nearBody.1 nearBody.2).bind
        (fun t => t.accel Constants.compiled sqrtBisect 1 ⟨0, 0⟩) =
      some ⟨DBL_MAX / 2 ^ 10, 0⟩ ∧
    newtonDirect Constants.compiled sqrtBisect nearBody.2 nearBody.1 ⟨0, 0⟩ ≠
      ⟨DBL_MAX / 2 ^ 10, 0⟩ ∧
    nearBody.1 ≠ ⟨0, 0⟩ ∧ sqrtBisect (1 / 2 ^ 20) = 1 / 2 ^ 10 ∧ nearBody.2 ≤ DBL_MAX := by
  decide!

end SingleBody

/-! ## Documented meanings the code does not keep (`new_containing`, `reset`, `parents`) -/

section Documented

/-- C15 on the code: for the single body at `(-1, -1)` the exact bounding box has midpoint
`(-1, -1)` and width and height `0`, while `new_containing` returns the centre
`((-1 + DBL_MIN) / 2, (-1 + DBL_MIN) / 2)` and the length `DBL_MIN + 1`: the maxima never go
below their seed `DBL_MIN`. -/
theorem new_containing_not_tight_negative :
    Quad.new_containing [Body.ofFields (1 : ℚ) ⟨-1, -1⟩ ⟨0, 0⟩ ⟨0, 0⟩] =
      ⟨⟨(-1 + DBL_MIN) / 2, (-1 + DBL_MIN) / 2⟩, DBL_MIN + 1⟩ ∧
    (Quad.new_containing [Body.ofFields (1 : ℚ) ⟨-1, -1⟩ ⟨0, 0⟩ ⟨0, 0⟩]).center ≠ ⟨-1, -1⟩ ∧
    (Quad.new_containing [Body.ofFields (1 : ℚ) ⟨-1, -1⟩ ⟨0, 0⟩ ⟨0, 0⟩]).length ≠ 0 := by
  decide!

/-- C18 on the code: a node built by `Node(Quad)` over storage that holds mass `1` is not
empty in the sense of `is_empty` and has mass `1`, not `0`; the root after `reset` is empty
only over zeroed storage, which is the case the embedding takes (`Node.ofQuad`). -/
theorem reset_root_mass_is_storage :
    (Node.ofStorage (⟨0, 0⟩ : Vec2 ℚ) 1 demoRoot 0).is_empty = false ∧
    (Node.ofStorage (⟨0, 0⟩ : Vec2 ℚ) 1 demoRoot 0).mass = 1 ∧
    Node.ofStorage (⟨0, 0⟩ : Vec2 ℚ) 0 demoRoot 0 = Node.ofQuad demoRoot 0 ∧
    (Quadtree.reset ⟨[], []⟩ demoRoot).nodes = [Node.ofStorage ⟨0, 0⟩ 0 demoRoot 0] := by
  decide!

/-- C19 on the code: in the tree of the two example bodies `parents` is `[0, 2]`, the list of
subdivided nodes in order, and the `children` fields are `[1, 0, 5, 0, 0, 0, 0, 0, 0]`: index
1 is a valid index of `parents`, `parents[1]` is `2`, whose children are `5 .. 8`, while the
node whose children `1 .. 4` include index 1 is node `0`. -/
theorem parents_is_not_parent_of :
    (demoTree demoBodies).map (fun t => (t.parents, t.nodes.map (fun n => n.children))) =
      some ([0, 2], [1, 0, 5, 0, 0, 0, 0, 0, 0]) := by
  decide!

end Documented

/-! ## Aggregation (`Quadtree::propogate`) -/

section Rollup

theorem kidN_eq {K : Type} (nodes : List (Node K)) (i : Nat) (n : Node K)
    (h : nodes[i]? = some n) : kidN nodes i = n.children := by
  simp [kidN, h]

theorem kidN_pos_lt {K : Type} (nodes : List (Node K)) (i : Nat) (h : kidN nodes i ≠ 0) :
    ∃ n, nodes[i]? = some n ∧ n.children = kidN nodes i := by
  cases hn : nodes[i]? with
  | none => simp [kidN, hn] at h
  | some n => exact ⟨n, rfl, (kidN_eq nodes i n hn).symm⟩

theorem kidN_modify {K : Type} (nodes : List (Node K)) (f : Node K → Node K) (a : Nat)
    (hf : ∀ n, (f n).children = n.children) (i : Nat) :
    kidN (nodes.modify f a) i = kidN nodes i := by
  unfold kidN
  rw [List.getElem?_modify]
  cases nodes[i]? with
  | none => rfl
  | some m => by_cases hai : a = i <;> simp [hai, hf]

theorem Logged.lt_length {K : Type} {t : Quadtree K} (h : Logged t) {p : Nat} (hp : p ∈ t.parents) :
    p < t.nodes.length := by
  have h1 := h.self_lt p hp
  obtain ⟨n, hn, -⟩ := kidN_pos_lt t.nodes p (by omega)
  exact (List.getElem?_eq_some.mp hn).1

theorem Logged.modify {K : Type} {t : Quadtree K} (h : Logged t) (f : Node K → Node K) (a : Nat)
    (hf : ∀ n, (f n).children = n.children) :
    Logged { t with nodes := t.nodes.modify f a } := by
  refine ⟨?_, ?_, ?_⟩
  · intro p hp
    simp only [kidN_modify _ _ _ hf]
    exact h.self_lt p hp
  · simp only [kidN_modify _ _ _ hf]
    exact h.before
  · intro i n hn hc
    simp only [List.getElem?_modify] at hn
    cases hm : t.nodes[i]? with
    | none => simp [hm] at hn
    | some m =>
      simp only [hm, Option.map_eq_map, Option.map_some', Option.some.injEq] at hn
      refine h.logged i m hm ?_
      by_cases hai : a = i
      · simp only [hai, if_true] at hn
        rw [← hn, hf] at hc
        exact hc
      · simp only [hai, if_false] at hn
        rw [← hn] at hc
        exact hc

variable {K : Type} [LinearOrderedField K]

/-- One pass of the loop of `propogate` on a node that lies before its four children. -/
theorem Quadtree.propogateStep_eq (nodes : List (Node K)) (a : Nat) (n c0 c1 c2 c3 : Node K)
    (hn : nodes[a]? = some n) (hlt : a < n.children)
    (h0 : nodes[n.children]? = some c0) (h1 : nodes[n.children + 1]? = some c1)
    (h2 : nodes[n.children + 2]? = some c2) (h3 : nodes[n.children + 3]? = some c3) :
    Quadtree.propogateStep nodes a =
      some (nodes.modify (fun m => { m with
        centm := (weightedSum c0 c1 c2 c3).sdiv (c0.mass + c1.mass + c2.mass + c3.mass)
        mass := c0.mass + c1.mass + c2.mass + c3.mass }) a) := by
  have e0 : a ≠ n.children := by omega
  have e1 : a ≠ n.children + 1 := by omega
  have e2 : a ≠ n.children + 2 := by omega
  have e3 : a ≠ n.children + 3 := by omega
  simp only [Quadtree.propogateStep, Option.bind_eq_bind, hn, Option.some_bind, h0, h1, h2, h3,
    List.getElem?_modify_ne _ _ e0, List.getElem?_modify_ne _ _ e1,
    List.getElem?_modify_ne _ _ e2, List.getElem?_modify_ne _ _ e3, List.modify_modify_eq]
  rfl

/-- The loop of `propogate` over a list of indices in which every index lies before its
children and no index is followed by one of its children: it returns, keeps `children`,
`next` and `quad` of every node, leaves the nodes outside the list as they were, and every
index of the list summarises its four children at the end. -/
theorem Quadtree.propogateLoop_spec (L : List Nat) (nodes : List (Node K))
    (hv : ∀ a ∈ L, a < kidN nodes a ∧ kidN nodes a + 3 < nodes.length)
    (hp : L.Pairwise (fun a b => b < kidN nodes a)) :
    ∃ final, Quadtree.propogateLoop nodes L = some final ∧
      (∀ i : Nat, (final[i]?).map Node.frame =
        (nodes[i]?).map Node.frame) ∧
      (∀ i : Nat, i ∉ L → final[i]? = nodes[i]?) ∧
      (∀ i ∈ L, Rolled final i) := by
  induction L generalizing nodes with
  | nil =>
    exact ⟨nodes, rfl, fun _ => rfl, fun _ _ => rfl, fun i hi => absurd hi (List.not_mem_nil i)⟩
  | cons a rest ih =>
    obtain ⟨halt, hak⟩ := hv a (List.mem_cons_self a rest)
    obtain ⟨n, hn, hnc⟩ := kidN_pos_lt nodes a (by omega)
    have hc0 : n.children < nodes.length := by omega
    have hc1 : n.children + 1 < nodes.length := by omega
    have hc2 : n.children + 2 < nodes.length := by omega
    have hc3 : n.children + 3 < nodes.length := by omega
    have h0 := List.getElem?_eq_getElem hc0
    have h1 := List.getElem?_eq_getElem hc1
    have h2 := List.getElem?_eq_getElem hc2
    have h3 := List.getElem?_eq_getElem hc3
    have hstep := Quadtree.propogateStep_eq nodes a n _ _ _ _ hn (by omega) h0 h1 h2 h3
    set c0 := nodes[n.children] with hc0def
    set c1 := nodes[n.children + 1] with hc1def
    set c2 := nodes[n.children + 2] with hc2def
    set c3 := nodes[n.children + 3] with hc3def
    set nodes1 := nodes.modify (fun m => { m with
        centm := (weightedSum c0 c1 c2 c3).sdiv (c0.mass + c1.mass + c2.mass + c3.mass)
        mass := c0.mass + c1.mass + c2.mass + c3.mass }) a with hnodes1
    have hframe : ∀ i : Nat, (nodes1[i]?).map Node.frame =
        (nodes[i]?).map Node.frame := by
      intro i
      rw [hnodes1, List.getElem?_modify]
      cases nodes[i]? with
      | none => rfl
      | some m => by_cases hai : a = i <;> simp [hai, Node.frame]
    have hkid : ∀ i, kidN nodes1 i = kidN nodes i := by
      intro i
      have := congrArg (Option.map (fun e : Nat × Nat × Quad K => e.1)) (hframe i)
      simp only [Option.map_map] at this
      exact congrArg (fun o => Option.getD o 0) this
    have hlen : nodes1.length = nodes.length := by simp [hnodes1]
    have hv1 : ∀ b ∈ rest, b < kidN nodes1 b ∧ kidN nodes1 b + 3 < nodes1.length := by
      intro b hb
      rw [hkid, hlen]
      exact hv b (List.mem_cons_of_mem a hb)
    have hp1 : rest.Pairwise (fun x y => y < kidN nodes1 x) := by
      have := (List.pairwise_cons.mp hp).2
      exact this.imp (fun {x y} h => by rw [hkid]; exact h)
    obtain ⟨final, hloop, hfr, hout, hroll⟩ := ih nodes1 hv1 hp1
    refine ⟨final, ?_, ?_, ?_, ?_⟩
    · simp only [Quadtree.propogateLoop, hstep]
      exact hloop
    · intro i
      rw [hfr i, hframe i]
    · intro i hi
      have hia : i ≠ a := fun h => hi (h ▸ List.mem_cons_self a rest)
      have hir : i ∉ rest := fun h => hi (List.mem_cons_of_mem a h)
      rw [hout i hir, hnodes1, List.getElem?_modify_ne _ _ (Ne.symm hia)]
    · intro i hi
      rcases List.mem_cons.mp hi with rfl | hi
      · by_cases hir : i ∈ rest
        · exact hroll i hir
        · have hhead := (List.pairwise_cons.mp hp).1
          have notin : ∀ k, k ≤ 3 → n.children + k ∉ rest := by
            intro k hk hmem
            have := hhead _ hmem
            omega
          have keep : ∀ k, k ≤ 3 → final[n.children + k]? = nodes[n.children + k]? := by
            intro k hk
            rw [hout _ (notin k hk), hnodes1, List.getElem?_modify_ne _ _ (by omega)]
          have hfi : final[i]? = some { n with
              centm := (weightedSum c0 c1 c2 c3).sdiv (c0.mass + c1.mass + c2.mass + c3.mass)
              mass := c0.mass + c1.mass + c2.mass + c3.mass } := by
            rw [hout i hir, hnodes1, List.getElem?_modify_eq, hn]
            rfl
          refine ⟨_, c0, c1, c2, c3, hfi, ?_, ?_, ?_, ?_, rfl, fun _ => rfl⟩
          · have := keep 0 (by omega)
            rw [Nat.add_zero] at this
            rw [this, h0]
          · rw [keep 1 (by omega), h1]
          · rw [keep 2 (by omega), h2]
          · rw [keep 3 (by omega), h3]
      · exact hroll i hi

theorem kidN_subdivide (t t1 : Quadtree K) (i c : Nat) (n : Node K)
    (hn : t.nodes[i]? = some n) (h : t.subdivide i = some (c, t1)) (j : Nat) :
    kidN t1.nodes j =
      if j < t.nodes.length then (if i = j then t.nodes.length else kidN t.nodes j) else 0 := by
  unfold kidN
  rw [Quadtree.subdivide_getElem? t t1 i c n hn h j]
  by_cases hj : j < t.nodes.length
  · rw [if_pos hj, if_pos hj]
    cases hj2 : t.nodes[j]? with
    | none =>
      have := List.getElem?_eq_none_iff.mp hj2
      omega
    | some m => by_cases hij : i = j <;> simp [hij]
  · rw [if_neg hj, if_neg hj]
    split_ifs <;> simp [Node.ofQuad]

theorem Logged.subdivide {t t1 : Quadtree K} (h : Logged t) (i c : Nat)
    (hs : t.subdivide i = some (c, t1)) : Logged t1 := by
  have hnode : ∃ n, t.nodes[i]? = some n := by
    cases hn0 : t.nodes[i]? with
    | none => simp [Quadtree.subdivide, hn0] at hs
    | some n0 => exact ⟨n0, rfl⟩
  obtain ⟨n, hn⟩ := hnode
  have hilt : i < t.nodes.length := (List.getElem?_eq_some.mp hn).1
  have hk := kidN_subdivide t t1 i c n hn hs
  have hpar : t1.parents = t.parents ++ [i] := by
    rw [Quadtree.subdivide_eq t i n hn] at hs
    simp only [Option.some.injEq, Prod.mk.injEq] at hs
    rw [← hs.2]
  have old : ∀ p ∈ t.parents, ∀ x, x < kidN t.nodes p → x < t.nodes.length →
      x < kidN t1.nodes p := by
    intro p hp x hx hxl
    rw [hk p, if_pos (h.lt_length hp)]
    by_cases hip : i = p
    · rw [if_pos hip]; exact hxl
    · rw [if_neg hip]; exact hx
  have newk : kidN t1.nodes i = t.nodes.length := by
    rw [hk i, if_pos hilt, if_pos rfl]
  refine ⟨?_, ?_, ?_⟩
  · intro p hp
    rw [hpar, List.mem_append, List.mem_singleton] at hp
    rcases hp with hp | rfl
    · exact old p hp p (h.self_lt p hp) (h.lt_length hp)
    · rw [newk]; exact hilt
  · rw [hpar, List.pairwise_append]
    refine ⟨?_, List.pairwise_singleton _ _, ?_⟩
    · have hb := h.before
      rw [List.pairwise_iff_forall_sublist] at hb ⊢
      intro a b hab
      have hmem : a ∈ t.parents ∧ b ∈ t.parents := by
        have := hab.subset
        exact ⟨this (by simp), this (by simp)⟩
      exact old b hmem.2 a (hb hab) (h.lt_length hmem.1)
    · intro a ha b hb
      rw [List.mem_singleton] at hb
      subst hb
      rw [newk]
      exact h.lt_length ha
  · intro j m hm hc
    rw [hpar, List.mem_append, List.mem_singleton]
    have hkj := hk j
    rw [kidN_eq t1.nodes j m hm] at hkj
    by_cases hj : j < t.nodes.length
    · rw [if_pos hj] at hkj
      by_cases hij : i = j
      · exact Or.inr hij.symm
      · rw [if_neg hij] at hkj
        left
        obtain ⟨m0, hm0, hm0c⟩ := kidN_pos_lt t.nodes j (by omega)
        exact h.logged j m0 hm0 (by omega)
    · rw [if_neg hj] at hkj
      exact absurd hkj hc

theorem Quadtree.split_logged (body_pos : Vec2 K) (body_mass : K) (bp np : Vec2 K)
    (fuel : Nat) (t r : Quadtree K) (node : Nat) (ht : Logged t)
    (h : Quadtree.split body_pos body_mass bp np fuel t node = some r) : Logged r := by
  induction fuel generalizing t node r with
  | zero => simp [Quadtree.split] at h
  | succ fuel ih =>
    simp only [Quadtree.split] at h
    cases hs : t.subdivide node with
    | none => simp [hs] at h
    | some ct =>
      obtain ⟨c, t1⟩ := ct
      simp only [hs] at h
      have ht1 : Logged t1 := ht.subdivide node c hs
      cases hn : t1.nodes[node]? with
      | none => simp [hn] at h
      | some n =>
        simp only [hn] at h
        by_cases hq : n.quad.find_quadrant np = n.quad.find_quadrant bp
        · rw [if_pos hq] at h
          exact ih t1 r _ ht1 h
        · rw [if_neg hq] at h
          simp only [Option.some.injEq] at h
          subst h
          exact (ht1.modify (fun k => { k with centm := n.centm, mass := n.mass })
            (c + n.quad.find_quadrant np) (fun _ => rfl)).modify
            (fun k => { k with centm := body_pos, mass := body_mass })
            (c + n.quad.find_quadrant bp) (fun _ => rfl)

theorem Quadtree.insert_logged (fuel : Nat) (t r : Quadtree K) (p : Vec2 K) (m : K)
    (ht : Logged t) (h : t.insert fuel p m = some r) : Logged r := by
  simp only [Quadtree.insert] at h
  cases hd : t.descend p fuel 0 with
  | none => simp [hd] at h
  | some node =>
    simp only [hd] at h
    cases hn : t.nodes[node]? with
    | none => simp [hn] at h
    | some n =>
      simp only [hn] at h
      by_cases he : n.is_empty = true
      · rw [if_pos he] at h
        simp only [Option.some.injEq] at h
        subst h
        exact ht.modify (fun k => { k with centm := p, mass := m }) node (fun _ => rfl)
      · rw [if_neg he] at h
        by_cases hp : p = n.centm
        · rw [if_pos hp] at h
          simp only [Option.some.injEq] at h
          subst h
          exact ht.modify (fun k => { k with mass := k.mass + m }) node (fun _ => rfl)
        · rw [if_neg hp] at h
          exact Quadtree.split_logged _ _ _ _ fuel t r node ht h

/-- Every tree reachable from `reset` by inserts satisfies the log invariant. -/
theorem Reachable.logged {t : Quadtree K} (h : Reachable t) : Logged t := by
  induction h with
  | reset t0 q =>
    refine ⟨fun p hp => absurd hp (List.not_mem_nil p), List.Pairwise.nil, ?_⟩
    intro i n hn hc
    match i with
    | 0 =>
      simp only [Quadtree.reset, List.getElem?_cons_zero, Option.some.injEq] at hn
      rw [← hn] at hc
      exact absurd rfl hc
    | i + 1 => simp [Quadtree.reset] at hn
  | insert fuel p m _ hi ih => exact Quadtree.insert_logged fuel _ _ p m ih hi

/-- The effect of `propogate` on a reachable tree. -/
theorem Quadtree.propogate_spec (t : Quadtree K) (h : Reachable t) :
    ∃ t1, t.propogate = some t1 ∧ t1.parents = t.parents ∧
      (∀ i : Nat, (t1.nodes[i]?).map Node.frame = (t.nodes[i]?).map Node.frame) ∧
      (∀ (i : Nat) (n : Node K), t.nodes[i]? = some n → n.children = 0 →
        t1.nodes[i]? = some n) ∧
      (∀ (i : Nat) (n : Node K), t1.nodes[i]? = some n → n.children ≠ 0 →
        Rolled t1.nodes i) := by
  have hl := h.logged
  have ht := h.threaded
  have hv : ∀ a ∈ t.parents.reverse,
      a < kidN t.nodes a ∧ kidN t.nodes a + 3 < t.nodes.length := by
    intro a ha
    have hap := List.mem_reverse.mp ha
    have h1 := hl.self_lt a hap
    obtain ⟨n, hn, hnc⟩ := kidN_pos_lt t.nodes a (by omega)
    have hsk : (skel t)[a]? = some (n.children, n.next) := by rw [skel_getElem?, hn]; rfl
    have := ht.children_lt hsk (by omega)
    rw [skel_length] at this
    exact ⟨h1, by omega⟩
  have hp : t.parents.reverse.Pairwise (fun a b => b < kidN t.nodes a) :=
    List.pairwise_reverse.mpr hl.before
  obtain ⟨final, hloop, hfr, hout, hroll⟩ := Quadtree.propogateLoop_spec _ t.nodes hv hp
  refine ⟨{ t with nodes := final }, ?_, rfl, hfr, ?_, ?_⟩
  · simp [Quadtree.propogate, hloop]
  · intro i n hn hc
    have hnot : i ∉ t.parents.reverse := by
      intro hmem
      have := hl.self_lt i (List.mem_reverse.mp hmem)
      rw [kidN_eq t.nodes i n hn] at this
      omega
    show final[i]? = some n
    rw [hout i hnot, hn]
  · intro i n hn hc
    show Rolled final i
    have hf := hfr i
    have hn1 : final[i]? = some n := hn
    rw [hn1] at hf
    cases hm : t.nodes[i]? with
    | none => simp [hm] at hf
    | some m =>
      rw [hm] at hf
      simp only [Option.map_some', Option.some.injEq, Node.frame, Prod.mk.injEq] at hf
      have hmc : m.children ≠ 0 := by rw [← hf.1]; exact hc
      exact hroll i (List.mem_reverse.mpr (hl.logged i m hm hmc))

/-- C11, `propogate` is a bottom-up roll-up: on every tree reachable from `reset` by inserts,
`propogate` returns; it keeps `parents` and the `children`, `next` and `quad` of every node;
it leaves every childless node as it was; and afterwards every node with children has mass
equal to the sum of the final masses of its four children and, when that sum is not zero,
`centm` equal to the sum of their final `centm * mass` divided by it. -/
theorem propogate_rollup (t : Quadtree K) (h : Reachable t) :
    ∃ t1, t.propogate = some t1 ∧ t1.parents = t.parents ∧
      (∀ i : Nat, (t1.nodes[i]?).map Node.frame = (t.nodes[i]?).map Node.frame) ∧
      (∀ (i : Nat) (n : Node K), t.nodes[i]? = some n → n.children = 0 →
        t1.nodes[i]? = some n) ∧
      (∀ (i : Nat) (n : Node K), t1.nodes[i]? = some n → n.children ≠ 0 →
        Rolled t1.nodes i) :=
  Quadtree.propogate_spec t h

/-- Witness for C11: the tree subdivided four levels deep. -/
theorem propogate_rollup_witness :
    ∃ t1, deepTree.propogate = some t1 ∧ t1.parents = deepTree.parents ∧
      (∀ (i : Nat) (n : Node ℚ), t1.nodes[i]? = some n → n.children ≠ 0 →
        Rolled t1.nodes i) :=
  (propogate_rollup deepTree deepTree_reachable.1).imp
    (fun _ h => ⟨h.1, h.2.1, h.2.2.2.2⟩)

end Rollup

/-! ## The threaded walk and the recursive evaluation -/

section Recursive

theorem skel_eq_of_frame {K : Type} {t t1 : Quadtree K}
    (h : ∀ i : Nat, (t1.nodes[i]?).map Node.frame = (t.nodes[i]?).map Node.frame) :
    skel t1 = skel t := by
  apply List.ext_getElem?
  intro i
  rw [skel_getElem?, skel_getElem?]
  have := congrArg (Option.map (fun e : Nat × Nat × Quad K => (e.1, e.2.1))) (h i)
  simpa [Option.map_map, Function.comp, Node.frame] using this

variable {K : Type} [LinearOrderedField K]

theorem Vec2.zero_add (a : Vec2 K) : (⟨0, 0⟩ : Vec2 K).add a = a := by
  simp [Vec2.add]

/-- The loop of `accel` entered at node `i` adds `R(i, p)` to the running sum and then stops
(when `next` of `i` is `0`) or continues at `next` of `i`. -/
theorem Quadtree.walk_subtree_eval (c : Constants K) (sqrt : K → K) (t : Quadtree K)
    (p : Vec2 K) (ht : Threaded (skel t)) (d i : Nat) (n : Node K)
    (hn : t.nodes[i]? = some n) (hd : t.nodes.length - i ≤ d) :
    ∃ (k e : Nat) (v : Vec2 K) (tr : List Nat),
      (∀ depth, recEval c sqrt t p (depth + e) i = some v) ∧
      ∀ (fuel : Nat) (acc : Vec2 K) (seen : List Nat),
        Quadtree.walk c sqrt t p (fuel + k) i acc seen =
          if n.next = 0 then some (acc.add v, tr ++ seen)
          else Quadtree.walk c sqrt t p fuel n.next (acc.add v) (tr ++ seen) := by
  have hilt : i < t.nodes.length := (List.getElem?_eq_some.mp hn).1
  induction d generalizing i n with
  | zero => omega
  | succ d ih =>
    by_cases hacc : n.is_leaf = true ∨ n.quad.length * n.quad.length <
        (Vec2.mag_sq ⟨n.centm.x - p.x, n.centm.y - p.y⟩) * (c.THETA * c.THETA)
    · have hacc1 : n.children = 0 ∨ n.quad.length * n.quad.length <
          (Vec2.mag_sq ⟨n.centm.x - p.x, n.centm.y - p.y⟩) * (c.THETA * c.THETA) := by
        rcases hacc with h | h
        · exact Or.inl (by simpa [Node.is_leaf] using h)
        · exact Or.inr h
      refine ⟨1, 1, contribution c sqrt n.centm n.mass p, [i], ?_, ?_⟩
      · intro depth
        simp only [recEval, hn, if_pos hacc1]
      · intro fuel acc seen
        simp only [Quadtree.walk, hn, if_pos hacc]
        rfl
    · have hch : n.children ≠ 0 := by
        intro h0
        exact hacc (Or.inl (by simp [Node.is_leaf, h0]))
      have hacc1 : ¬ (n.children = 0 ∨ n.quad.length * n.quad.length <
          (Vec2.mag_sq ⟨n.centm.x - p.x, n.centm.y - p.y⟩) * (c.THETA * c.THETA)) := by
        intro h
        rcases h with h | h
        · exact hch h
        · exact hacc (Or.inr h)
      have hsk : (skel t)[i]? = some (n.children, n.next) := by rw [skel_getElem?, hn]; rfl
      obtain ⟨hlt, -, c0, c1, c2, c3, e0, e1, e2, e3⟩ := ht.kids i n.children n.next hsk hch
      obtain ⟨n0, hn0, -, hx0⟩ := skel_node t _ _ _ e0
      obtain ⟨n1, hn1, -, hx1⟩ := skel_node t _ _ _ e1
      obtain ⟨n2, hn2, -, hx2⟩ := skel_node t _ _ _ e2
      obtain ⟨n3, hn3, -, hx3⟩ := skel_node t _ _ _ e3
      have l0 := (List.getElem?_eq_some.mp hn0).1
      have l1 := (List.getElem?_eq_some.mp hn1).1
      have l2 := (List.getElem?_eq_some.mp hn2).1
      have l3 := (List.getElem?_eq_some.mp hn3).1
      obtain ⟨k0, d0, v0, tr0, r0, w0⟩ := ih _ n0 hn0 (by omega) l0
      obtain ⟨k1, d1, v1, tr1, r1, w1⟩ := ih _ n1 hn1 (by omega) l1
      obtain ⟨k2, d2, v2, tr2, r2, w2⟩ := ih _ n2 hn2 (by omega) l2
      obtain ⟨k3, d3, v3, tr3, r3, w3⟩ := ih _ n3 hn3 (by omega) l3
      refine ⟨k0 + k1 + k2 + k3 + 1, d0 + d1 + d2 + d3 + 1, ((v0.add v1).add v2).add v3,
        tr3 ++ (tr2 ++ (tr1 ++ (tr0 ++ [i]))), ?_, ?_⟩
      · intro depth
        have ed : depth + (d0 + d1 + d2 + d3 + 1) = (depth + (d0 + d1 + d2 + d3)) + 1 := by
          omega
        have a0 : depth + (d0 + d1 + d2 + d3) = (depth + d1 + d2 + d3) + d0 := by omega
        have a1 : depth + (d0 + d1 + d2 + d3) = (depth + d0 + d2 + d3) + d1 := by omega
        have a2 : depth + (d0 + d1 + d2 + d3) = (depth + d0 + d1 + d3) + d2 := by omega
        have a3 : depth + (d0 + d1 + d2 + d3) = (depth + d0 + d1 + d2) + d3 := by omega
        have q0 := r0 (depth + d1 + d2 + d3)
        have q1 := r1 (depth + d0 + d2 + d3)
        have q2 := r2 (depth + d0 + d1 + d3)
        have q3 := r3 (depth + d0 + d1 + d2)
        rw [← a0] at q0
        rw [← a1] at q1
        rw [← a2] at q2
        rw [← a3] at q3
        rw [ed]
        simp only [recEval, hn, if_neg hacc1, q0, q1, q2, q3]
      · intro fuel acc seen
        have ef : fuel + (k0 + k1 + k2 + k3 + 1) = (fuel + k3 + k2 + k1 + k0) + 1 := by omega
        rw [ef]
        simp only [Quadtree.walk, hn, if_neg hacc]
        rw [w0, hx0, if_neg (Nat.succ_ne_zero _), w1, hx1, if_neg (Nat.succ_ne_zero _),
          w2, hx2, if_neg (Nat.succ_ne_zero _), w3, hx3]
        simp only [Vec2.add_add, List.append_assoc, List.singleton_append]

/-- C20, the threaded walk equals the recursive evaluation: on every tree built by `reset`
and inserts, optionally followed by `propogate`, and for every query position, `accel`
returns (for every fuel from some `k` on), the recursive evaluation `R(0, p)` returns (for
every depth bound from some `e` on), and the two values are equal. -/
theorem accel_eq_recursive (c : Constants K) (sqrt : K → K) (t : Quadtree K)
    (h : Reachable t ∨ ∃ t0, Reachable t0 ∧ t0.propogate = some t) (p : Vec2 K) :
    ∃ (k e : Nat) (v : Vec2 K), (∀ fuel, t.accel c sqrt (fuel + k) p = some v) ∧
      (∀ depth, recEval c sqrt t p (depth + e) 0 = some v) := by
  have ht : Threaded (skel t) := by
    rcases h with h | ⟨t0, h0, hp⟩
    · exact h.threaded
    · obtain ⟨t1, hp1, -, hfr, -⟩ := Quadtree.propogate_spec t0 h0
      rw [hp] at hp1
      simp only [Option.some.injEq] at hp1
      subst hp1
      rw [skel_eq_of_frame hfr]
      exact h0.threaded
  obtain ⟨c0, hc0⟩ := ht.root
  obtain ⟨n, hn, -, hx⟩ := skel_node t 0 c0 0 hc0
  obtain ⟨k, e, v, tr, hr, hw⟩ :=
    Quadtree.walk_subtree_eval c sqrt t p ht t.nodes.length 0 n hn (Nat.sub_le _ _)
  refine ⟨k, e, v, ?_, hr⟩
  intro fuel
  simp [Quadtree.accel, hw fuel ⟨0, 0⟩ [], hx, Vec2.zero_add]

/-- Witness for C20: the tree subdivided four levels deep, queried at `(5, 5)`. -/
theorem accel_eq_recursive_witness :
    ∃ (k e : Nat) (v : Vec2 ℚ),
      (∀ fuel, deepTree.accel Constants.compiled sqrtQ (fuel + k) ⟨5, 5⟩ = some v) ∧
      (∀ depth, recEval Constants.compiled sqrtQ deepTree ⟨5, 5⟩ (depth + e) 0 = some v) :=
  accel_eq_recursive Constants.compiled sqrtQ deepTree (Or.inl deepTree_reachable.1) ⟨5, 5⟩

end Recursive

/-! ## The step driver (`Simulation::step`) -/

section Step

variable {K : Type} [LinearOrderedField K]

theorem Simulation.evaluate_spec (c : Constants K) (sqrt : K → K) (fuel : Nat)
    (ygg : Quadtree K) (bodies r : List (Body K))
    (h : Simulation.evaluate c sqrt fuel ygg bodies = some r) :
    r.length = bodies.length ∧
      ∀ (i : Nat) (b : Body K), bodies[i]? = some b →
        ∃ a, ygg.accel c sqrt fuel b.pos = some a ∧ r[i]? = some { b with accel := a } := by
  induction bodies generalizing r with
  | nil =>
    simp only [Simulation.evaluate, Option.some.injEq] at h
    subst h
    exact ⟨rfl, fun i b hb => by simp at hb⟩
  | cons b0 rest ih =>
    simp only [Simulation.evaluate] at h
    cases ha : ygg.accel c sqrt fuel b0.pos with
    | none => simp [ha] at h
    | some a0 =>
      simp only [ha] at h
      cases hr : Simulation.evaluate c sqrt fuel ygg rest with
      | none => simp [hr] at h
      | some r1 =>
        simp only [hr, Option.some.injEq] at h
        subst h
        obtain ⟨hlen, hall⟩ := ih r1 hr
        refine ⟨by simp [hlen], ?_⟩
        intro i b hb
        match i with
        | 0 =>
          simp only [List.getElem?_cons_zero, Option.some.injEq] at hb
          subst hb
          exact ⟨a0, ha, by simp⟩
        | i + 1 =>
          simp only [List.getElem?_cons_succ] at hb
          obtain ⟨a, h1, h2⟩ := hall i b hb
          exact ⟨a, h1, by simpa using h2⟩

end Step

/-! ## Insertion returns for points of the root square -/

section Returns

variable {K : Type} [LinearOrderedField K]

/-- A point of a square lies in the sub-square `find_quadrant` names. -/
theorem Quad.contains_into_quadrant (q : Quad K) (p : Vec2 K) (h : q.contains p) :
    (q.into_quadrant (q.find_quadrant p)).contains p := by
  obtain ⟨h1, h2, h3, h4⟩ := h
  unfold Quad.find_quadrant
  split_ifs with c0 c1 c2
  · obtain ⟨cx, cy⟩ := c0
    simp only [Quad.into_quadrant, Quad.contains]
    refine ⟨?_, ?_, ?_, ?_⟩ <;> linarith
  · obtain ⟨cx, cy⟩ := c1
    simp only [Quad.into_quadrant, Quad.contains]
    refine ⟨?_, ?_, ?_, ?_⟩ <;> linarith
  · obtain ⟨cx, cy⟩ := c2
    simp only [Quad.into_quadrant, Quad.contains]
    refine ⟨?_, ?_, ?_, ?_⟩ <;> linarith
  · have cx : q.center.x < p.x := by
      by_contra hcon
      push_neg at hcon
      rcases le_or_lt q.center.y p.y with hy | hy
      · exact c0 ⟨hcon, hy⟩
      · exact c2 ⟨hcon, hy⟩
    have cy : p.y < q.center.y := by
      by_contra hcon
      push_neg at hcon
      exact c1 ⟨cx, hcon⟩
    simp only [Quad.into_quadrant, Quad.contains]
    refine ⟨?_, ?_, ?_, ?_⟩ <;> linarith

theorem Quad.length_nonneg_of_contains (q : Quad K) (p : Vec2 K) (h : q.contains p) :
    0 ≤ q.length := by
  obtain ⟨h1, h2, -, -⟩ := h
  linarith

/-- Two points of a square are no further apart than its side, on either axis. -/
theorem gap_le_of_contains (q : Quad K) (a b : Vec2 K) (ha : q.contains a)
    (hb : q.contains b) : gap a b ≤ q.length := by
  obtain ⟨a1, a2, a3, a4⟩ := ha
  obtain ⟨b1, b2, b3, b4⟩ := hb
  unfold gap
  refine max_le ?_ ?_
  · rw [abs_le]; constructor <;> linarith
  · rw [abs_le]; constructor <;> linarith

/-- Two points that `find_quadrant` sends to the same sub-square are no further apart than
half the side. -/
theorem gap_le_half (q : Quad K) (a b : Vec2 K) (ha : q.contains a) (hb : q.contains b)
    (hq : q.find_quadrant a = q.find_quadrant b) : gap a b ≤ q.length * (1 / 2) := by
  have h1 := Quad.contains_into_quadrant q a ha
  have h2 := Quad.contains_into_quadrant q b hb
  rw [hq] at h1
  have := gap_le_of_contains _ a b h1 h2
  have hl : (q.into_quadrant (q.find_quadrant b)).length = q.length * (1 / 2) := by
    unfold Quad.into_quadrant
    split <;> rfl
  rw [hl] at this
  exact this

theorem Quad.into_quadrant_length (q : Quad K) (k : Nat) :
    (q.into_quadrant k).length = q.length * (1 / 2) := by
  unfold Quad.into_quadrant
  split <;> rfl

theorem Geo.mono {t : Quadtree K} {side : K} {S S1 : Vec2 K → Prop} (h : Geo t side S)
    (hS : ∀ a, S a → S1 a) : Geo t side S1 :=
  ⟨h.kidsQuad, fun i n hn hc hm => ⟨(h.leaf i n hn hc hm).1, hS _ (h.leaf i n hn hc hm).2⟩,
    h.side_le⟩

/-- Writing `centm` and `mass` of a node keeps the geometric invariant when the position
written lies in the node's square (or the mass written is zero, or the node has children). -/
theorem Geo.write {t : Quadtree K} {side : K} {S : Vec2 K → Prop} (h : Geo t side S)
    (x : Nat) (f : Node K → Node K) (hf : ∀ n, (f n).frame = n.frame)
    (hw : ∀ n, t.nodes[x]? = some n → n.children = 0 → (f n).mass ≠ 0 →
      n.quad.contains (f n).centm ∧ S (f n).centm) :
    Geo { t with nodes := t.nodes.modify f x } side S := by
  have fchildren : ∀ n, (f n).children = n.children := fun n =>
    congrArg (fun e : Nat × Nat × Quad K => e.1) (hf n)
  have fquad : ∀ n, (f n).quad = n.quad := fun n =>
    congrArg (fun e : Nat × Nat × Quad K => e.2.2) (hf n)
  have rd : ∀ (i : Nat) (n : Node K), (t.nodes.modify f x)[i]? = some n →
      ∃ m, t.nodes[i]? = some m ∧ n.children = m.children ∧ n.quad = m.quad ∧
        ((x = i ∧ n = f m) ∨ (x ≠ i ∧ n = m)) := by
    intro i n hn
    rw [List.getElem?_modify] at hn
    cases hm : t.nodes[i]? with
    | none => simp [hm] at hn
    | some m =>
      simp only [hm, Option.map_eq_map, Option.map_some', Option.some.injEq] at hn
      by_cases hxi : x = i
      · simp only [hxi, if_true] at hn
        exact ⟨m, rfl, by rw [← hn, fchildren], by rw [← hn, fquad], Or.inl ⟨hxi, hn.symm⟩⟩
      · simp only [hxi, if_false] at hn
        exact ⟨m, rfl, by rw [hn], by rw [hn], Or.inr ⟨hxi, hn.symm⟩⟩
  have wr : ∀ (i : Nat) (m : Node K), t.nodes[i]? = some m →
      ∃ n, (t.nodes.modify f x)[i]? = some n ∧ n.quad = m.quad := by
    intro i m hm
    rw [List.getElem?_modify, hm]
    by_cases hxi : x = i
    · exact ⟨f m, by simp [hxi], fquad m⟩
    · exact ⟨m, by simp [hxi], rfl⟩
  refine ⟨?_, ?_, ?_⟩
  · intro i n hn hc k hk
    obtain ⟨m, hm, e1, e2, -⟩ := rd i n hn
    obtain ⟨ck, hck, hq⟩ := h.kidsQuad i m hm (by rw [← e1]; exact hc) k hk
    obtain ⟨n1, hn1, hq1⟩ := wr _ ck hck
    exact ⟨n1, by rw [e1]; exact hn1, by rw [hq1, hq, e2]⟩
  · intro i n hn hc hm0
    obtain ⟨m, hm, e1, e2, hcase⟩ := rd i n hn
    rcases hcase with ⟨hxi, hnf⟩ | ⟨-, hnm⟩
    · subst hxi
      subst hnf
      have := hw m hm (by rw [← e1]; exact hc) hm0
      rw [e2]
      exact this
    · subst hnm
      exact h.leaf i n hm hc hm0
  · intro i n hn
    obtain ⟨m, hm, -, e2, -⟩ := rd i n hn
    rw [e2]
    exact h.side_le i m hm

theorem Quadtree.subdivide_old (t t1 : Quadtree K) (i c : Nat) (ni : Node K)
    (hi : t.nodes[i]? = some ni) (h : t.subdivide i = some (c, t1)) (j : Nat) (m : Node K)
    (hm : t.nodes[j]? = some m) :
    t1.nodes[j]? = some (if i = j then { m with children := t.nodes.length } else m) := by
  have hj : j < t.nodes.length := (List.getElem?_eq_some.mp hm).1
  rw [Quadtree.subdivide_getElem? t t1 i c ni hi h j, if_pos hj, hm]
  rfl

theorem Quadtree.subdivide_new (t t1 : Quadtree K) (i c : Nat) (ni : Node K)
    (hi : t.nodes[i]? = some ni) (h : t.subdivide i = some (c, t1)) (k : Nat) (hk : k < 4) :
    ∃ nxt, t1.nodes[t.nodes.length + k]? =
      some (Node.ofQuad (ni.quad.into_quadrant k) nxt) := by
  rw [Quadtree.subdivide_getElem? t t1 i c ni hi h]
  interval_cases k
  · exact ⟨t.nodes.length + 1, by simp⟩
  · exact ⟨t.nodes.length + 2, by simp⟩
  · exact ⟨t.nodes.length + 3, by simp⟩
  · exact ⟨ni.next, by simp⟩

theorem Quadtree.subdivide_inv (t t1 : Quadtree K) (i c : Nat) (ni : Node K)
    (hi : t.nodes[i]? = some ni) (h : t.subdivide i = some (c, t1)) (j : Nat) (n : Node K)
    (hn : t1.nodes[j]? = some n) :
    (j < t.nodes.length ∧ ∃ m, t.nodes[j]? = some m ∧
      n = (if i = j then { m with children := t.nodes.length } else m)) ∨
    (∃ k nxt, k < 4 ∧ j = t.nodes.length + k ∧
      n = Node.ofQuad (ni.quad.into_quadrant k) nxt) := by
  rw [Quadtree.subdivide_getElem? t t1 i c ni hi h j] at hn
  by_cases hj : j < t.nodes.length
  · left
    rw [if_pos hj] at hn
    obtain ⟨m, hm, hnm⟩ := Option.map_eq_some'.mp hn
    exact ⟨hj, m, hm, hnm.symm⟩
  · right
    rw [if_neg hj] at hn
    split_ifs at hn with h0 h1 h2 h3 <;> simp only [Option.some.injEq] at hn
    · exact ⟨0, _, by omega, h0, hn.symm⟩
    · exact ⟨1, _, by omega, h1, hn.symm⟩
    · exact ⟨2, _, by omega, h2, hn.symm⟩
    · exact ⟨3, _, by omega, h3, hn.symm⟩

/-- The geometric invariant survives `subdivide`. -/
theorem Geo.subdivide_geo {t t1 : Quadtree K} {side : K} {S : Vec2 K → Prop} (h : Geo t side S)
    (i c : Nat) (hs : t.subdivide i = some (c, t1)) : Geo t1 side S := by
  have hnode : ∃ n, t.nodes[i]? = some n := by
    cases hn0 : t.nodes[i]? with
    | none => simp [Quadtree.subdivide, hn0] at hs
    | some n0 => exact ⟨n0, rfl⟩
  obtain ⟨ni, hi⟩ := hnode
  have hilt : i < t.nodes.length := (List.getElem?_eq_some.mp hi).1
  refine ⟨?_, ?_, ?_⟩
  · intro j n hn hc k hk
    rcases Quadtree.subdivide_inv t t1 i c ni hi hs j n hn with ⟨hj, m, hm, hnm⟩ | ⟨k1, nxt, -, -, hnew⟩
    · by_cases hij : i = j
      · subst hij
        rw [hi] at hm
        simp only [Option.some.injEq] at hm
        subst hm
        rw [if_pos rfl] at hnm
        subst hnm
        obtain ⟨nxt, hnew⟩ := Quadtree.subdivide_new t t1 i c ni hi hs k hk
        exact ⟨_, hnew, rfl⟩
      · rw [if_neg hij] at hnm
        subst hnm
        obtain ⟨ck, hck, hq⟩ := h.kidsQuad j n hm hc k hk
        have := Quadtree.subdivide_old t t1 i c ni hi hs _ ck hck
        refine ⟨_, this, ?_⟩
        rw [← hq]
        split <;> rfl
    · rw [hnew] at hc
      exact absurd rfl hc
  · intro j n hn hc hm0
    rcases Quadtree.subdivide_inv t t1 i c ni hi hs j n hn with ⟨hj, m, hm, hnm⟩ | ⟨k1, nxt, -, -, hnew⟩
    · by_cases hij : i = j
      · rw [if_pos hij] at hnm
        rw [hnm] at hc
        simp only at hc
        omega
      · rw [if_neg hij] at hnm
        subst hnm
        exact h.leaf j n hm hc hm0
    · rw [hnew] at hm0
      exact absurd rfl hm0
  · intro j n hn
    rcases Quadtree.subdivide_inv t t1 i c ni hi hs j n hn with ⟨hj, m, hm, hnm⟩ | ⟨k1, nxt, -, -, hnew⟩
    · have := h.side_le j m hm
      rw [hnm]
      split <;> exact this
    · have := h.side_le i ni hi
      rw [hnew]
      simp only [Node.ofQuad, Quad.into_quadrant_length]
      constructor <;> linarith [this.1, this.2]

theorem modify_keeps_quad {K : Type} (nodes : List (Node K)) (f : Node K → Node K) (x : Nat)
    (hf : ∀ n, (f n).quad = n.quad) (j : Nat) (m : Node K) (hm : nodes[j]? = some m) :
    ∃ m1, (nodes.modify f x)[j]? = some m1 ∧ m1.quad = m.quad := by
  rw [List.getElem?_modify, hm]
  by_cases hxj : x = j
  · exact ⟨f m, by simp [hxj], hf m⟩
  · exact ⟨m, by simp [hxj], rfl⟩

/-- The subdivision loop of `insert` returns within `k` passes when the occupant and the new
position lie in the square of the node, are further apart than its side over `2^k`, and the
node indices stay below `2^32`. It keeps the geometric invariant and the squares of the
existing nodes, and adds at most `4 * k` nodes. -/
theorem Quadtree.split_returns (body_pos : Vec2 K) (body_mass : K) (np : Vec2 K) (side : K)
    (S : Vec2 K → Prop) (hSb : S body_pos) (k : Nat) (t : Quadtree K) (node : Nat)
    (n : Node K) (hG : Geo t side S) (hn : t.nodes[node]? = some n)
    (hocc : n.mass ≠ 0 → n.centm = np ∧ S np)
    (hnp : n.quad.contains np) (hbp : n.quad.contains body_pos)
    (hsep : n.quad.length < 2 ^ k * gap np body_pos)
    (hsize : t.nodes.length + 4 * k ≤ UINT32_MOD) :
    ∃ r, Quadtree.split body_pos body_mass body_pos np k t node = some r ∧ Geo r side S ∧
      r.nodes.length ≤ t.nodes.length + 4 * k ∧
      ∀ (j : Nat) (m : Node K), t.nodes[j]? = some m →
        ∃ m1, r.nodes[j]? = some m1 ∧ m1.quad = m.quad := by
  induction k generalizing t node n with
  | zero =>
    have := gap_le_of_contains n.quad np body_pos hnp hbp
    simp only [pow_zero, one_mul] at hsep
    exact absurd hsep (not_lt.mpr this)
  | succ k ih =>
    have hs := Quadtree.subdivide_eq t node n hn
    set t1 : Quadtree K :=
      { nodes := t.nodes.modify (fun m => { m with children := t.nodes.length }) node ++
          [Node.ofQuad (n.quad.into_quadrant 0) (t.nodes.length + 1),
           Node.ofQuad (n.quad.into_quadrant 1) (t.nodes.length + 2),
           Node.ofQuad (n.quad.into_quadrant 2) (t.nodes.length + 3),
           Node.ofQuad (n.quad.into_quadrant 3) n.next],
        parents := t.parents ++ [node] } with ht1
    have hG1 : Geo t1 side S := hG.subdivide_geo node _ hs
    have hlen1 : t1.nodes.length = t.nodes.length + 4 := by simp [ht1]
    have hn1 : t1.nodes[node]? = some { n with children := t.nodes.length } := by
      have := Quadtree.subdivide_old t t1 node _ n hn hs node n hn
      rw [if_pos rfl] at this
      exact this
    have hq1lt := Quad.find_quadrant_lt n.quad np
    have hq2lt := Quad.find_quadrant_lt n.quad body_pos
    have hkeep1 : ∀ (j : Nat) (m : Node K), t.nodes[j]? = some m →
        ∃ m1, t1.nodes[j]? = some m1 ∧ m1.quad = m.quad := by
      intro j m hm
      refine ⟨_, Quadtree.subdivide_old t t1 node _ n hn hs j m hm, ?_⟩
      split <;> rfl
    simp only [Quadtree.split, hs, hn1]
    by_cases hq : n.quad.find_quadrant np = n.quad.find_quadrant body_pos
    · rw [if_pos hq]
      have hmod : (t.nodes.length + n.quad.find_quadrant np) % UINT32_MOD =
          t.nodes.length + n.quad.find_quadrant np := Nat.mod_eq_of_lt (by omega)
      rw [hmod]
      obtain ⟨nxt, hfresh⟩ := Quadtree.subdivide_new t t1 node _ n hn hs _ hq1lt
      have hc1 := Quad.contains_into_quadrant n.quad np hnp
      have hc2 := Quad.contains_into_quadrant n.quad body_pos hbp
      rw [← hq] at hc2
      have hhalf : (Node.ofQuad (n.quad.into_quadrant (n.quad.find_quadrant np)) nxt).quad.length
          < 2 ^ k * gap np body_pos := by
        simp only [Node.ofQuad, Quad.into_quadrant_length]
        have e : (2 : K) ^ (k + 1) * gap np body_pos = 2 * (2 ^ k * gap np body_pos) := by
          rw [pow_succ]; ring
        rw [e] at hsep
        linarith
      obtain ⟨r, hr, hGr, hlr, hkr⟩ := ih t1 _ _ hG1 hfresh
        (fun h0 => absurd rfl h0) hc1 hc2 hhalf (by omega)
      refine ⟨r, hr, hGr, by omega, ?_⟩
      intro j m hm
      obtain ⟨m1, hm1, hq1⟩ := hkeep1 j m hm
      obtain ⟨m2, hm2, hq2⟩ := hkr j m1 hm1
      exact ⟨m2, hm2, by rw [hq2, hq1]⟩
    · rw [if_neg hq]
      obtain ⟨nxt1, hf1⟩ := Quadtree.subdivide_new t t1 node _ n hn hs _ hq1lt
      obtain ⟨nxt2, hf2⟩ := Quadtree.subdivide_new t t1 node _ n hn hs _ hq2lt
      have hne : t.nodes.length + n.quad.find_quadrant np ≠
          t.nodes.length + n.quad.find_quadrant body_pos := by omega
      have hGa := hG1.write (t.nodes.length + n.quad.find_quadrant np)
        (fun m => { m with centm := n.centm, mass := n.mass }) (fun _ => rfl) (by
          intro x hx _ hm0
          rw [hf1] at hx
          simp only [Option.some.injEq] at hx
          subst hx
          obtain ⟨e1, e2⟩ := hocc hm0
          simp only [Node.ofQuad]
          rw [e1]
          exact ⟨Quad.contains_into_quadrant n.quad np hnp, e2⟩)
      have hGb := hGa.write (t.nodes.length + n.quad.find_quadrant body_pos)
        (fun m => { m with centm := body_pos, mass := body_mass }) (fun _ => rfl) (by
          intro x hx _ _
          simp only [List.getElem?_modify_ne _ _ hne, hf2, Option.some.injEq] at hx
          subst hx
          exact ⟨Quad.contains_into_quadrant n.quad body_pos hbp, hSb⟩)
      refine ⟨_, rfl, hGb, by simp [hlen1], ?_⟩
      intro j m hm
      obtain ⟨m1, hm1, hq1⟩ := hkeep1 j m hm
      obtain ⟨m2, hm2, hq2⟩ := modify_keeps_quad t1.nodes
        (fun m => { m with centm := n.centm, mass := n.mass })
        (t.nodes.length + n.quad.find_quadrant np) (fun _ => rfl) j m1 hm1
      obtain ⟨m3, hm3, hq3⟩ := modify_keeps_quad _
        (fun m => { m with centm := body_pos, mass := body_mass })
        (t.nodes.length + n.quad.find_quadrant body_pos) (fun _ => rfl) j m2 hm2
      exact ⟨m3, hm3, by rw [hq3, hq2, hq1]⟩

end Returns

/-! ## The step returns on separated bodies -/

section StepReturns

variable {K : Type} [LinearOrderedField K]

/-- The descent of `insert` for a point of the square of node `i` ends at a childless node
whose square contains the point. -/
theorem Quadtree.descend_returns (t : Quadtree K) (side : K) (S : Vec2 K → Prop)
    (hG : Geo t side S) (hT : Threaded (skel t)) (p : Vec2 K)
    (hsize : t.nodes.length ≤ UINT32_MOD) (d i : Nat) (n : Node K)
    (hn : t.nodes[i]? = some n) (hc : n.quad.contains p) (hd : t.nodes.length - i ≤ d) :
    ∃ lf nf, t.descend p d i = some lf ∧ t.nodes[lf]? = some nf ∧ nf.children = 0 ∧
      nf.quad.contains p := by
  have hilt : i < t.nodes.length := (List.getElem?_eq_some.mp hn).1
  induction d generalizing i n with
  | zero => omega
  | succ d ih =>
    simp only [Quadtree.descend, hn]
    by_cases hch : n.children = 0
    · have : n.has_children = false := by simp [Node.has_children, hch]
      simp only [this, Bool.false_eq_true, if_false]
      exact ⟨i, n, rfl, hn, hch, hc⟩
    · have : n.has_children = true := by simp [Node.has_children, hch]
      simp only [this, if_true]
      have hsk : (skel t)[i]? = some (n.children, n.next) := by rw [skel_getElem?, hn]; rfl
      have hlt := (hT.kids i n.children n.next hsk hch).1
      have hc3 := hT.children_lt hsk hch
      rw [skel_length] at hc3
      have hq := Quad.find_quadrant_lt n.quad p
      have hmod : (n.children + n.quad.find_quadrant p) % UINT32_MOD =
          n.children + n.quad.find_quadrant p := Nat.mod_eq_of_lt (by omega)
      rw [hmod]
      obtain ⟨ck, hck, hckq⟩ := hG.kidsQuad i n hn hch _ hq
      have hcc : ck.quad.contains p := by
        rw [hckq]
        exact Quad.contains_into_quadrant n.quad p hc
      exact ih _ ck hck hcc (by omega) (by omega)

/-- A call of `insert` for a point of the root square returns, when the positions held by
the tree are equal to the new one or further from it than the bound `side` over `2^k`, and
the node indices stay below `2^32`. It keeps the geometric invariant and the squares of the
existing nodes and adds at most `4 * k` nodes. -/
theorem Quadtree.insert_returns (t : Quadtree K) (side : K) (S : Vec2 K → Prop)
    (hG : Geo t side S) (hT : Threaded (skel t)) (p : Vec2 K) (m : K) (root : Node K)
    (hroot : t.nodes[0]? = some root) (hp : root.quad.contains p) (k : Nat)
    (hsep : ∀ o, S o → o ≠ p → side < 2 ^ k * gap o p)
    (hsize : t.nodes.length + 4 * k ≤ UINT32_MOD) (fuel : Nat)
    (hf1 : t.nodes.length ≤ fuel) (hf2 : k ≤ fuel) :
    ∃ r, t.insert fuel p m = some r ∧ Geo r side (fun a => S a ∨ a = p) ∧
      r.nodes.length ≤ t.nodes.length + 4 * k ∧
      ∀ (j : Nat) (mj : Node K), t.nodes[j]? = some mj →
        ∃ m1, r.nodes[j]? = some m1 ∧ m1.quad = mj.quad := by
  obtain ⟨lf, nf, hdesc, hnf, hch, hcont⟩ := Quadtree.descend_returns t side S hG hT p
    (by omega) t.nodes.length 0 root hroot hp (Nat.sub_le _ _)
  have hdesc1 := Quadtree.descend_mono t p hf1 hdesc
  have hG1 : Geo t side (fun a => S a ∨ a = p) := hG.mono (fun _ h => Or.inl h)
  simp only [Quadtree.insert, hdesc1, hnf]
  by_cases he : nf.is_empty = true
  · rw [if_pos he]
    refine ⟨_, rfl, ?_, by simp, ?_⟩
    · refine hG1.write lf (fun x => { x with centm := p, mass := m }) (fun _ => rfl) ?_
      intro x hx _ _
      rw [hnf] at hx
      simp only [Option.some.injEq] at hx
      subst hx
      exact ⟨hcont, Or.inr rfl⟩
    · intro j mj hmj
      exact modify_keeps_quad t.nodes (fun x => { x with centm := p, mass := m }) lf
        (fun _ => rfl) j mj hmj
  · rw [if_neg he]
    have hmass : nf.mass ≠ 0 := by
      intro h0
      exact he (by simp [Node.is_empty, h0])
    obtain ⟨hoc, hoS⟩ := hG.leaf lf nf hnf hch hmass
    by_cases hpc : p = nf.centm
    · rw [if_pos hpc]
      refine ⟨_, rfl, ?_, by simp, ?_⟩
      · refine hG1.write lf (fun x => { x with mass := x.mass + m }) (fun _ => rfl) ?_
        intro x hx _ _
        rw [hnf] at hx
        simp only [Option.some.injEq] at hx
        subst hx
        exact ⟨hoc, Or.inl hoS⟩
      · intro j mj hmj
        exact modify_keeps_quad t.nodes (fun x => { x with mass := x.mass + m }) lf
          (fun _ => rfl) j mj hmj
    · rw [if_neg hpc]
      have hlt : nf.quad.length < 2 ^ k * gap nf.centm p :=
        lt_of_le_of_lt (hG.side_le lf nf hnf).2 (hsep nf.centm hoS (fun h => hpc h.symm))
      obtain ⟨r, hr, hGr, hlr, hkr⟩ := Quadtree.split_returns p m nf.centm side
        (fun a => S a ∨ a = p) (Or.inr rfl) k t lf nf hG1 hnf
        (fun _ => ⟨rfl, Or.inl hoS⟩) hoc hcont hlt hsize
      exact ⟨r, Quadtree.split_mono p m p nf.centm hf2 hr, hGr, hlr, hkr⟩

/-- The insertion loop returns on a list of points of the root square whose members are
pairwise equal or separated, and separated from the positions already in the tree. -/
theorem Quadtree.insertAll_returns (side : K) (k : Nat) (rootq : Quad K)
    (bodies : List (Vec2 K × K)) (t : Quadtree K) (S : Vec2 K → Prop)
    (hG : Geo t side S) (hR : Reachable t) (root : Node K) (hroot : t.nodes[0]? = some root)
    (hq : root.quad = rootq) (hcont : ∀ b ∈ bodies, rootq.contains b.1)
    (hsep : ∀ b ∈ bodies, ∀ o, (S o ∨ ∃ b1 ∈ bodies, b1.1 = o) → o ≠ b.1 →
      side < 2 ^ k * gap o b.1)
    (hsize : t.nodes.length + 4 * k * bodies.length ≤ UINT32_MOD) (fuel : Nat)
    (hf1 : t.nodes.length + 4 * k * bodies.length ≤ fuel) (hf2 : k ≤ fuel) :
    ∃ r, Quadtree.insertAll fuel t bodies = some r ∧ Reachable r := by
  induction bodies generalizing t S root with
  | nil => exact ⟨t, rfl, hR⟩
  | cons b rest ih =>
    obtain ⟨p, m⟩ := b
    have hlen : ((p, m) :: rest).length = rest.length + 1 := rfl
    rw [hlen, Nat.mul_add, Nat.mul_one] at hsize hf1
    have hp : root.quad.contains p := by
      rw [hq]
      exact hcont (p, m) (List.mem_cons_self _ _)
    obtain ⟨r1, hr1, hG1, hl1, hk1⟩ := Quadtree.insert_returns t side S hG hR.threaded p m
      root hroot hp k
      (fun o ho hne => hsep (p, m) (List.mem_cons_self _ _) o (Or.inl ho) hne)
      (by omega) fuel (by omega) hf2
    obtain ⟨root1, hroot1, hq1⟩ := hk1 0 root hroot
    obtain ⟨r, hr, hRr⟩ := ih r1 (fun a => S a ∨ a = p) hG1
      (Reachable.insert fuel p m hR hr1) root1 hroot1 (hq1.trans hq)
      (fun b hb => hcont b (List.mem_cons_of_mem _ hb))
      (by
        intro b hb o ho hne
        refine hsep b (List.mem_cons_of_mem _ hb) o ?_ hne
        rcases ho with (ho | ho) | ⟨b1, hb1, hb2⟩
        · exact Or.inl ho
        · exact Or.inr ⟨(p, m), List.mem_cons_self _ _, ho.symm⟩
        · exact Or.inr ⟨b1, List.mem_cons_of_mem _ hb1, hb2⟩)
      (by omega) (by omega)
    refine ⟨r, ?_, hRr⟩
    simp only [Quadtree.insertAll, hr1, hr]

/-- The square of `new_containing` contains every body of the list as a closed square, and
its side is not negative when the list is not empty. -/
theorem Quad.new_containing_covers (bodies : List (Body K)) (b : Body K) (hb : b ∈ bodies) :
    (Quad.new_containing bodies).contains b.pos ∧ 0 ≤ (Quad.new_containing bodies).length := by
  have h1 := (Bounds.foldl_min_x_le bodies Bounds.seed).2 b hb
  have h2 := (Bounds.foldl_min_y_le bodies Bounds.seed).2 b hb
  have h3 := (Bounds.le_foldl_max_x bodies Bounds.seed).2 b hb
  have h4 := (Bounds.le_foldl_max_y bodies Bounds.seed).2 b hb
  simp only [Quad.new_containing, Quad.contains]
  set s := bodies.foldl Bounds.step Bounds.seed with hs
  have hx : s.max_x - s.min_x ≤ max (s.max_x - s.min_x) (s.max_y - s.min_y) := le_max_left _ _
  have hy : s.max_y - s.min_y ≤ max (s.max_x - s.min_x) (s.max_y - s.min_y) := le_max_right _ _
  refine ⟨⟨?_, ?_, ?_, ?_⟩, ?_⟩ <;> linarith

/-- The tree left by `reset` satisfies the geometric invariant for its own side. -/
theorem Geo.reset (t0 : Quadtree K) (q : Quad K) (hq : 0 ≤ q.length) :
    Geo (t0.reset q) q.length (fun _ => False) := by
  have hnode : ∀ (i : Nat) (n : Node K), (t0.reset q).nodes[i]? = some n →
      n = Node.ofQuad q 0 := by
    intro i n hn
    match i with
    | 0 =>
      simp only [Quadtree.reset, List.getElem?_cons_zero, Option.some.injEq] at hn
      exact hn.symm
    | i + 1 => simp [Quadtree.reset] at hn
  refine ⟨?_, ?_, ?_⟩
  · intro i n hn hc
    rw [hnode i n hn] at hc
    exact absurd rfl hc
  · intro i n hn _ hm
    rw [hnode i n hn] at hm
    exact absurd rfl hm
  · intro i n hn
    rw [hnode i n hn]
    exact ⟨hq, le_refl _⟩

/-- Function `build_quadtree` returns on bodies that are pairwise at the same position or
separated by more than the side of the root square over `2^k`, when `1 + 4 k n` node indices
fit in 32 bits. -/
theorem build_quadtree_returns (bodies : List (Body K)) (k : Nat)
    (hsep : ∀ a ∈ bodies, ∀ b ∈ bodies, a.pos ≠ b.pos →
      (Quad.new_containing bodies).length < 2 ^ k * gap a.pos b.pos)
    (hsize : 1 + 4 * k * bodies.length ≤ UINT32_MOD) (fuel : Nat)
    (hf : 1 + 4 * k * bodies.length + k ≤ fuel) :
    ∃ r, build_quadtree fuel bodies = some r ∧ Reachable r := by
  cases hb : bodies with
  | nil => exact ⟨_, rfl, Reachable.reset _ _⟩
  | cons b0 rest =>
    rw [← hb]
    have hq := (Quad.new_containing_covers bodies b0 (by rw [hb]; exact List.mem_cons_self _ _)).2
    have hlenm : (bodies.map (fun body => (body.pos, body.mass))).length = bodies.length :=
      List.length_map _ _
    refine Quadtree.insertAll_returns (Quad.new_containing bodies).length k
      (Quad.new_containing bodies) (bodies.map (fun body => (body.pos, body.mass)))
      (Quadtree.reset ⟨[], []⟩ (Quad.new_containing bodies)) (fun _ => False)
      (Geo.reset _ _ hq) (Reachable.reset _ _) (Node.ofQuad (Quad.new_containing bodies) 0)
      rfl rfl ?_ ?_ ?_ fuel ?_ (by omega)
    · intro b hb1
      obtain ⟨a, ha, rfl⟩ := List.mem_map.mp hb1
      exact (Quad.new_containing_covers bodies a ha).1
    · intro b hb1 o ho hne
      obtain ⟨a, ha, rfl⟩ := List.mem_map.mp hb1
      rcases ho with ho | ⟨b1, hb2, hb3⟩
      · exact absurd ho id
      · obtain ⟨a1, ha1, rfl⟩ := List.mem_map.mp hb2
        subst hb3
        exact hsep a1 ha1 a ha hne
    · rw [hlenm]
      exact hsize
    · rw [hlenm]
      show 1 + 4 * k * bodies.length ≤ fuel
      omega

/-- The query loop returns on a threaded tree from some number of passes on. -/
theorem Quadtree.accel_returns (c : Constants K) (sqrt : K → K) (t : Quadtree K)
    (ht : Threaded (skel t)) (p : Vec2 K) :
    ∃ (k : Nat) (v : Vec2 K), ∀ fuel, k ≤ fuel → t.accel c sqrt fuel p = some v := by
  obtain ⟨c0, hc0⟩ := ht.root
  obtain ⟨n, hn, -, hx⟩ := skel_node t 0 c0 0 hc0
  obtain ⟨k, v, tr, -, -, hw⟩ :=
    Quadtree.walk_subtree c sqrt t p ht t.nodes.length 0 n hn (Nat.sub_le _ _)
  refine ⟨k, (⟨0, 0⟩ : Vec2 K).add v, ?_⟩
  intro fuel hf
  obtain ⟨f, rfl⟩ := Nat.exists_eq_add_of_le hf
  rw [Nat.add_comm]
  simp [Quadtree.accel, hw f ⟨0, 0⟩ [], hx]

/-- The loop of queries returns on a threaded tree from some number of passes on. -/
theorem Simulation.evaluate_returns (c : Constants K) (sqrt : K → K) (ygg : Quadtree K)
    (ht : Threaded (skel ygg)) (bodies : List (Body K)) :
    ∃ (k : Nat) (r : List (Body K)), ∀ fuel, k ≤ fuel →
      Simulation.evaluate c sqrt fuel ygg bodies = some r := by
  induction bodies with
  | nil => exact ⟨0, [], fun _ _ => rfl⟩
  | cons b rest ih =>
    obtain ⟨k1, v, hv⟩ := Quadtree.accel_returns c sqrt ygg ht b.pos
    obtain ⟨k2, r, hr⟩ := ih
    refine ⟨max k1 k2, { b with accel := v } :: r, ?_⟩
    intro fuel hf
    simp only [Simulation.evaluate, hv fuel (le_trans (le_max_left _ _) hf),
      hr fuel (le_trans (le_max_right _ _) hf)]

end StepReturns

/-! ## Softening of a contribution (`Quadtree::accel`) -/

section Softening

variable {K : Type} [LinearOrderedField K]

/-- C26 as the code has it: for an accepted node of mass `mass ≥ 0` whose centre of mass lies
at distance `d > 0` from the query position (with `sqrt` exact on `d * d`), under `G ≥ 0` and
`EPSILON ≠ 0`, the loop of `accel` adds `contribution`, a vector whose magnitude is
`min (G * mass / (d^2 + EPSILON^2)) (d * DBL_MAX)`: its square is the squared magnitude and
it is not negative. That magnitude is at most `G * mass / EPSILON^2`, and it is
`G * mass / (d^2 + EPSILON^2)` whenever the factor `G * mass / ((d^2 + EPSILON^2) * d)` is at
most `DBL_MAX`. -/
theorem contribution_magnitude (c : Constants K) (sqrt : K → K) (centm : Vec2 K) (mass : K)
    (p : Vec2 K) (d : K) (hd : 0 < d)
    (hdd : Vec2.mag_sq ⟨centm.x - p.x, centm.y - p.y⟩ = d * d)
    (hs : sqrt (d * d) = d) (hG : 0 ≤ c.G) (hm : 0 ≤ mass) (he : c.EPSILON ≠ 0) :
    (∀ (t : Quadtree K) (node fuel : Nat) (n : Node K) (acc : Vec2 K) (seen : List Nat),
      t.nodes[node]? = some n → n.centm = centm → n.mass = mass →
      (n.is_leaf = true ∨ n.quad.length * n.quad.length <
        (Vec2.mag_sq ⟨n.centm.x - p.x, n.centm.y - p.y⟩) * (c.THETA * c.THETA)) →
      Quadtree.walk c sqrt t p (fuel + 1) node acc seen =
        if n.next = 0 then some (acc.add (contribution c sqrt centm mass p), node :: seen)
        else Quadtree.walk c sqrt t p fuel n.next (acc.add (contribution c sqrt centm mass p))
          (node :: seen)) ∧
    (contribution c sqrt centm mass p).mag_sq =
      min (c.G * mass / (d * d + c.EPSILON * c.EPSILON)) (d * DBL_MAX) *
        min (c.G * mass / (d * d + c.EPSILON * c.EPSILON)) (d * DBL_MAX) ∧
    0 ≤ min (c.G * mass / (d * d + c.EPSILON * c.EPSILON)) (d * DBL_MAX) ∧
    min (c.G * mass / (d * d + c.EPSILON * c.EPSILON)) (d * DBL_MAX) ≤
      c.G * mass / (c.EPSILON * c.EPSILON) ∧
    (c.G * mass / ((d * d + c.EPSILON * c.EPSILON) * d) ≤ DBL_MAX →
      min (c.G * mass / (d * d + c.EPSILON * c.EPSILON)) (d * DBL_MAX) =
        c.G * mass / (d * d + c.EPSILON * c.EPSILON)) := by
  have he2 : 0 < c.EPSILON * c.EPSILON := mul_self_pos.mpr he
  have hdd2 : 0 < d * d := mul_pos hd hd
  have hsum : 0 < d * d + c.EPSILON * c.EPSILON := add_pos hdd2 he2
  have hGm : 0 ≤ c.G * mass := mul_nonneg hG hm
  have hfac : c.G * mass / (d * d + c.EPSILON * c.EPSILON) =
      d * (c.G * mass / ((d * d + c.EPSILON * c.EPSILON) * d)) := by
    field_simp
    ring
  have hmin : min (c.G * mass / (d * d + c.EPSILON * c.EPSILON)) (d * DBL_MAX) =
      d * min (c.G * mass / ((d * d + c.EPSILON * c.EPSILON) * d)) DBL_MAX := by
    rw [hfac, mul_min_of_nonneg _ _ (le_of_lt hd)]
  refine ⟨?_, ?_, ?_, ?_, ?_⟩
  · intro t node fuel n acc seen hn hc hmass hacc
    subst hc
    subst hmass
    simp only [Quadtree.walk, hn, contribution]
    rw [if_pos hacc]
  · rw [hmin]
    simp only [contribution, Vec2.smul, Vec2.mag_sq] at hdd ⊢
    rw [hdd, hs]
    have : ∀ f : K, (centm.x - p.x) * f * ((centm.x - p.x) * f) +
        (centm.y - p.y) * f * ((centm.y - p.y) * f) =
        ((centm.x - p.x) * (centm.x - p.x) + (centm.y - p.y) * (centm.y - p.y)) * (f * f) := by
      intro f; ring
    rw [this, hdd]
    ring
  · exact le_min (div_nonneg hGm (le_of_lt hsum)) (mul_nonneg (le_of_lt hd) (le_of_lt DBL_MAX_pos))
  · refine le_trans (min_le_left _ _) ?_
    exact div_le_div_of_nonneg_left hGm he2 (by linarith)
  · intro hle
    rw [hmin, min_eq_left hle, ← hfac]

/-- Witness for the amended C26: mass 2 at `(3, 4)` seen from the origin, distance 5. -/
theorem contribution_magnitude_witness :
    (contribution Constants.compiled sqrtQ ⟨3, 4⟩ 2 ⟨0, 0⟩).mag_sq =
      min ((1 / 100 : ℚ) * 2 / (5 * 5 + 1 * 1)) (5 * DBL_MAX) *
        min ((1 / 100 : ℚ) * 2 / (5 * 5 + 1 * 1)) (5 * DBL_MAX) :=
  (contribution_magnitude Constants.compiled sqrtQ ⟨3, 4⟩ 2 ⟨0, 0⟩ 5 (by decide!) (by decide!)
    (by decide!) (by decide!) (by decide!) (by decide!)).2.1

/-- C26 as stated fails: for a node of mass `2^1023` at `(2^-10, 0)` seen from the origin,
distance `d = 2^-10`, under the compiled constants, the squared magnitude of the vector added
is `(d * DBL_MAX)^2` and not `(G * m / (d^2 + EPSILON^2))^2`: the factor is clamped. -/
theorem contribution_magnitude_clamped :
    (0 : ℚ) ≤ nearBody.2 ∧ (0 : ℚ) < 1 / 2 ^ 10 ∧
    Vec2.mag_sq (⟨nearBody.1.x - 0, nearBody.1.y - 0⟩ : Vec2 ℚ) = 1 / 2 ^ 10 * (1 / 2 ^ 10) ∧
    sqrtBisect (1 / 2 ^ 10 * (1 / 2 ^ 10)) = 1 / 2 ^ 10 ∧
    (contribution Constants.compiled sqrtBisect nearBody.1 nearBody.2 ⟨0, 0⟩).mag_sq =
      1 / 2 ^ 10 * DBL_MAX * (1 / 2 ^ 10 * DBL_MAX) ∧
    (contribution Constants.compiled sqrtBisect nearBody.1 nearBody.2 ⟨0, 0⟩).mag_sq ≠
      (1 / 100 * nearBody.2 / (1 / 2 ^ 10 * (1 / 2 ^ 10) + 1 * 1)) *
        (1 / 100 * nearBody.2 / (1 / 2 ^ 10 * (1 / 2 ^ 10) + 1 * 1)) := by
  decide!

end Softening

/-! ## The disk generator (`gen_bodies_disk`, `toPixelSpace`) -/

section Disk

/-- C27 fails on the code: with one body asked for, the central body of `gen_bodies_disk` is
at `(1024, 1024)`, which is `(HEIGHT/2, WIDTH/2)` in pixels, while the disk is generated
about the origin and `toPixelSpace` sends the origin, not `1024`, to the middle pixel: the
central body is drawn at `4215808/21`, about `200752.8`, far off a screen of 2048 pixels. -/
theorem gen_bodies_disk_central_off_centre (draws : Nat → DiskDraw ℚ) (sqrt cos sin : ℚ → ℚ) :
    (gen_bodies_disk Constants.compiled sqrt cos sin draws 1 = some [diskCentral]) ∧
    (diskCentral : Body ℚ).pos = ⟨1024, 1024⟩ ∧ (diskCentral : Body ℚ).mass = 100 ∧
    (diskCentral : Body ℚ).vel = ⟨0, 0⟩ ∧
    toPixelSpace (diskCentral : Body ℚ).pos.x WIDTH = 4215808 / 21 ∧
    toPixelSpace (diskCentral : Body ℚ).pos.x WIDTH ≠ ((WIDTH / 2 : Int) : ℚ) ∧
    toPixelSpace (diskCentral : Body ℚ).pos.y HEIGHT ≠ ((HEIGHT / 2 : Int) : ℚ) ∧
    toPixelSpace (0 : ℚ) WIDTH = ((WIDTH / 2 : Int) : ℚ) ∧
    (diskBody Constants.compiled sqrt cos sin ⟨1, 0, 1, 0, 1⟩).pos = ⟨1 * cos 0, 1 * sin 0 + 0⟩ := by
  refine ⟨rfl, ?_, rfl, rfl, ?_, ?_, ?_, ?_, rfl⟩ <;> decide!

end Disk

/-! ## The cases of `insert` and its subdivision loop -/

section Cases

variable {K : Type} [LinearOrderedField K]

theorem Quadtree.subdivide_some (t t1 : Quadtree K) (i c : Nat)
    (h : t.subdivide i = some (c, t1)) :
    ∃ n, t.nodes[i]? = some n ∧ c = t.nodes.length ∧
      t1.nodes.length = t.nodes.length + 4 ∧ t1.parents = t.parents ++ [i] := by
  cases hn : t.nodes[i]? with
  | none => simp [Quadtree.subdivide, hn] at h
  | some n =>
    rw [Quadtree.subdivide_eq t i n hn] at h
    simp only [Option.some.injEq, Prod.mk.injEq] at h
    obtain ⟨rfl, rfl⟩ := h
    exact ⟨n, rfl, rfl, by simp, rfl⟩

/-- Induction along the subdivision loop of `insert`: a relation `Q` between the state at
the start of a pass and the tree returned holds when it holds for the last pass and is
carried back over any pass that goes on. -/
theorem Quadtree.split_induct (body_pos : Vec2 K) (body_mass : K) (bp np : Vec2 K)
    (Q : Quadtree K → Nat → Quadtree K → Prop)
    (hstep : ∀ (t t1 r : Quadtree K) (node c : Nat) (n : Node K),
      t.nodes[node]? = some n → t.subdivide node = some (c, t1) →
      n.quad.find_quadrant np = n.quad.find_quadrant bp →
      t1.nodes.length ≤ r.nodes.length →
      Q t1 ((c + n.quad.find_quadrant np) % UINT32_MOD) r → Q t node r)
    (hfin : ∀ (t t1 : Quadtree K) (node c : Nat) (n : Node K),
      t.nodes[node]? = some n → t.subdivide node = some (c, t1) →
      n.quad.find_quadrant np ≠ n.quad.find_quadrant bp →
      Q t node ⟨(t1.nodes.modify (fun m => { m with centm := n.centm, mass := n.mass })
          (c + n.quad.find_quadrant np)).modify
          (fun m => { m with centm := body_pos, mass := body_mass })
          (c + n.quad.find_quadrant bp), t1.parents⟩)
    (fuel : Nat) (t r : Quadtree K) (node : Nat)
    (h : Quadtree.split body_pos body_mass bp np fuel t node = some r) :
    t.nodes.length + 4 ≤ r.nodes.length ∧ Q t node r := by
  induction fuel generalizing t node with
  | zero => simp [Quadtree.split] at h
  | succ fuel ih =>
    simp only [Quadtree.split] at h
    cases hs : t.subdivide node with
    | none => simp [hs] at h
    | some ct =>
      obtain ⟨c, t1⟩ := ct
      simp only [hs] at h
      obtain ⟨n, hn, hc, hlen, -⟩ := Quadtree.subdivide_some t t1 node c hs
      have hn1 : t1.nodes[node]? = some { n with children := t.nodes.length } := by
        have := Quadtree.subdivide_old t t1 node c n hn hs node n hn
        rw [if_pos rfl] at this
        exact this
      simp only [hn1] at h
      by_cases hq : n.quad.find_quadrant np = n.quad.find_quadrant bp
      · rw [if_pos hq] at h
        obtain ⟨hl, hQ⟩ := ih t1 _ h
        exact ⟨by omega, hstep t t1 r node c n hn hs hq (by omega) hQ⟩
      · rw [if_neg hq] at h
        simp only [Option.some.injEq] at h
        subst h
        refine ⟨by simp [hlen], hfin t t1 node c n hn hs hq⟩

theorem Quadtree.descend_leaf (t : Quadtree K) (p : Vec2 K) (d i lf : Nat)
    (h : t.descend p d i = some lf) :
    ∃ n, t.nodes[lf]? = some n ∧ n.children = 0 := by
  induction d generalizing i with
  | zero => simp [Quadtree.descend] at h
  | succ d ih =>
    simp only [Quadtree.descend] at h
    cases hn : t.nodes[i]? with
    | none => simp [hn] at h
    | some n =>
      simp only [hn] at h
      by_cases hc : n.has_children = true
      · rw [if_pos hc] at h
        exact ih _ h
      · rw [if_neg hc] at h
        simp only [Option.some.injEq] at h
        subst h
        refine ⟨n, hn, ?_⟩
        by_contra h0
        exact hc (by simp [Node.has_children, h0])

/-- The three ways a call of `insert` returns: it writes an empty leaf, adds to the mass of
a leaf at the same position, or runs the subdivision loop from an occupied leaf. -/
theorem Quadtree.insert_cases (fuel : Nat) (t r : Quadtree K) (p : Vec2 K) (m : K)
    (h : t.insert fuel p m = some r) :
    ∃ lf n, t.descend p fuel 0 = some lf ∧ t.nodes[lf]? = some n ∧ n.children = 0 ∧
      ((n.mass = 0 ∧
          r = { t with nodes := t.nodes.modify (fun x => { x with centm := p, mass := m }) lf }) ∨
        (n.mass ≠ 0 ∧ p = n.centm ∧
          r = { t with nodes := t.nodes.modify (fun x => { x with mass := x.mass + m }) lf }) ∨
        (n.mass ≠ 0 ∧ p ≠ n.centm ∧ Quadtree.split p m p n.centm fuel t lf = some r)) := by
  simp only [Quadtree.insert] at h
  cases hd : t.descend p fuel 0 with
  | none => simp [hd] at h
  | some lf =>
    simp only [hd] at h
    obtain ⟨n, hn, hc⟩ := Quadtree.descend_leaf t p fuel 0 lf hd
    simp only [hn] at h
    refine ⟨lf, n, rfl, hn, hc, ?_⟩
    by_cases he : n.is_empty = true
    · rw [if_pos he] at h
      simp only [Option.some.injEq] at h
      left
      refine ⟨?_, h.symm⟩
      by_contra h0
      simp [Node.is_empty, h0] at he
    · rw [if_neg he] at h
      have hm : n.mass ≠ 0 := fun h0 => he (by simp [Node.is_empty, h0])
      by_cases hp : p = n.centm
      · rw [if_pos hp] at h
        simp only [Option.some.injEq] at h
        exact Or.inr (Or.inl ⟨hm, hp, h.symm⟩)
      · rw [if_neg hp] at h
        exact Or.inr (Or.inr ⟨hm, hp, h⟩)

theorem Quadtree.insert_length_le (fuel : Nat) (t r : Quadtree K) (p : Vec2 K) (m : K)
    (h : t.insert fuel p m = some r) : t.nodes.length ≤ r.nodes.length := by
  obtain ⟨lf, n, -, -, -, hcase⟩ := Quadtree.insert_cases fuel t r p m h
  rcases hcase with ⟨-, rfl⟩ | ⟨-, -, rfl⟩ | ⟨-, -, hs⟩
  · simp
  · simp
  · have := (Quadtree.split_induct p m p n.centm (fun _ _ _ => True)
      (fun _ _ _ _ _ _ _ _ _ _ _ => trivial) (fun _ _ _ _ _ _ _ _ => trivial) fuel t r lf hs).1
    omega

end Cases

/-! ## Tree shape -/

section ShapeSec

variable {K : Type} [LinearOrderedField K]

theorem Shape.modify_shape {K : Type} {t : Quadtree K} (h : Shape t) (f : Node K → Node K) (a : Nat)
    (hf : ∀ n, (f n).children = n.children) :
    Shape ⟨t.nodes.modify f a, t.parents⟩ := by
  refine ⟨by simpa using h.1, ?_⟩
  intro k p hk
  simp only [kidN_modify _ _ _ hf]
  exact h.2 k p hk

theorem Shape.subdivide_leaf {t t1 : Quadtree K} (h : Shape t) (i c : Nat)
    (hs : t.subdivide i = some (c, t1)) (hleaf : kidN t.nodes i = 0) : Shape t1 := by
  obtain ⟨n, hn, -, hlen, hpar⟩ := Quadtree.subdivide_some t t1 i c hs
  have hilt : i < t.nodes.length := (List.getElem?_eq_some.mp hn).1
  have h1 := h.1
  refine ⟨by rw [hlen, hpar, List.length_append]; simp; omega, ?_⟩
  intro k p hk
  rw [hpar] at hk
  rw [kidN_subdivide t t1 i c n hn hs p]
  by_cases hkl : k < t.parents.length
  · rw [List.getElem?_append_left hkl] at hk
    obtain ⟨hp1, hp2⟩ := h.2 k p hk
    have hne : i ≠ p := by
      intro e
      rw [e] at hleaf
      omega
    rw [if_pos (by omega), if_neg hne]
    exact ⟨hp1, hp2⟩
  · rw [List.getElem?_append_right (by omega)] at hk
    have hk0 : k - t.parents.length = 0 := by
      by_contra hne
      obtain ⟨d, hd⟩ : ∃ d, k - t.parents.length = d + 1 := ⟨k - t.parents.length - 1, by omega⟩
      rw [hd] at hk
      simp at hk
    rw [hk0] at hk
    simp only [List.getElem?_cons_zero, Option.some.injEq] at hk
    subst hk
    have hke : k = t.parents.length := by omega
    rw [if_pos hilt, if_pos rfl]
    omega

theorem Quadtree.split_shape (body_pos : Vec2 K) (body_mass : K) (bp np : Vec2 K)
    (fuel : Nat) (t r : Quadtree K) (node : Nat)
    (h : Quadtree.split body_pos body_mass bp np fuel t node = some r)
    (hS : Shape t) (hleaf : kidN t.nodes node = 0) (hsize : r.nodes.length ≤ UINT32_MOD) :
    Shape r := by
  refine (Quadtree.split_induct body_pos body_mass bp np
    (fun t node r => Shape t → kidN t.nodes node = 0 → r.nodes.length ≤ UINT32_MOD → Shape r)
    ?_ ?_ fuel t r node h).2 hS hleaf hsize
  · intro t t1 r node c n hn hs _ hle hQ hS hleaf hsize
    obtain ⟨-, -, hc, hlen, -⟩ := Quadtree.subdivide_some t t1 node c hs
    have hq := Quad.find_quadrant_lt n.quad np
    have hmod : (c + n.quad.find_quadrant np) % UINT32_MOD = c + n.quad.find_quadrant np :=
      Nat.mod_eq_of_lt (by omega)
    rw [hmod] at hQ
    refine hQ (hS.subdivide_leaf node c hs hleaf) ?_ hsize
    rw [kidN_subdivide t t1 node c n hn hs, if_neg (by omega)]
  · intro t t1 node c n _ hs _ hS hleaf _
    exact ((hS.subdivide_leaf node c hs hleaf).modify_shape
      (fun m => { m with centm := n.centm, mass := n.mass }) (c + n.quad.find_quadrant np)
      (fun _ => rfl)).modify_shape (fun m => { m with centm := body_pos, mass := body_mass })
      (c + n.quad.find_quadrant bp) (fun _ => rfl)

theorem Quadtree.insert_shape (fuel : Nat) (t r : Quadtree K) (p : Vec2 K) (m : K)
    (h : t.insert fuel p m = some r) (hS : Shape t) (hsize : r.nodes.length ≤ UINT32_MOD) :
    Shape r := by
  obtain ⟨lf, n, -, hn, hc, hcase⟩ := Quadtree.insert_cases fuel t r p m h
  rcases hcase with ⟨-, rfl⟩ | ⟨-, -, rfl⟩ | ⟨-, -, hs⟩
  · exact hS.modify_shape _ _ (fun _ => rfl)
  · exact hS.modify_shape _ _ (fun _ => rfl)
  · refine Quadtree.split_shape p m p n.centm fuel t r lf hs hS ?_ hsize
    rw [kidN_eq t.nodes lf n hn, hc]

/-- Every tree reachable from `reset` by inserts, of at most `2^32` nodes, has the shape
invariant. -/
theorem Reachable.shape {t : Quadtree K} (h : Reachable t)
    (hsize : t.nodes.length ≤ UINT32_MOD) : Shape t := by
  induction h with
  | reset t0 q => exact ⟨rfl, fun k p hk => by simp [Quadtree.reset] at hk⟩
  | insert fuel p m _ hi ih =>
    have := Quadtree.insert_length_le fuel _ _ p m hi
    exact Quadtree.insert_shape fuel _ _ p m hi (ih (by omega)) hsize

theorem Shape.nodup {K : Type} {t : Quadtree K} (h : Shape t) : t.parents.Nodup := by
  rw [List.nodup_iff_getElem?_ne_getElem?]
  intro i j hij hj heq
  have hjs : t.parents[j]? = some (t.parents.get ⟨j, hj⟩) := List.getElem?_eq_getElem hj
  have his : t.parents[i]? = some (t.parents.get ⟨j, hj⟩) := heq.trans hjs
  have h1 := (h.2 i _ his).2
  have h2 := (h.2 j _ hjs).2
  omega

/-- C21, tree shape: in every tree reachable from `reset` by inserts, of at most `2^32`
nodes (the range of the `uint32_t` index of `insert`), the node vector has `1 + 4 *
parents.size()` entries; entry `k` of `parents` is an index below `4k + 1` whose node has
`children = 4k + 1`; a node has children exactly when its index occurs in `parents`, and no
index occurs there twice; every index `i > 0` lies in the block of four children of
`parents[(i - 1) / 4]` and of no other node; and a nonzero `children` value `c` is positive,
so no block contains the root, with `c + 3` a valid index. -/
theorem tree_shape (t : Quadtree K) (h : Reachable t) (hsize : t.nodes.length ≤ UINT32_MOD) :
    t.nodes.length = 1 + 4 * t.parents.length ∧
    (∀ k, k < t.parents.length → ∃ (p : Nat) (n : Node K), t.parents[k]? = some p ∧
      p < 4 * k + 1 ∧ t.nodes[p]? = some n ∧ n.children = 4 * k + 1) ∧
    (∀ (i : Nat) (n : Node K), t.nodes[i]? = some n → (n.children ≠ 0 ↔ i ∈ t.parents)) ∧
    t.parents.Nodup ∧
    (∀ i, 0 < i → i < t.nodes.length → ∃ (p : Nat) (n : Node K),
      t.parents[(i - 1) / 4]? = some p ∧ t.nodes[p]? = some n ∧ n.children ≠ 0 ∧
      n.children ≤ i ∧ i ≤ n.children + 3 ∧
      ∀ (p1 : Nat) (n1 : Node K), t.nodes[p1]? = some n1 → n1.children ≠ 0 →
        n1.children ≤ i → i ≤ n1.children + 3 → p1 = p) ∧
    (∀ (i : Nat) (n : Node K), t.nodes[i]? = some n → n.children ≠ 0 →
      0 < n.children ∧ n.children + 3 < t.nodes.length) := by
  have hS := h.shape hsize
  have hL := h.logged
  have entry : ∀ k, k < t.parents.length → ∃ (p : Nat) (n : Node K), t.parents[k]? = some p ∧
      p < 4 * k + 1 ∧ t.nodes[p]? = some n ∧ n.children = 4 * k + 1 := by
    intro k hk
    have hks : t.parents[k]? = some (t.parents.get ⟨k, hk⟩) := List.getElem?_eq_getElem hk
    obtain ⟨h1, h2⟩ := hS.2 k _ hks
    obtain ⟨n, hn, hnc⟩ := kidN_pos_lt t.nodes (t.parents.get ⟨k, hk⟩) (by omega)
    exact ⟨_, n, hks, h1, hn, by rw [hnc, h2]⟩
  have logged : ∀ (i : Nat) (n : Node K), t.nodes[i]? = some n → n.children ≠ 0 →
      ∃ k, k < t.parents.length ∧ t.parents[k]? = some i ∧ n.children = 4 * k + 1 := by
    intro i n hn hc
    obtain ⟨k, hk⟩ := List.mem_iff_getElem?.mp (hL.logged i n hn hc)
    have hkl : k < t.parents.length := (List.getElem?_eq_some.mp hk).1
    have := (hS.2 k i hk).2
    rw [kidN_eq t.nodes i n hn] at this
    exact ⟨k, hkl, hk, this⟩
  refine ⟨hS.1, entry, ?_, hS.nodup, ?_, ?_⟩
  · intro i n hn
    constructor
    · exact hL.logged i n hn
    · intro hi
      obtain ⟨k, hk⟩ := List.mem_iff_getElem?.mp hi
      have := (hS.2 k i hk).2
      rw [kidN_eq t.nodes i n hn] at this
      omega
  · intro i hi0 hil
    have h1 := hS.1
    obtain ⟨p, n, hp, -, hn, hc⟩ := entry ((i - 1) / 4) (by omega)
    refine ⟨p, n, hp, hn, by omega, by omega, by omega, ?_⟩
    intro p1 n1 hn1 hc1 hle hge
    obtain ⟨k1, -, hk1, hck⟩ := logged p1 n1 hn1 hc1
    have hke : k1 = (i - 1) / 4 := by omega
    rw [hke, hp] at hk1
    exact (Option.some.inj hk1).symm
  · intro i n hn hc
    obtain ⟨k, hkl, -, hck⟩ := logged i n hn hc
    have h1 := hS.1
    omega

/-- Witness for C21: the tree subdivided four levels deep, 17 nodes. -/
theorem tree_shape_witness :
    deepTree.nodes.length = 1 + 4 * deepTree.parents.length ∧ deepTree.parents.Nodup :=
  ⟨(tree_shape deepTree deepTree_reachable.1 (by decide!)).1,
    (tree_shape deepTree deepTree_reachable.1 (by decide!)).2.2.2.1⟩

end ShapeSec

/-! ## Classification and child squares (`find_quadrant`, `into_quadrant`) -/

section Descent

variable {K : Type} [LinearOrderedField K]

theorem Quad.contains_iff_abs (q : Quad K) (p : Vec2 K) :
    q.contains p ↔
      |p.x - q.center.x| ≤ q.length / 2 ∧ |p.y - q.center.y| ≤ q.length / 2 := by
  unfold Quad.contains
  rw [abs_le, abs_le]
  constructor
  · rintro ⟨h1, h2, h3, h4⟩
    exact ⟨⟨by linarith, by linarith⟩, ⟨by linarith, by linarith⟩⟩
  · rintro ⟨⟨h1, h2⟩, ⟨h3, h4⟩⟩
    exact ⟨by linarith, by linarith, by linarith, by linarith⟩

theorem KidsQuad.modify_kq {t : Quadtree K} (h : KidsQuad t) (f : Node K → Node K) (x : Nat)
    (hf : ∀ n, (f n).frame = n.frame) : KidsQuad ⟨t.nodes.modify f x, t.parents⟩ := by
  have fchildren : ∀ n, (f n).children = n.children := fun n =>
    congrArg (fun e : Nat × Nat × Quad K => e.1) (hf n)
  have fquad : ∀ n, (f n).quad = n.quad := fun n =>
    congrArg (fun e : Nat × Nat × Quad K => e.2.2) (hf n)
  intro i n hn hc k hk
  simp only [List.getElem?_modify] at hn
  obtain ⟨m, hm, hnm⟩ := Option.map_eq_some'.mp hn
  have e1 : n.children = m.children := by
    rw [← hnm]; split
    · exact fchildren m
    · rfl
  have e2 : n.quad = m.quad := by
    rw [← hnm]; split
    · exact fquad m
    · rfl
  obtain ⟨ck, hck, hq⟩ := h i m hm (by rw [← e1]; exact hc) k hk
  obtain ⟨m1, hm1, hq1⟩ := modify_keeps_quad t.nodes f x fquad _ ck hck
  exact ⟨m1, by rw [e1]; exact hm1, by rw [hq1, hq, e2]⟩

theorem KidsQuad.subdivide_kq {t t1 : Quadtree K} (h : KidsQuad t) (i c : Nat)
    (hs : t.subdivide i = some (c, t1)) : KidsQuad t1 := by
  obtain ⟨ni, hi, -, -, -⟩ := Quadtree.subdivide_some t t1 i c hs
  intro j n hn hc k hk
  rcases Quadtree.subdivide_inv t t1 i c ni hi hs j n hn with
    ⟨hj, m, hm, hnm⟩ | ⟨k1, nxt, -, -, hnew⟩
  · by_cases hij : i = j
    · subst hij
      rw [hi] at hm
      simp only [Option.some.injEq] at hm
      subst hm
      rw [if_pos rfl] at hnm
      subst hnm
      obtain ⟨nxt, hnew⟩ := Quadtree.subdivide_new t t1 i c ni hi hs k hk
      exact ⟨_, hnew, rfl⟩
    · rw [if_neg hij] at hnm
      subst hnm
      obtain ⟨ck, hck, hq⟩ := h j n hm hc k hk
      have := Quadtree.subdivide_old t t1 i c ni hi hs _ ck hck
      refine ⟨_, this, ?_⟩
      rw [← hq]
      split <;> rfl
  · rw [hnew] at hc
    exact absurd rfl hc

theorem Quadtree.insert_kidsQuad (fuel : Nat) (t r : Quadtree K) (p : Vec2 K) (m : K)
    (h : t.insert fuel p m = some r) (hK : KidsQuad t) : KidsQuad r := by
  obtain ⟨lf, n, -, -, -, hcase⟩ := Quadtree.insert_cases fuel t r p m h
  rcases hcase with ⟨-, rfl⟩ | ⟨-, -, rfl⟩ | ⟨-, -, hs⟩
  · exact hK.modify_kq _ _ (fun _ => rfl)
  · exact hK.modify_kq _ _ (fun _ => rfl)
  · refine (Quadtree.split_induct p m p n.centm (fun t _ r => KidsQuad t → KidsQuad r)
      ?_ ?_ fuel t r lf hs).2 hK
    · intro t t1 r node c n _ hs _ _ hQ hK
      exact hQ (hK.subdivide_kq node c hs)
    · intro t t1 node c n _ hs _ hK
      exact ((hK.subdivide_kq node c hs).modify_kq
        (fun m => { m with centm := n.centm, mass := n.mass }) _ (fun _ => rfl)).modify_kq
        (fun x => { x with centm := p, mass := m }) _ (fun _ => rfl)

/-- In every tree reachable from `reset` by inserts the children of a node carry its four
sub-squares. -/
theorem Reachable.kidsQuad {t : Quadtree K} (h : Reachable t) : KidsQuad t := by
  induction h with
  | reset t0 q =>
    intro i n hn hc
    match i with
    | 0 =>
      simp only [Quadtree.reset, List.getElem?_cons_zero, Option.some.injEq] at hn
      rw [← hn] at hc
      exact absurd rfl hc
    | i + 1 => simp [Quadtree.reset] at hn
  | insert fuel p m _ hi ih => exact Quadtree.insert_kidsQuad fuel _ _ p m hi ih

theorem Quadtree.descendSeen_mono (t : Quadtree K) (p : Vec2 K) {f f1 : Nat} (hf : f ≤ f1)
    {node : Nat} {seen : List Nat} {r : Nat × List Nat}
    (h : t.descendSeen p f node seen = some r) : t.descendSeen p f1 node seen = some r := by
  induction f generalizing f1 node seen with
  | zero => simp [Quadtree.descendSeen] at h
  | succ f ih =>
    obtain ⟨g, rfl⟩ : ∃ g, f1 = g + 1 := ⟨f1 - 1, by omega⟩
    simp only [Quadtree.descendSeen] at h ⊢
    cases hn : t.nodes[node]? with
    | none => simp [hn] at h
    | some n =>
      simp only [hn] at h ⊢
      by_cases hc : n.has_children = true
      · rw [if_pos hc] at h ⊢
        exact ih (Nat.le_of_succ_le_succ hf) h
      · rw [if_neg hc] at h ⊢
        exact h

/-- The descent of `insert` from a node whose square contains the point returns, at a
childless node, and every node it reads has a square that contains the point. -/
theorem Quadtree.descendSeen_spec (t : Quadtree K) (hK : KidsQuad t) (hT : Threaded (skel t))
    (p : Vec2 K) (hsize : t.nodes.length ≤ UINT32_MOD) (d i : Nat) (n : Node K)
    (hn : t.nodes[i]? = some n) (hc : n.quad.contains p) (hd : t.nodes.length - i ≤ d) :
    ∃ (lf : Nat) (tr : List Nat),
      (∀ seen, t.descendSeen p d i seen = some (lf, tr ++ seen)) ∧
      t.descend p d i = some lf ∧ lf ∈ tr ∧
      (∀ j ∈ tr, ∃ nj, t.nodes[j]? = some nj ∧ nj.quad.contains p) ∧
      ∃ nf, t.nodes[lf]? = some nf ∧ nf.children = 0 := by
  have hilt : i < t.nodes.length := (List.getElem?_eq_some.mp hn).1
  induction d generalizing i n with
  | zero => omega
  | succ d ih =>
    simp only [Quadtree.descend, Quadtree.descendSeen, hn]
    by_cases hch : n.children = 0
    · have : n.has_children = false := by simp [Node.has_children, hch]
      simp only [this, Bool.false_eq_true, if_false]
      refine ⟨i, [i], fun seen => rfl, rfl, List.mem_singleton_self i, ?_, n, hn, hch⟩
      intro j hj
      rw [List.mem_singleton] at hj
      subst hj
      exact ⟨n, hn, hc⟩
    · have : n.has_children = true := by simp [Node.has_children, hch]
      simp only [this, if_true]
      have hsk : (skel t)[i]? = some (n.children, n.next) := by rw [skel_getElem?, hn]; rfl
      have hlt := (hT.kids i n.children n.next hsk hch).1
      have hc3 := hT.children_lt hsk hch
      rw [skel_length] at hc3
      have hq := Quad.find_quadrant_lt n.quad p
      have hmod : (n.children + n.quad.find_quadrant p) % UINT32_MOD =
          n.children + n.quad.find_quadrant p := Nat.mod_eq_of_lt (by omega)
      rw [hmod]
      obtain ⟨ck, hck, hckq⟩ := hK i n hn hch _ hq
      have hcc : ck.quad.contains p := by
        rw [hckq]
        exact Quad.contains_into_quadrant n.quad p hc
      obtain ⟨lf, tr, h1, h2, h3, h4, h5⟩ := ih _ ck hck hcc (by omega) (by omega)
      refine ⟨lf, tr ++ [i], ?_, h2, List.mem_append_left _ h3, ?_, h5⟩
      · intro seen
        rw [h1 (i :: seen)]
        simp
      · intro j hj
        rcases List.mem_append.mp hj with hj | hj
        · exact h4 j hj
        · rw [List.mem_singleton] at hj
          subst hj
          exact ⟨n, hn, hc⟩

/-- C22, classification agrees with child squares: a point of the closed square `q` (whose
side is then `≥ 0`) lies in the closed square `q.into_quadrant (q.find_quadrant p)`; hence, on every
tree reachable from `reset` by inserts (of at most `2^32` nodes) whose root square is `q`,
the descent loop of `insert` for `p` returns, with any fuel from the number of nodes on, at
a childless node, and every node it read has a square that contains `p`. -/
theorem find_quadrant_into_quadrant (q : Quad K) (p : Vec2 K)
    (hx : |p.x - q.center.x| ≤ q.length / 2) (hy : |p.y - q.center.y| ≤ q.length / 2) :
    (|p.x - (q.into_quadrant (q.find_quadrant p)).center.x| ≤
        (q.into_quadrant (q.find_quadrant p)).length / 2 ∧
      |p.y - (q.into_quadrant (q.find_quadrant p)).center.y| ≤
        (q.into_quadrant (q.find_quadrant p)).length / 2) ∧
    ∀ (t : Quadtree K) (root : Node K), Reachable t → t.nodes.length ≤ UINT32_MOD →
      t.nodes[0]? = some root → root.quad = q →
      ∃ (lf : Nat) (seen : List Nat) (nf : Node K),
        (∀ fuel, t.nodes.length ≤ fuel →
          t.descendSeen p fuel 0 [] = some (lf, seen) ∧ t.descend p fuel 0 = some lf) ∧
        t.nodes[lf]? = some nf ∧ nf.children = 0 ∧ lf ∈ seen ∧
        ∀ j ∈ seen, ∃ nj, t.nodes[j]? = some nj ∧
          |p.x - nj.quad.center.x| ≤ nj.quad.length / 2 ∧
          |p.y - nj.quad.center.y| ≤ nj.quad.length / 2 := by
  have hc : q.contains p := (Quad.contains_iff_abs q p).mpr ⟨hx, hy⟩
  refine ⟨(Quad.contains_iff_abs _ p).mp (Quad.contains_into_quadrant q p hc), ?_⟩
  intro t root hR hsize hroot hq
  obtain ⟨lf, tr, h1, h2, h3, h4, nf, h5, h6⟩ := Quadtree.descendSeen_spec t hR.kidsQuad
    hR.threaded p hsize t.nodes.length 0 root hroot (by rw [hq]; exact hc) (Nat.sub_le _ _)
  refine ⟨lf, tr, nf, ?_, h5, h6, h3, ?_⟩
  · intro fuel hf
    have := h1 []
    rw [List.append_nil] at this
    exact ⟨Quadtree.descendSeen_mono t p hf this, Quadtree.descend_mono t p hf h2⟩
  · intro j hj
    obtain ⟨nj, hnj, hcj⟩ := h4 j hj
    exact ⟨nj, hnj, (Quad.contains_iff_abs _ p).mp hcj⟩

/-- Witness for C22: the point `(3, 3)` in the square of side 32 about the origin, and its
descent in the tree subdivided four levels deep. -/
theorem find_quadrant_into_quadrant_witness :
    |(3 : ℚ) - ((⟨⟨0, 0⟩, 32⟩ : Quad ℚ).into_quadrant
        ((⟨⟨0, 0⟩, 32⟩ : Quad ℚ).find_quadrant ⟨3, 3⟩)).center.x| ≤
      ((⟨⟨0, 0⟩, 32⟩ : Quad ℚ).into_quadrant
        ((⟨⟨0, 0⟩, 32⟩ : Quad ℚ).find_quadrant ⟨3, 3⟩)).length / 2 ∧
    ∃ (lf : Nat) (seen : List Nat), deepTree.descendSeen ⟨3, 3⟩ 17 0 [] = some (lf, seen) :=
  ⟨(find_quadrant_into_quadrant ⟨⟨0, 0⟩, 32⟩ ⟨3, 3⟩ (by decide!) (by decide!)).1.1,
    ((find_quadrant_into_quadrant ⟨⟨0, 0⟩, 32⟩ ⟨3, 3⟩ (by decide!) (by decide!)).2 deepTree (deepTree.nodes.headD (Node.ofQuad ⟨⟨0, 0⟩, 32⟩ 0))
      deepTree_reachable.1 (by decide!) (by decide!) (by decide!)).imp
      (fun _ h => h.imp (fun _ h => h.elim (fun _ h => (h.1 17 (by decide!)).1)))⟩

end Descent

/-! ## Trees built from positions inside the root square -/

section BuiltSec

variable {K : Type} [LinearOrderedField K]

theorem Built.reachable {q : Quad K} {t : Quadtree K} (h : Built q t) : Reachable t := by
  induction h with
  | reset t0 => exact Reachable.reset t0 q
  | insert fuel p m _ _ hi ih => exact Reachable.insert fuel p m ih hi

theorem frame_of_map {K : Type} {nodes : List (Node K)} {j c x : Nat} {qd : Quad K}
    (h : (nodes[j]?).map Node.frame = some (c, x, qd)) :
    ∃ n, nodes[j]? = some n ∧ n.children = c ∧ n.next = x ∧ n.quad = qd := by
  obtain ⟨n, hn, he⟩ := Option.map_eq_some'.mp h
  simp only [Node.frame, Prod.mk.injEq] at he
  exact ⟨n, hn, he.1, he.2.1, he.2.2⟩

theorem frame_modify {K : Type} (nodes : List (Node K)) (f : Node K → Node K) (x : Nat)
    (hf : ∀ n, (f n).frame = n.frame) (j : Nat) :
    ((nodes.modify f x)[j]?).map Node.frame = (nodes[j]?).map Node.frame := by
  rw [List.getElem?_modify]
  cases nodes[j]? with
  | none => rfl
  | some m => by_cases hxj : x = j <;> simp [hxj, hf]

/-- A call of `insert` that returns keeps every node there was at its index, with its `quad`
and `next`. -/
theorem Quadtree.insert_keeps (fuel : Nat) (t r : Quadtree K) (p : Vec2 K) (m : K)
    (h : t.insert fuel p m = some r) (j : Nat) (mj : Node K) (hj : t.nodes[j]? = some mj) :
    ∃ m1, r.nodes[j]? = some m1 ∧ m1.quad = mj.quad ∧ m1.next = mj.next := by
  have hmod : ∀ (nodes : List (Node K)) (f : Node K → Node K) (x : Nat),
      (∀ n, (f n).frame = n.frame) → ∀ (j : Nat) (mj : Node K), nodes[j]? = some mj →
      ∃ m1, (nodes.modify f x)[j]? = some m1 ∧ m1.quad = mj.quad ∧ m1.next = mj.next := by
    intro nodes f x hf j mj hj
    have := frame_modify nodes f x hf j
    rw [hj] at this
    obtain ⟨n, hn, -, h2, h3⟩ := frame_of_map this
    exact ⟨n, hn, h3, h2⟩
  obtain ⟨lf, n, -, -, -, hcase⟩ := Quadtree.insert_cases fuel t r p m h
  rcases hcase with ⟨-, rfl⟩ | ⟨-, -, rfl⟩ | ⟨-, -, hs⟩
  · exact hmod t.nodes (fun x => { x with centm := p, mass := m }) lf (fun _ => rfl) j mj hj
  · exact hmod t.nodes (fun x => { x with mass := x.mass + m }) lf (fun _ => rfl) j mj hj
  · refine (Quadtree.split_induct p m p n.centm
      (fun t _ r => ∀ (j : Nat) (mj : Node K), t.nodes[j]? = some mj →
        ∃ m1, r.nodes[j]? = some m1 ∧ m1.quad = mj.quad ∧ m1.next = mj.next)
      ?_ ?_ fuel t r lf hs).2 j mj hj
    · intro t t1 r node c nn hn hs _ _ hQ j mj hj
      have := Quadtree.subdivide_old t t1 node c nn hn hs j mj hj
      obtain ⟨m1, hm1, e1, e2⟩ := hQ j _ this
      refine ⟨m1, hm1, ?_, ?_⟩
      · rw [e1]; split <;> rfl
      · rw [e2]; split <;> rfl
    · intro t t1 node c nn hn hs _ j mj hj
      have := Quadtree.subdivide_old t t1 node c nn hn hs j mj hj
      obtain ⟨m1, hm1, e1, e2⟩ := hmod t1.nodes
        (fun m => { m with centm := nn.centm, mass := nn.mass })
        (c + nn.quad.find_quadrant n.centm) (fun _ => rfl) j _ this
      obtain ⟨m2, hm2, e3, e4⟩ := hmod _ (fun x => { x with centm := p, mass := m })
        (c + nn.quad.find_quadrant p) (fun _ => rfl) j m1 hm1
      refine ⟨m2, hm2, ?_, ?_⟩
      · rw [e3, e1]; split <;> rfl
      · rw [e4, e2]; split <;> rfl

theorem Built.root {q : Quad K} {t : Quadtree K} (h : Built q t) :
    ∃ root, t.nodes[0]? = some root ∧ root.quad = q := by
  induction h with
  | reset t0 => exact ⟨_, rfl, rfl⟩
  | insert fuel p m _ _ hi ih =>
    obtain ⟨root, hr, hq⟩ := ih
    obtain ⟨m1, hm1, e1, -⟩ := Quadtree.insert_keeps fuel _ _ p m hi 0 root hr
    exact ⟨m1, hm1, e1.trans hq⟩

/-- The subdivision loop of `insert`, when it returns a tree of at most `2^32` nodes, keeps
the geometric invariant, for an occupant and a new position that lie in the square of the
leaf it starts from. -/
theorem Quadtree.split_geo (body_pos : Vec2 K) (body_mass : K) (np : Vec2 K) (side : K)
    (S : Vec2 K → Prop) (hSb : S body_pos) (fuel : Nat) (t r : Quadtree K) (node : Nat)
    (h : Quadtree.split body_pos body_mass body_pos np fuel t node = some r)
    (hG : Geo t side S)
    (hocc : ∀ n, t.nodes[node]? = some n →
      (n.mass ≠ 0 → n.centm = np ∧ S np) ∧ n.quad.contains np ∧ n.quad.contains body_pos)
    (hsize : r.nodes.length ≤ UINT32_MOD) : Geo r side S := by
  refine (Quadtree.split_induct body_pos body_mass body_pos np
    (fun t node r => Geo t side S →
      (∀ n, t.nodes[node]? = some n →
        (n.mass ≠ 0 → n.centm = np ∧ S np) ∧ n.quad.contains np ∧ n.quad.contains body_pos) →
      r.nodes.length ≤ UINT32_MOD → Geo r side S)
    ?_ ?_ fuel t r node h).2 hG hocc hsize
  · intro t t1 r node c n hn hs hq hle hQ hG hocc hsize
    obtain ⟨-, -, hc, hlen, -⟩ := Quadtree.subdivide_some t t1 node c hs
    have hq1 := Quad.find_quadrant_lt n.quad np
    have hmod : (c + n.quad.find_quadrant np) % UINT32_MOD = c + n.quad.find_quadrant np :=
      Nat.mod_eq_of_lt (by omega)
    rw [hmod] at hQ
    obtain ⟨-, hnp, hbp⟩ := hocc n hn
    refine hQ (hG.subdivide_geo node c hs) ?_ hsize
    intro n1 hn1
    obtain ⟨nxt, hfresh⟩ := Quadtree.subdivide_new t t1 node c n hn hs _ hq1
    rw [hc, hfresh] at hn1
    simp only [Option.some.injEq] at hn1
    subst hn1
    refine ⟨fun h0 => absurd rfl h0, Quad.contains_into_quadrant n.quad np hnp, ?_⟩
    simp only [Node.ofQuad]
    rw [hq]
    exact Quad.contains_into_quadrant n.quad body_pos hbp
  · intro t t1 node c n hn hs hq hG hocc _
    obtain ⟨-, -, hc, hlen, -⟩ := Quadtree.subdivide_some t t1 node c hs
    obtain ⟨ho, hnp, hbp⟩ := hocc n hn
    have hq1lt := Quad.find_quadrant_lt n.quad np
    have hq2lt := Quad.find_quadrant_lt n.quad body_pos
    obtain ⟨nxt1, hf1⟩ := Quadtree.subdivide_new t t1 node c n hn hs _ hq1lt
    obtain ⟨nxt2, hf2⟩ := Quadtree.subdivide_new t t1 node c n hn hs _ hq2lt
    rw [← hc] at hf1 hf2
    have hne : c + n.quad.find_quadrant np ≠ c + n.quad.find_quadrant body_pos := by omega
    have hG1 := hG.subdivide_geo node c hs
    have hGa := hG1.write (c + n.quad.find_quadrant np)
      (fun m => { m with centm := n.centm, mass := n.mass }) (fun _ => rfl) (by
        intro x hx _ hm0
        rw [hf1] at hx
        simp only [Option.some.injEq] at hx
        subst hx
        obtain ⟨e1, e2⟩ := ho hm0
        simp only [Node.ofQuad]
        rw [e1]
        exact ⟨Quad.contains_into_quadrant n.quad np hnp, e2⟩)
    exact hGa.write (c + n.quad.find_quadrant body_pos)
      (fun m => { m with centm := body_pos, mass := body_mass }) (fun _ => rfl) (by
        intro x hx _ _
        simp only [List.getElem?_modify_ne _ _ hne, hf2, Option.some.injEq] at hx
        subst hx
        exact ⟨Quad.contains_into_quadrant n.quad body_pos hbp, hSb⟩)

/-- A call of `insert` for a point of the root square that returns a tree of at most `2^32`
nodes keeps the geometric invariant. -/
theorem Quadtree.insert_geo (fuel : Nat) (t r : Quadtree K) (p : Vec2 K) (m : K)
    (h : t.insert fuel p m = some r) (side : K) (hG : Geo t side (fun _ => True))
    (hT : Threaded (skel t)) (root : Node K) (hroot : t.nodes[0]? = some root)
    (hp : root.quad.contains p) (hsize : r.nodes.length ≤ UINT32_MOD) :
    Geo r side (fun _ => True) := by
  have hlen := Quadtree.insert_length_le fuel t r p m h
  obtain ⟨lf, n, hd, hn, hc, hcase⟩ := Quadtree.insert_cases fuel t r p m h
  obtain ⟨lf1, nf1, hd1, hn1, -, hcont⟩ := Quadtree.descend_returns t side _ hG hT p
    (by omega) t.nodes.length 0 root hroot hp (Nat.sub_le _ _)
  have e : lf1 = lf := by
    have a := Quadtree.descend_mono t p (le_max_left fuel t.nodes.length) hd
    have b := Quadtree.descend_mono t p (le_max_right fuel t.nodes.length) hd1
    rw [a] at b
    exact (Option.some.inj b).symm
  subst e
  rw [hn] at hn1
  simp only [Option.some.injEq] at hn1
  subst hn1
  rcases hcase with ⟨-, rfl⟩ | ⟨hm0, hpe, rfl⟩ | ⟨hm0, -, hs⟩
  · refine hG.write lf1 (fun x => { x with centm := p, mass := m }) (fun _ => rfl) ?_
    intro x hx _ _
    rw [hn] at hx
    simp only [Option.some.injEq] at hx
    subst hx
    exact ⟨hcont, trivial⟩
  · refine hG.write lf1 (fun x => { x with mass := x.mass + m }) (fun _ => rfl) ?_
    intro x hx _ _
    rw [hn] at hx
    simp only [Option.some.injEq] at hx
    subst hx
    exact ⟨(hG.leaf lf1 n hn hc hm0).1, trivial⟩
  · refine Quadtree.split_geo p m n.centm side _ trivial fuel t r lf1 hs hG ?_ hsize
    intro x hx
    rw [hn] at hx
    simp only [Option.some.injEq] at hx
    subst hx
    exact ⟨fun _ => ⟨rfl, trivial⟩, (hG.leaf lf1 n hn hc hm0).1, hcont⟩

/-- Every tree built from positions inside the root square, of at most `2^32` nodes, has
the geometric invariant. -/
theorem Built.geo {q : Quad K} {t : Quadtree K} (h : Built q t) (hq : 0 ≤ q.length)
    (hsize : t.nodes.length ≤ UINT32_MOD) : Geo t q.length (fun _ => True) := by
  induction h with
  | reset t0 => exact (Geo.reset t0 q hq).mono (fun _ _ => trivial)
  | insert fuel p m hB hp hi ih =>
    have hlen := Quadtree.insert_length_le fuel _ _ p m hi
    obtain ⟨root, hr, hrq⟩ := hB.root
    exact Quadtree.insert_geo fuel _ _ p m hi q.length (ih (by omega)) hB.reachable.threaded
      root hr (by rw [hrq]; exact hp) hsize

theorem Geo.holds {t : Quadtree K} {side : K} {S : Vec2 K → Prop} (h : Geo t side S) :
    Geo t side t.Holds :=
  ⟨h.kidsQuad, fun i n hn hc hm => ⟨(h.leaf i n hn hc hm).1, i, n, hn, hc, hm, rfl⟩, h.side_le⟩

theorem gap_pos (a b : Vec2 K) (h : a ≠ b) : 0 < gap a b := by
  unfold gap
  by_cases hx : a.x = b.x
  · have hy : a.y ≠ b.y := by
      intro hy
      apply h
      cases a
      cases b
      simp only [Vec2.mk.injEq]
      exact ⟨hx, hy⟩
    exact lt_max_of_lt_right (abs_pos.mpr (sub_ne_zero.mpr hy))
  · exact lt_max_of_lt_left (abs_pos.mpr (sub_ne_zero.mpr hx))

/-- Over an Archimedean field, finitely many positions distinct from `p` are all further
from `p` than `s / 2^k` for some `k`. -/
theorem exists_sep [Archimedean K] (L : List (Node K)) (s : K) (p : Vec2 K) :
    ∃ k : Nat, ∀ n ∈ L, n.centm ≠ p → s < 2 ^ k * gap n.centm p := by
  induction L with
  | nil => exact ⟨0, fun n hn => absurd hn (List.not_mem_nil n)⟩
  | cons a rest ih =>
    obtain ⟨k1, hk1⟩ := ih
    have mono : ∀ (k k2 : Nat) (g : K), 0 ≤ g → k ≤ k2 → (2 : K) ^ k * g ≤ 2 ^ k2 * g := by
      intro k k2 g hg hk
      exact mul_le_mul_of_nonneg_right (pow_le_pow_right₀ (by norm_num) hk) hg
    by_cases ha : a.centm = p
    · refine ⟨k1, ?_⟩
      intro n hn hne
      rcases List.mem_cons.mp hn with rfl | hn
      · exact absurd ha hne
      · exact hk1 n hn hne
    · have hg := gap_pos a.centm p ha
      obtain ⟨k0, hk0⟩ := pow_unbounded_of_one_lt (s / gap a.centm p) (one_lt_two : (1 : K) < 2)
      rw [div_lt_iff₀ hg] at hk0
      refine ⟨max k0 k1, ?_⟩
      intro n hn hne
      rcases List.mem_cons.mp hn with rfl | hn
      · exact lt_of_lt_of_le hk0 (mono _ _ _ (le_of_lt hg) (le_max_left _ _))
      · exact lt_of_lt_of_le (hk1 n hn hne)
          (mono _ _ _ (le_of_lt (gap_pos _ _ hne)) (le_max_right _ _))

/-- On zeroed storage `insert` terminates for in-bounds points: for a tree built by
`reset(q)` and inserts of positions inside `q` (of at most `2^32` nodes) and a position `p`
inside `q`, over an Archimedean field there is a `k` for which every position the tree holds,
other than `p`, is further from `p` than the side of `q` over `2^k`; and for every such `k`
for which `4k` more node indices fit in 32 bits, `insert(p, m)` returns, with any fuel from
`max(nodes.size(), k)` on and always the same tree, after adding at most `4k` nodes. -/
theorem Built.insert_returns_zeroed [Archimedean K] (q : Quad K) (t : Quadtree K) (hB : Built q t)
    (hsize : t.nodes.length ≤ UINT32_MOD) (p : Vec2 K) (m : K) (hp : q.contains p) :
    (∃ k : Nat, ∀ o, t.Holds o → o ≠ p → q.length < 2 ^ k * gap o p) ∧
    ∀ k : Nat, (∀ o, t.Holds o → o ≠ p → q.length < 2 ^ k * gap o p) →
      t.nodes.length + 4 * k ≤ UINT32_MOD →
      ∃ r, (∀ fuel, max t.nodes.length k ≤ fuel → t.insert fuel p m = some r) ∧
        r.nodes.length ≤ t.nodes.length + 4 * k := by
  constructor
  · obtain ⟨k, hk⟩ := exists_sep t.nodes q.length p
    refine ⟨k, ?_⟩
    rintro o ⟨i, n, hn, -, -, rfl⟩ hne
    exact hk n (List.mem_iff_getElem?.mpr ⟨i, hn⟩) hne
  · intro k hsep hk
    have hq := Quad.length_nonneg_of_contains q p hp
    obtain ⟨root, hr, hrq⟩ := hB.root
    obtain ⟨r, hr1, -, hl, -⟩ := Quadtree.insert_returns t q.length t.Holds
      (hB.geo hq hsize).holds hB.reachable.threaded p m root hr (by rw [hrq]; exact hp) k hsep
      hk (max t.nodes.length k) (le_max_left _ _) (le_max_right _ _)
    exact ⟨r, fun fuel hf => Quadtree.insert_mono hf hr1, hl⟩

/-- The tree of one body at `(1, 1)` in the square of side 32 about the origin is built
from positions inside that square. -/
theorem oneBody_built : Built (⟨⟨0, 0⟩, 32⟩ : Quad ℚ)
    ⟨[{ Node.ofQuad (⟨⟨0, 0⟩, 32⟩ : Quad ℚ) 0 with centm := ⟨1, 1⟩, mass := 1 }], []⟩ :=
  Built.insert 1 ⟨1, 1⟩ 1 (Built.reset ⟨[], []⟩) (by unfold Quad.contains; decide!)
    (by decide!)

theorem oneBody_sep (o : Vec2 ℚ)
    (ho : Quadtree.Holds
      ⟨[{ Node.ofQuad (⟨⟨0, 0⟩, 32⟩ : Quad ℚ) 0 with centm := ⟨1, 1⟩, mass := 1 }], []⟩ o)
    (_hne : o ≠ ⟨3, 3⟩) : (32 : ℚ) < 2 ^ 5 * gap o ⟨3, 3⟩ := by
  obtain ⟨i, n, hn, -, -, rfl⟩ := ho
  match i with
  | 0 =>
    simp only [List.getElem?_cons_zero, Option.some.injEq] at hn
    subst hn
    decide!
  | i + 1 => simp at hn

/-- A descent in `t` that ends at `lf` goes on in `r` from `lf`, when `r` has the `children`
and `quad` of `t` at every other index of `t`. -/
theorem Quadtree.descend_extend (t r : Quadtree K) (p : Vec2 K) (lf : Nat)
    (hagree : ∀ j, j ≠ lf → j < t.nodes.length →
      (r.nodes[j]?).map Node.frame = (t.nodes[j]?).map Node.frame)
    (d i : Nat) (h : t.descend p d i = some lf) (d1 lf1 : Nat)
    (h1 : r.descend p d1 lf = some lf1) : r.descend p (d + d1) i = some lf1 := by
  induction d generalizing i with
  | zero => simp [Quadtree.descend] at h
  | succ d ih =>
    obtain ⟨nl, hnl, hlc⟩ := Quadtree.descend_leaf t p (d + 1) i lf h
    simp only [Quadtree.descend] at h
    cases hn : t.nodes[i]? with
    | none => simp [hn] at h
    | some n =>
      simp only [hn] at h
      by_cases hc : n.has_children = true
      · rw [if_pos hc] at h
        have hne : i ≠ lf := by
          intro e
          rw [e, hnl] at hn
          simp only [Option.some.injEq] at hn
          rw [← hn] at hc
          simp [Node.has_children, hlc] at hc
        have hfr := hagree i hne (List.getElem?_eq_some.mp hn).1
        rw [hn] at hfr
        obtain ⟨nr, hnr, e1, -, e3⟩ := frame_of_map hfr
        have hcr : nr.has_children = true := by
          simp only [Node.has_children, e1] at hc ⊢
          exact hc
        have e : d + 1 + d1 = (d + d1) + 1 := by omega
        rw [e]
        simp only [Quadtree.descend, hnr]
        rw [if_pos hcr, e1, e3]
        exact ih _ h
      · rw [if_neg hc] at h
        simp only [Option.some.injEq] at h
        subst h
        exact Quadtree.descend_mono r p (by omega) h1

/-- The subdivision loop of `insert`, when it returns a tree of at most `2^32` nodes, leaves
the new position in a childless node that the descent reaches from the leaf it started at,
and keeps `children`, `next` and `quad` of every other node there was. -/
theorem Quadtree.split_stores (body_pos : Vec2 K) (body_mass : K) (np : Vec2 K) (fuel : Nat)
    (t r : Quadtree K) (node : Nat)
    (h : Quadtree.split body_pos body_mass body_pos np fuel t node = some r)
    (hsize : r.nodes.length ≤ UINT32_MOD) :
    (∃ (d lf : Nat) (nf : Node K), r.descend body_pos d node = some lf ∧
      r.nodes[lf]? = some nf ∧ nf.centm = body_pos) ∧
    ∀ j, j ≠ node → j < t.nodes.length →
      (r.nodes[j]?).map Node.frame = (t.nodes[j]?).map Node.frame := by
  refine (Quadtree.split_induct body_pos body_mass body_pos np
    (fun t node r => r.nodes.length ≤ UINT32_MOD →
      (∃ (d lf : Nat) (nf : Node K), r.descend body_pos d node = some lf ∧
        r.nodes[lf]? = some nf ∧ nf.centm = body_pos) ∧
      ∀ j, j ≠ node → j < t.nodes.length →
        (r.nodes[j]?).map Node.frame = (t.nodes[j]?).map Node.frame)
    ?_ ?_ fuel t r node h).2 hsize
  · intro t t1 r node c n hn hs hq hle hQ hsize
    obtain ⟨-, -, hc, hlen, -⟩ := Quadtree.subdivide_some t t1 node c hs
    have hnl : node < t.nodes.length := (List.getElem?_eq_some.mp hn).1
    have hq1 := Quad.find_quadrant_lt n.quad np
    have hmod : (c + n.quad.find_quadrant np) % UINT32_MOD = c + n.quad.find_quadrant np :=
      Nat.mod_eq_of_lt (by omega)
    rw [hmod] at hQ
    obtain ⟨⟨d, lf, nf, hd, hnf, hce⟩, hag⟩ := hQ hsize
    have old : ∀ j, j ≠ node → j < t.nodes.length →
        (t1.nodes[j]?).map Node.frame = (t.nodes[j]?).map Node.frame := by
      intro j hj hjl
      have hjs : t.nodes[j]? = some (t.nodes.get ⟨j, hjl⟩) := List.getElem?_eq_getElem hjl
      rw [Quadtree.subdivide_old t t1 node c n hn hs j _ hjs, hjs, if_neg (Ne.symm hj)]
    have hnode1 : t1.nodes[node]? = some { n with children := t.nodes.length } := by
      have := Quadtree.subdivide_old t t1 node c n hn hs node n hn
      rw [if_pos rfl] at this
      exact this
    have hfr := hag node (by omega) (by omega)
    rw [hnode1] at hfr
    obtain ⟨nr, hnr, e1, -, e3⟩ := frame_of_map hfr
    simp only at e1 e3
    refine ⟨⟨d + 1, lf, nf, ?_, hnf, hce⟩, ?_⟩
    · have hcr : nr.has_children = true := by
        simp only [Node.has_children, e1]
        rw [if_neg (by omega)]
      simp only [Quadtree.descend, hnr]
      rw [if_pos hcr, e1, e3, ← hq, ← hc, hmod]
      exact hd
    · intro j hj hjl
      rw [hag j (by omega) (by omega)]
      exact old j hj hjl
  · intro t t1 node c n hn hs hq hsz
    obtain ⟨-, -, hc, hlen, -⟩ := Quadtree.subdivide_some t t1 node c hs
    have hsz1 : t1.nodes.length ≤ UINT32_MOD := by simpa using hsz
    have hnl : node < t.nodes.length := (List.getElem?_eq_some.mp hn).1
    have hq1lt := Quad.find_quadrant_lt n.quad np
    have hq2lt := Quad.find_quadrant_lt n.quad body_pos
    obtain ⟨nxt2, hf2⟩ := Quadtree.subdivide_new t t1 node c n hn hs _ hq2lt
    rw [← hc] at hf2
    have hne : c + n.quad.find_quadrant np ≠ c + n.quad.find_quadrant body_pos := by omega
    have hnode1 : t1.nodes[node]? = some { n with children := t.nodes.length } := by
      have := Quadtree.subdivide_old t t1 node c n hn hs node n hn
      rw [if_pos rfl] at this
      exact this
    have fr : ∀ j : Nat, (((t1.nodes.modify (fun m => { m with centm := n.centm, mass := n.mass })
        (c + n.quad.find_quadrant np)).modify
        (fun m => { m with centm := body_pos, mass := body_mass })
        (c + n.quad.find_quadrant body_pos))[j]?).map Node.frame =
        (t1.nodes[j]?).map Node.frame := by
      intro j
      exact (frame_modify _ (fun m => { m with centm := body_pos, mass := body_mass }) _
        (fun _ => rfl) j).trans
        (frame_modify t1.nodes (fun m => { m with centm := n.centm, mass := n.mass }) _
          (fun _ => rfl) j)
    have hleaf : ((t1.nodes.modify (fun m => { m with centm := n.centm, mass := n.mass })
        (c + n.quad.find_quadrant np)).modify
        (fun m => { m with centm := body_pos, mass := body_mass })
        (c + n.quad.find_quadrant body_pos))[c + n.quad.find_quadrant body_pos]? =
        some { Node.ofQuad (n.quad.into_quadrant (n.quad.find_quadrant body_pos)) nxt2 with
          centm := body_pos, mass := body_mass } := by
      rw [List.getElem?_modify_eq, List.getElem?_modify_ne _ _ hne, hf2]
      rfl
    have hfr := fr node
    rw [hnode1] at hfr
    obtain ⟨nr, hnr, e1, -, e3⟩ := frame_of_map hfr
    simp only at e1 e3
    refine ⟨⟨2, c + n.quad.find_quadrant body_pos, _, ?_, hleaf, rfl⟩, ?_⟩
    · have hcr : nr.has_children = true := by
        simp only [Node.has_children, e1]
        rw [if_neg (by omega)]
      have hmod : (c + n.quad.find_quadrant body_pos) % UINT32_MOD =
          c + n.quad.find_quadrant body_pos := by
        apply Nat.mod_eq_of_lt
        omega
      simp only [Quadtree.descend, hnr]
      rw [if_pos hcr, e1, e3, ← hc, hmod]
      simp only [hleaf, Node.has_children, Node.ofQuad]
      rfl
    · intro j hj hjl
      have hjs : t.nodes[j]? = some (t.nodes.get ⟨j, hjl⟩) := List.getElem?_eq_getElem hjl
      rw [fr j, Quadtree.subdivide_old t t1 node c n hn hs j _ hjs, hjs, if_neg (Ne.symm hj)]

/-- A call of `insert` that returns a tree of at most `2^32` nodes leaves the new position
in a childless node that the descent for it reaches from the root. -/
theorem Quadtree.insert_stores (fuel : Nat) (t r : Quadtree K) (p : Vec2 K) (m : K)
    (h : t.insert fuel p m = some r) (hsize : r.nodes.length ≤ UINT32_MOD) :
    ∃ (d lf : Nat) (nf : Node K), r.descend p d 0 = some lf ∧ r.nodes[lf]? = some nf ∧
      nf.centm = p := by
  obtain ⟨lf, n, hd, hn, hc, hcase⟩ := Quadtree.insert_cases fuel t r p m h
  have leafcase : ∀ f : Node K → Node K, (∀ x, (f x).frame = x.frame) → (f n).centm = p →
      ∃ (d lf1 : Nat) (nf : Node K),
        (⟨t.nodes.modify f lf, t.parents⟩ : Quadtree K).descend p d 0 = some lf1 ∧
        (t.nodes.modify f lf)[lf1]? = some nf ∧ nf.centm = p := by
    intro f hf hcen
    have hfc : (f n).children = 0 := by
      have := congrArg (fun e : Nat × Nat × Quad K => e.1) (hf n)
      simp only [Node.frame] at this
      rw [this, hc]
    have hl : (t.nodes.modify f lf)[lf]? = some (f n) := by
      rw [List.getElem?_modify_eq, hn]
      rfl
    have h1 : (⟨t.nodes.modify f lf, t.parents⟩ : Quadtree K).descend p 1 lf = some lf := by
      simp only [Quadtree.descend, hl, Node.has_children, hfc]
      rfl
    exact ⟨fuel + 1, lf, f n, Quadtree.descend_extend t _ p lf
      (fun j _ _ => frame_modify t.nodes f lf hf j) fuel 0 hd 1 lf h1, hl, hcen⟩
  rcases hcase with ⟨-, rfl⟩ | ⟨-, hpe, rfl⟩ | ⟨-, -, hs⟩
  · exact leafcase (fun x => { x with centm := p, mass := m }) (fun _ => rfl) rfl
  · exact leafcase (fun x => { x with mass := x.mass + m }) (fun _ => rfl) hpe.symm
  · obtain ⟨⟨d, lf1, nf, hd1, hnf, hce⟩, hag⟩ :=
      Quadtree.split_stores p m n.centm fuel t r lf hs hsize
    exact ⟨fuel + d, lf1, nf, Quadtree.descend_extend t r p lf hag fuel 0 hd d lf1 hd1, hnf, hce⟩

/-- C24, the inserted body is stored in a leaf that contains it: for a tree built by
`reset(q)` and inserts of positions inside `q`, a position `p` inside `q` and a mass `m`,
when `insert(p, m)` returns a tree `r` of at most `2^32` nodes (as it does when the positions
the tree holds, other than `p`, are further from `p` than the side of `q` over `2^k` and
`4k` more node indices fit in 32 bits), the descent for `p` in `r` ends, with any fuel from
the number of nodes on, at a childless node whose `centm` is `p` and whose square contains
`p`, and every node there was before the call is at its index in `r` with its `quad` and
`next`. -/
theorem insert_stores_body (q : Quad K) (t : Quadtree K) (hB : Built q t) (p : Vec2 K) (m : K)
    (hp : q.contains p) (k : Nat)
    (h : ((∀ o, t.Holds o → o ≠ p → q.length < 2 ^ k * gap o p) ∧
        t.nodes.length + 4 * k ≤ UINT32_MOD) ∨
      ∃ (fuel : Nat) (r : Quadtree K), t.insert fuel p m = some r ∧
        r.nodes.length ≤ UINT32_MOD) :
    ∃ (fuel0 : Nat) (r : Quadtree K),
      (∀ fuel, fuel0 ≤ fuel → t.insert fuel p m = some r) ∧
      ∃ (lf : Nat) (nf : Node K),
        (∀ fuel, r.nodes.length ≤ fuel → r.descend p fuel 0 = some lf) ∧
        r.nodes[lf]? = some nf ∧ nf.children = 0 ∧ nf.centm = p ∧ nf.quad.contains p ∧
        ∀ (j : Nat) (mj : Node K), t.nodes[j]? = some mj →
          ∃ m1, r.nodes[j]? = some m1 ∧ m1.quad = mj.quad ∧ m1.next = mj.next := by
  have hq := Quad.length_nonneg_of_contains q p hp
  have hret : ∃ (fuel0 : Nat) (r : Quadtree K), t.insert fuel0 p m = some r ∧
      r.nodes.length ≤ UINT32_MOD := by
    rcases h with ⟨hsep, hk⟩ | h
    · obtain ⟨root, hr, hrq⟩ := hB.root
      obtain ⟨r, hr1, -, hl, -⟩ := Quadtree.insert_returns t q.length t.Holds
        (hB.geo hq (by omega)).holds hB.reachable.threaded p m root hr (by rw [hrq]; exact hp)
        k hsep hk (max t.nodes.length k) (le_max_left _ _) (le_max_right _ _)
      exact ⟨_, r, hr1, by omega⟩
    · exact h
  obtain ⟨fuel0, r, hins, hsz⟩ := hret
  refine ⟨fuel0, r, fun fuel hf => Quadtree.insert_mono hf hins, ?_⟩
  have hBr : Built q r := Built.insert fuel0 p m hB hp hins
  obtain ⟨root, hr, hrq⟩ := hBr.root
  obtain ⟨lf, nf, hd, hnf, hc0, hcont⟩ := Quadtree.descend_returns r q.length _
    (hBr.geo hq hsz) hBr.reachable.threaded p hsz r.nodes.length 0 root hr
    (by rw [hrq]; exact hp) (Nat.sub_le _ _)
  obtain ⟨d, lf1, nf1, hd1, hnf1, hcen⟩ := Quadtree.insert_stores fuel0 t r p m hins hsz
  have e : lf1 = lf := by
    have a := Quadtree.descend_mono r p (le_max_left d r.nodes.length) hd1
    have b := Quadtree.descend_mono r p (le_max_right d r.nodes.length) hd
    rw [a] at b
    exact Option.some.inj b
  subst e
  rw [hnf] at hnf1
  simp only [Option.some.injEq] at hnf1
  subst hnf1
  exact ⟨lf1, nf, fun fuel hf => Quadtree.descend_mono r p hf hd, hnf, hc0, hcen, hcont,
    Quadtree.insert_keeps fuel0 t r p m hins⟩

/-- Witness for C24: the square of side 32 about the origin holding `(1, 1)`, and the
insertion of `(3, 3)`. -/
theorem insert_stores_body_witness :
    ∃ (fuel0 : Nat) (r : Quadtree ℚ),
      (∀ fuel, fuel0 ≤ fuel → Quadtree.insert fuel
        ⟨[{ Node.ofQuad (⟨⟨0, 0⟩, 32⟩ : Quad ℚ) 0 with centm := ⟨1, 1⟩, mass := 1 }], []⟩
        ⟨3, 3⟩ 1 = some r) ∧
      ∃ (lf : Nat) (nf : Node ℚ), r.nodes[lf]? = some nf ∧ nf.children = 0 ∧
        nf.centm = ⟨3, 3⟩ :=
  (insert_stores_body _ _ oneBody_built ⟨3, 3⟩ 1 (by unfold Quad.contains; decide!) 5
    (Or.inl ⟨oneBody_sep, by decide!⟩)).imp (fun _ h => h.imp (fun _ h =>
      ⟨h.1, h.2.imp (fun _ h => h.imp (fun _ h => ⟨h.2.1, h.2.2.1, h.2.2.2.1⟩))⟩))

end BuiltSec

/-! ## The divisors of `propogate` -/

section FedSec

variable {K : Type} [LinearOrderedField K]

theorem Fed.weaken {t : Quadtree K} (h : Fed t none) (x : Option Nat) : Fed t x := by
  refine ⟨h.1, ?_⟩
  intro i n hn hc
  obtain ⟨k, hk, ck, hck, hg⟩ := h.2 i n hn hc
  refine ⟨k, hk, ck, hck, ?_⟩
  rcases hg with hg | hg | hg
  · exact Or.inl hg
  · exact Or.inr (Or.inl hg)
  · exact absurd hg (by simp)

theorem Fed.resolve {t : Quadtree K} {x : Nat} (h : Fed t (some x)) (n : Node K)
    (hn : t.nodes[x]? = some n) (hm : 0 < n.mass) : Fed t none := by
  refine ⟨h.1, ?_⟩
  intro i ni hni hc
  obtain ⟨k, hk, ck, hck, hg⟩ := h.2 i ni hni hc
  refine ⟨k, hk, ck, hck, ?_⟩
  rcases hg with hg | hg | hg
  · exact Or.inl hg
  · exact Or.inr (Or.inl hg)
  · simp only [Option.some.injEq] at hg
    rw [← hg, hn] at hck
    simp only [Option.some.injEq] at hck
    rw [← hck]
    exact Or.inr (Or.inl hm)

/-- Writing `centm` and `mass` of a node keeps `Fed` when the mass does not decrease. -/
theorem Fed.write_fed {t : Quadtree K} {x : Option Nat} (h : Fed t x) (y : Nat)
    (f : Node K → Node K) (hf : ∀ n, (f n).frame = n.frame)
    (hmass : ∀ n, t.nodes[y]? = some n → n.mass ≤ (f n).mass) :
    Fed ⟨t.nodes.modify f y, t.parents⟩ x := by
  have fchildren : ∀ n, (f n).children = n.children := fun n =>
    congrArg (fun e : Nat × Nat × Quad K => e.1) (hf n)
  have rd : ∀ (i : Nat) (n : Node K), (t.nodes.modify f y)[i]? = some n →
      ∃ m, t.nodes[i]? = some m ∧ n.children = m.children ∧ m.mass ≤ n.mass := by
    intro i n hn
    rw [List.getElem?_modify] at hn
    obtain ⟨m, hm, hnm⟩ := Option.map_eq_some'.mp hn
    refine ⟨m, hm, ?_, ?_⟩
    · rw [← hnm]; split
      · exact fchildren m
      · rfl
    · rw [← hnm]; split
      · next e => exact hmass m (by rw [e]; exact hm)
      · exact le_refl _
  have wr : ∀ (i : Nat) (m : Node K), t.nodes[i]? = some m →
      ∃ n, (t.nodes.modify f y)[i]? = some n ∧ n.children = m.children ∧ m.mass ≤ n.mass := by
    intro i m hm
    rw [List.getElem?_modify, hm]
    by_cases hyi : y = i
    · exact ⟨f m, by simp [hyi], fchildren m, hmass m (by rw [hyi]; exact hm)⟩
    · exact ⟨m, by simp [hyi], rfl, le_refl _⟩
  refine ⟨?_, ?_⟩
  · intro i n hn
    obtain ⟨m, hm, -, hle⟩ := rd i n hn
    exact le_trans (h.1 i m hm) hle
  · intro i n hn hc
    obtain ⟨m, hm, e1, -⟩ := rd i n hn
    obtain ⟨k, hk, ck, hck, hg⟩ := h.2 i m hm (by rw [← e1]; exact hc)
    obtain ⟨ck1, hck1, e2, hle⟩ := wr _ ck hck
    refine ⟨k, hk, ck1, by rw [e1]; exact hck1, ?_⟩
    rcases hg with hg | hg | hg
    · exact Or.inl (by rw [e2]; exact hg)
    · exact Or.inr (Or.inl (lt_of_lt_of_le hg hle))
    · exact Or.inr (Or.inr (by rw [e1]; exact hg))

/-- After `subdivide` of the pending node, any of its four fresh children may be pending. -/
theorem Fed.subdivide_fed {t t1 : Quadtree K} {node : Nat} (h : Fed t (some node)) (c : Nat)
    (hs : t.subdivide node = some (c, t1)) (k : Nat) (hk : k < 4) :
    Fed t1 (some (c + k)) := by
  obtain ⟨ni, hi, hc, hlen, -⟩ := Quadtree.subdivide_some t t1 node c hs
  have hpos : t.nodes.length ≠ 0 := by
    have := (List.getElem?_eq_some.mp hi).1
    omega
  refine ⟨?_, ?_⟩
  · intro j n hn
    rcases Quadtree.subdivide_inv t t1 node c ni hi hs j n hn with
      ⟨-, m, hm, hnm⟩ | ⟨k1, nxt, -, -, hnew⟩
    · have := h.1 j m hm
      rw [hnm]
      split <;> exact this
    · rw [hnew]
      exact le_refl _
  · intro j n hn hch
    rcases Quadtree.subdivide_inv t t1 node c ni hi hs j n hn with
      ⟨-, m, hm, hnm⟩ | ⟨k1, nxt, -, -, hnew⟩
    · by_cases hij : node = j
      · subst hij
        rw [if_pos rfl] at hnm
        obtain ⟨nxt, hfresh⟩ := Quadtree.subdivide_new t t1 node c ni hi hs k hk
        refine ⟨k, hk, Node.ofQuad (ni.quad.into_quadrant k) nxt, ?_, Or.inr (Or.inr ?_)⟩
        · rw [hnm]
          exact hfresh
        · rw [hnm, hc]
      · rw [if_neg hij] at hnm
        subst hnm
        obtain ⟨k2, hk2, ck, hck, hg⟩ := h.2 j n hm hch
        have hold := Quadtree.subdivide_old t t1 node c ni hi hs _ ck hck
        refine ⟨k2, hk2, _, hold, ?_⟩
        by_cases he : node = n.children + k2
        · rw [if_pos he]
          exact Or.inl hpos
        · rw [if_neg he]
          rcases hg with hg | hg | hg
          · exact Or.inl hg
          · exact Or.inr (Or.inl hg)
          · exact absurd (Option.some.inj hg) he
    · rw [hnew] at hch
      exact absurd rfl hch

/-- The subdivision loop of `insert` for a positive mass, when it returns a tree of at most
`2^32` nodes, leaves every node with children a child that has children or positive mass. -/
theorem Quadtree.split_fed (body_pos : Vec2 K) (body_mass : K) (np : Vec2 K) (fuel : Nat)
    (t r : Quadtree K) (node : Nat)
    (h : Quadtree.split body_pos body_mass body_pos np fuel t node = some r)
    (hF : Fed t (some node)) (hm : 0 < body_mass) (hsize : r.nodes.length ≤ UINT32_MOD) :
    Fed r none := by
  refine (Quadtree.split_induct body_pos body_mass body_pos np
    (fun t node r => Fed t (some node) → r.nodes.length ≤ UINT32_MOD → Fed r none)
    ?_ ?_ fuel t r node h).2 hF hsize
  · intro t t1 r node c n hn hs hq hle hQ hF hsize
    obtain ⟨-, -, hc, hlen, -⟩ := Quadtree.subdivide_some t t1 node c hs
    have hq1 := Quad.find_quadrant_lt n.quad np
    have hmod : (c + n.quad.find_quadrant np) % UINT32_MOD = c + n.quad.find_quadrant np :=
      Nat.mod_eq_of_lt (by omega)
    rw [hmod] at hQ
    exact hQ (hF.subdivide_fed c hs _ hq1) hsize
  · intro t t1 node c n hn hs hq hF _
    obtain ⟨-, -, hc, hlen, -⟩ := Quadtree.subdivide_some t t1 node c hs
    have hq1lt := Quad.find_quadrant_lt n.quad np
    have hq2lt := Quad.find_quadrant_lt n.quad body_pos
    obtain ⟨nxt1, hf1⟩ := Quadtree.subdivide_new t t1 node c n hn hs _ hq1lt
    obtain ⟨nxt2, hf2⟩ := Quadtree.subdivide_new t t1 node c n hn hs _ hq2lt
    rw [← hc] at hf1 hf2
    have hne : c + n.quad.find_quadrant np ≠ c + n.quad.find_quadrant body_pos := by omega
    have hF1 := hF.subdivide_fed c hs _ hq2lt
    have hFa := hF1.write_fed (c + n.quad.find_quadrant np)
      (fun m => { m with centm := n.centm, mass := n.mass }) (fun _ => rfl) (by
        intro x hx
        rw [hf1] at hx
        simp only [Option.some.injEq] at hx
        subst hx
        exact hF.1 node n hn)
    have hFb := hFa.write_fed (c + n.quad.find_quadrant body_pos)
      (fun m => { m with centm := body_pos, mass := body_mass }) (fun _ => rfl) (by
        intro x hx
        simp only [List.getElem?_modify_ne _ _ hne, hf2, Option.some.injEq] at hx
        subst hx
        exact le_of_lt hm)
    refine hFb.resolve { Node.ofQuad (n.quad.into_quadrant (n.quad.find_quadrant body_pos))
      nxt2 with centm := body_pos, mass := body_mass } ?_ hm
    show ((t1.nodes.modify (fun m => { m with centm := n.centm, mass := n.mass })
      (c + n.quad.find_quadrant np)).modify
      (fun m => { m with centm := body_pos, mass := body_mass })
      (c + n.quad.find_quadrant body_pos))[c + n.quad.find_quadrant body_pos]? = _
    rw [List.getElem?_modify_eq, List.getElem?_modify_ne _ _ hne, hf2]
    rfl

theorem Quadtree.insert_fed (fuel : Nat) (t r : Quadtree K) (p : Vec2 K) (m : K)
    (h : t.insert fuel p m = some r) (hF : Fed t none) (hm : 0 < m)
    (hsize : r.nodes.length ≤ UINT32_MOD) : Fed r none := by
  obtain ⟨lf, n, -, hn, -, hcase⟩ := Quadtree.insert_cases fuel t r p m h
  rcases hcase with ⟨hm0, rfl⟩ | ⟨-, -, rfl⟩ | ⟨-, -, hs⟩
  · refine hF.write_fed lf (fun x => { x with centm := p, mass := m }) (fun _ => rfl) ?_
    intro x hx
    rw [hn] at hx
    simp only [Option.some.injEq] at hx
    subst hx
    rw [hm0]
    exact le_of_lt hm
  · refine hF.write_fed lf (fun x => { x with mass := x.mass + m }) (fun _ => rfl) ?_
    intro x _
    simp only
    linarith
  · exact Quadtree.split_fed p m n.centm fuel t r lf hs (hF.weaken _) hm hsize

theorem Quadtree.insertAll_length_le (fuel : Nat) (bodies : List (Vec2 K × K))
    (t r : Quadtree K) (h : Quadtree.insertAll fuel t bodies = some r) :
    t.nodes.length ≤ r.nodes.length := by
  induction bodies generalizing t with
  | nil =>
    simp only [Quadtree.insertAll, Option.some.injEq] at h
    rw [h]
  | cons b rest ih =>
    obtain ⟨p, m⟩ := b
    simp only [Quadtree.insertAll] at h
    cases hi : t.insert fuel p m with
    | none => simp [hi] at h
    | some t1 =>
      simp only [hi] at h
      have := Quadtree.insert_length_le fuel t t1 p m hi
      have := ih t1 h
      omega

theorem Quadtree.insertAll_fed (fuel : Nat) (bodies : List (Vec2 K × K))
    (hm : ∀ b ∈ bodies, 0 < b.2) (t r : Quadtree K)
    (h : Quadtree.insertAll fuel t bodies = some r) (hF : Fed t none)
    (hsize : r.nodes.length ≤ UINT32_MOD) : Fed r none := by
  induction bodies generalizing t with
  | nil =>
    simp only [Quadtree.insertAll, Option.some.injEq] at h
    rw [← h]
    exact hF
  | cons b rest ih =>
    obtain ⟨p, m⟩ := b
    simp only [Quadtree.insertAll] at h
    cases hi : t.insert fuel p m with
    | none => simp [hi] at h
    | some t1 =>
      simp only [hi] at h
      have hl := Quadtree.insertAll_length_le fuel rest t1 r h
      exact ih (fun b hb => hm b (List.mem_cons_of_mem _ hb)) t1 h
        (Quadtree.insert_fed fuel t t1 p m hi hF (hm (p, m) (List.mem_cons_self _ _))
          (by omega))

theorem Fed.reset_fed (t0 : Quadtree K) (q : Quad K) : Fed (t0.reset q) none := by
  have hnode : ∀ (i : Nat) (n : Node K), (t0.reset q).nodes[i]? = some n →
      n = Node.ofQuad q 0 := by
    intro i n hn
    match i with
    | 0 =>
      simp only [Quadtree.reset, List.getElem?_cons_zero, Option.some.injEq] at hn
      exact hn.symm
    | i + 1 => simp [Quadtree.reset] at hn
  refine ⟨?_, ?_⟩
  · intro i n hn
    rw [hnode i n hn]
    exact le_refl _
  · intro i n hn hc
    rw [hnode i n hn] at hc
    exact absurd rfl hc

theorem Quadtree.propogateDivisor_eq (nodes : List (Node K)) (a : Nat) (n c0 c1 c2 c3 : Node K)
    (hn : nodes[a]? = some n) (hlt : a < n.children)
    (h0 : nodes[n.children]? = some c0) (h1 : nodes[n.children + 1]? = some c1)
    (h2 : nodes[n.children + 2]? = some c2) (h3 : nodes[n.children + 3]? = some c3) :
    Quadtree.propogateDivisor nodes a = some (c0.mass + c1.mass + c2.mass + c3.mass) := by
  have e0 : a ≠ n.children := by omega
  have e1 : a ≠ n.children + 1 := by omega
  have e2 : a ≠ n.children + 2 := by omega
  have e3 : a ≠ n.children + 3 := by omega
  simp only [Quadtree.propogateDivisor, Option.bind_eq_bind, hn, Option.some_bind, h0, h1, h2,
    h3, List.getElem?_modify_ne _ _ e0, List.getElem?_modify_ne _ _ e1,
    List.getElem?_modify_ne _ _ e2, List.getElem?_modify_ne _ _ e3]

/-- The loop of `propogate` over a list of indices sorted by decreasing `children`, in which
every index has a child that is an index of the list or has positive mass, on nodes of
non-negative mass: every divisor is positive. -/
theorem Quadtree.propogateDivisors_pos (L : List Nat) (nodes : List (Node K))
    (hv : ∀ a ∈ L, a < kidN nodes a ∧ kidN nodes a + 3 < nodes.length)
    (hsorted : L.Pairwise (fun x y => kidN nodes y < kidN nodes x))
    (hnn : ∀ (i : Nat) (n : Node K), nodes[i]? = some n → 0 ≤ n.mass)
    (hgood : ∀ a ∈ L, ∃ k, k < 4 ∧
      (kidN nodes a + k ∈ L ∨ ∃ ck, nodes[kidN nodes a + k]? = some ck ∧ 0 < ck.mass)) :
    ∃ ds, Quadtree.propogateDivisors nodes L = some ds ∧ ds.length = L.length ∧
      ∀ d ∈ ds, 0 < d := by
  induction L generalizing nodes with
  | nil => exact ⟨[], rfl, rfl, fun d hd => absurd hd (List.not_mem_nil d)⟩
  | cons a rest ih =>
    obtain ⟨halt, hak⟩ := hv a (List.mem_cons_self a rest)
    obtain ⟨n, hn, hnc⟩ := kidN_pos_lt nodes a (by omega)
    have hc0 : n.children < nodes.length := by omega
    have hc1 : n.children + 1 < nodes.length := by omega
    have hc2 : n.children + 2 < nodes.length := by omega
    have hc3 : n.children + 3 < nodes.length := by omega
    have h0 := List.getElem?_eq_getElem hc0
    have h1 := List.getElem?_eq_getElem hc1
    have h2 := List.getElem?_eq_getElem hc2
    have h3 := List.getElem?_eq_getElem hc3
    have hstep := Quadtree.propogateStep_eq nodes a n _ _ _ _ hn (by omega) h0 h1 h2 h3
    have hdiv := Quadtree.propogateDivisor_eq nodes a n _ _ _ _ hn (by omega) h0 h1 h2 h3
    set c0 := nodes[n.children] with hc0def
    set c1 := nodes[n.children + 1] with hc1def
    set c2 := nodes[n.children + 2] with hc2def
    set c3 := nodes[n.children + 3] with hc3def
    have n0 := hnn _ c0 h0
    have n1 := hnn _ c1 h1
    have n2 := hnn _ c2 h2
    have n3 := hnn _ c3 h3
    have hsum : 0 < c0.mass + c1.mass + c2.mass + c3.mass := by
      obtain ⟨k, hk, hg⟩ := hgood a (List.mem_cons_self a rest)
      rcases hg with hmem | ⟨ck, hck, hpos⟩
      · exfalso
        rcases List.mem_cons.mp hmem with e | hr
        · omega
        · have hlt := (List.pairwise_cons.mp hsorted).1 _ hr
          have := (hv _ hmem).1
          omega
      · rw [← hnc] at hck
        interval_cases k
        · rw [Nat.add_zero, h0] at hck
          simp only [Option.some.injEq] at hck
          rw [← hck] at hpos
          linarith
        · rw [h1] at hck
          simp only [Option.some.injEq] at hck
          rw [← hck] at hpos
          linarith
        · rw [h2] at hck
          simp only [Option.some.injEq] at hck
          rw [← hck] at hpos
          linarith
        · rw [h3] at hck
          simp only [Option.some.injEq] at hck
          rw [← hck] at hpos
          linarith
    set nodes1 := nodes.modify (fun m => { m with
        centm := (weightedSum c0 c1 c2 c3).sdiv (c0.mass + c1.mass + c2.mass + c3.mass)
        mass := c0.mass + c1.mass + c2.mass + c3.mass }) a with hnodes1
    have hkid : ∀ i, kidN nodes1 i = kidN nodes i := by
      intro i
      rw [hnodes1]
      refine kidN_modify nodes _ a ?_ i
      intro m
      rfl
    have hlen : nodes1.length = nodes.length := by simp [hnodes1]
    have rd : ∀ (i : Nat) (m : Node K), nodes[i]? = some m →
        ∃ m1, nodes1[i]? = some m1 ∧
          ((a = i ∧ m1.mass = c0.mass + c1.mass + c2.mass + c3.mass) ∨ (a ≠ i ∧ m1 = m)) := by
      intro i m hm
      rw [hnodes1, List.getElem?_modify, hm]
      by_cases hai : a = i
      · simp only [hai, if_true, Option.map_eq_map, Option.map_some']
        exact ⟨_, rfl, Or.inl ⟨trivial, rfl⟩⟩
      · simp only [hai, if_false, Option.map_eq_map, Option.map_some']
        exact ⟨m, rfl, Or.inr ⟨hai, rfl⟩⟩
    have hv1 : ∀ b ∈ rest, b < kidN nodes1 b ∧ kidN nodes1 b + 3 < nodes1.length := by
      intro b hb
      rw [hkid, hlen]
      exact hv b (List.mem_cons_of_mem a hb)
    have hs1 : rest.Pairwise (fun x y => kidN nodes1 y < kidN nodes1 x) := by
      have := (List.pairwise_cons.mp hsorted).2
      exact this.imp (fun {x y} h => by rw [hkid, hkid]; exact h)
    have hnn1 : ∀ (i : Nat) (m : Node K), nodes1[i]? = some m → 0 ≤ m.mass := by
      intro i m hm
      have hil : i < nodes.length := by
        rw [← hlen]
        exact (List.getElem?_eq_some.mp hm).1
      obtain ⟨m1, hm1, hcase⟩ := rd i _ (List.getElem?_eq_getElem hil)
      rw [hm] at hm1
      simp only [Option.some.injEq] at hm1
      subst hm1
      rcases hcase with ⟨-, e⟩ | ⟨-, e⟩
      · rw [e]
        exact le_of_lt hsum
      · rw [e]
        exact hnn i _ (List.getElem?_eq_getElem hil)
    have hg1 : ∀ b ∈ rest, ∃ k, k < 4 ∧
        (kidN nodes1 b + k ∈ rest ∨ ∃ ck, nodes1[kidN nodes1 b + k]? = some ck ∧ 0 < ck.mass) := by
      intro b hb
      obtain ⟨k, hk, hg⟩ := hgood b (List.mem_cons_of_mem a hb)
      refine ⟨k, hk, ?_⟩
      rw [hkid]
      rcases hg with hmem | ⟨ck, hck, hpos⟩
      · rcases List.mem_cons.mp hmem with e | hr
        · right
          obtain ⟨m1, hm1, hcase⟩ := rd a n hn
          rcases hcase with ⟨-, e1⟩ | ⟨e1, -⟩
          · exact ⟨m1, by rw [e]; exact hm1, by rw [e1]; exact hsum⟩
          · exact absurd rfl e1
        · exact Or.inl hr
      · right
        obtain ⟨m1, hm1, hcase⟩ := rd _ ck hck
        rcases hcase with ⟨-, e1⟩ | ⟨-, e1⟩
        · exact ⟨m1, hm1, by rw [e1]; exact hsum⟩
        · exact ⟨m1, hm1, by rw [e1]; exact hpos⟩
    obtain ⟨ds, hds, hdl, hdp⟩ := ih nodes1 hv1 hs1 hnn1 hg1
    refine ⟨(c0.mass + c1.mass + c2.mass + c3.mass) :: ds, ?_, by simp [hdl], ?_⟩
    · simp only [Quadtree.propogateDivisors, hdiv, hstep, hds, Option.map_some']
    · intro d hd
      rcases List.mem_cons.mp hd with rfl | hd
      · exact hsum
      · exact hdp d hd

/-- On a reachable tree of at most `2^32` nodes in which every node with children has a child
with children or positive mass, every divisor of `propogate` is positive. -/
theorem Reachable.divisors_pos {t : Quadtree K} (hR : Reachable t)
    (hsize : t.nodes.length ≤ UINT32_MOD) (hF : Fed t none) :
    ∃ ds, Quadtree.propogateDivisors t.nodes t.parents.reverse = some ds ∧
      ds.length = t.parents.length ∧ ∀ d ∈ ds, 0 < d := by
  have hl := hR.logged
  have ht := hR.threaded
  have hS := hR.shape hsize
  have hv : ∀ a ∈ t.parents.reverse,
      a < kidN t.nodes a ∧ kidN t.nodes a + 3 < t.nodes.length := by
    intro a ha
    have hap := List.mem_reverse.mp ha
    have h1 := hl.self_lt a hap
    obtain ⟨n, hn, hnc⟩ := kidN_pos_lt t.nodes a (by omega)
    have hsk : (skel t)[a]? = some (n.children, n.next) := by rw [skel_getElem?, hn]; rfl
    have := ht.children_lt hsk (by omega)
    rw [skel_length] at this
    exact ⟨h1, by omega⟩
  have hsorted : t.parents.reverse.Pairwise (fun x y => kidN t.nodes y < kidN t.nodes x) := by
    rw [List.pairwise_reverse, List.pairwise_iff_getElem]
    intro i j hi hj hij
    have h1 := (hS.2 i _ (List.getElem?_eq_getElem hi)).2
    have h2 := (hS.2 j _ (List.getElem?_eq_getElem hj)).2
    omega
  have hgood : ∀ a ∈ t.parents.reverse, ∃ k, k < 4 ∧
      (kidN t.nodes a + k ∈ t.parents.reverse ∨
        ∃ ck, t.nodes[kidN t.nodes a + k]? = some ck ∧ 0 < ck.mass) := by
    intro a ha
    have h1 := (hv a ha).1
    obtain ⟨n, hn, hnc⟩ := kidN_pos_lt t.nodes a (by omega)
    obtain ⟨k, hk, ck, hck, hg⟩ := hF.2 a n hn (by omega)
    rw [hnc] at hck
    refine ⟨k, hk, ?_⟩
    rcases hg with hg | hg | hg
    · exact Or.inl (List.mem_reverse.mpr (hl.logged _ ck hck hg))
    · exact Or.inr ⟨ck, hck, hg⟩
    · exact absurd hg (by simp)
  obtain ⟨ds, h1, h2, h3⟩ := Quadtree.propogateDivisors_pos _ t.nodes hv hsorted hF.1 hgood
  exact ⟨ds, h1, by rw [h2, List.length_reverse], h3⟩

/-- The insertion loop returns on points of the root square that are pairwise equal or
separated, adding at most `4 * k` nodes per point. -/
theorem Quadtree.insertAll_returns_bound (side : K) (k : Nat) (rootq : Quad K)
    (bodies : List (Vec2 K × K)) (t : Quadtree K) (S : Vec2 K → Prop)
    (hG : Geo t side S) (hR : Reachable t) (root : Node K) (hroot : t.nodes[0]? = some root)
    (hq : root.quad = rootq) (hcont : ∀ b ∈ bodies, rootq.contains b.1)
    (hsep : ∀ b ∈ bodies, ∀ o, (S o ∨ ∃ b1 ∈ bodies, b1.1 = o) → o ≠ b.1 →
      side < 2 ^ k * gap o b.1)
    (hsize : t.nodes.length + 4 * k * bodies.length ≤ UINT32_MOD) (fuel : Nat)
    (hf1 : t.nodes.length + 4 * k * bodies.length ≤ fuel) (hf2 : k ≤ fuel) :
    ∃ r, Quadtree.insertAll fuel t bodies = some r ∧ Reachable r ∧
      r.nodes.length ≤ t.nodes.length + 4 * k * bodies.length := by
  induction bodies generalizing t S root with
  | nil => exact ⟨t, rfl, hR, by simp⟩
  | cons b rest ih =>
    obtain ⟨p, m⟩ := b
    have hlen : ((p, m) :: rest).length = rest.length + 1 := rfl
    rw [hlen, Nat.mul_add, Nat.mul_one] at hsize hf1
    have hp : root.quad.contains p := by
      rw [hq]
      exact hcont (p, m) (List.mem_cons_self _ _)
    obtain ⟨r1, hr1, hG1, hl1, hk1⟩ := Quadtree.insert_returns t side S hG hR.threaded p m
      root hroot hp k
      (fun o ho hne => hsep (p, m) (List.mem_cons_self _ _) o (Or.inl ho) hne)
      (by omega) fuel (by omega) hf2
    obtain ⟨root1, hroot1, hq1⟩ := hk1 0 root hroot
    obtain ⟨r, hr, hRr, hlr⟩ := ih r1 (fun a => S a ∨ a = p) hG1
      (Reachable.insert fuel p m hR hr1) root1 hroot1 (hq1.trans hq)
      (fun b hb => hcont b (List.mem_cons_of_mem _ hb))
      (by
        intro b hb o ho hne
        refine hsep b (List.mem_cons_of_mem _ hb) o ?_ hne
        rcases ho with (ho | ho) | ⟨b1, hb1, hb2⟩
        · exact Or.inl ho
        · exact Or.inr ⟨(p, m), List.mem_cons_self _ _, ho.symm⟩
        · exact Or.inr ⟨b1, List.mem_cons_of_mem _ hb1, hb2⟩)
      (by omega) (by omega)
    refine ⟨r, ?_, hRr, ?_⟩
    · simp only [Quadtree.insertAll, hr1, hr]
    · rw [hlen, Nat.mul_add, Nat.mul_one]
      omega

/-- On zeroed storage `propogate` never divides by zero on bodies of positive mass: when
the insertion of every body after `reset(q)` returns a tree of at most `2^32` nodes (as it
does when the positions are pairwise equal or further apart than the side of `q` over `2^k`
and `1 + 4 k n` node indices fit in 32 bits), the loop of `propogate` divides once per entry
of `parents`, each time by the sum of the masses of the four children at that moment, and
every one of these divisors is positive; and `propogate` returns. -/
theorem Quadtree.divisors_positive_zeroed (q : Quad K) (bodies : List (Vec2 K × K)) (k : Nat)
    (hm : ∀ b ∈ bodies, 0 < b.2) (hin : ∀ b ∈ bodies, q.contains b.1)
    (h : ((∀ a ∈ bodies, ∀ b ∈ bodies, a.1 ≠ b.1 → q.length < 2 ^ k * gap a.1 b.1) ∧
        1 + 4 * k * bodies.length ≤ UINT32_MOD) ∨
      ∃ (fuel : Nat) (t : Quadtree K),
        Quadtree.insertAll fuel (Quadtree.reset ⟨[], []⟩ q) bodies = some t ∧
        t.nodes.length ≤ UINT32_MOD) :
    ∃ (fuel0 : Nat) (t : Quadtree K) (ds : List K),
      (∀ fuel, fuel0 ≤ fuel →
        Quadtree.insertAll fuel (Quadtree.reset ⟨[], []⟩ q) bodies = some t) ∧
      Quadtree.propogateDivisors t.nodes t.parents.reverse = some ds ∧
      ds.length = t.parents.length ∧ (∀ d ∈ ds, 0 < d) ∧ ∃ t1, t.propogate = some t1 := by
  have hret : ∃ (fuel : Nat) (t : Quadtree K),
      Quadtree.insertAll fuel (Quadtree.reset ⟨[], []⟩ q) bodies = some t ∧
      t.nodes.length ≤ UINT32_MOD := by
    rcases h with ⟨hsep, hsz⟩ | h
    · cases hb : bodies with
      | nil => exact ⟨0, _, rfl, by simp [Quadtree.reset, UINT32_MOD]⟩
      | cons b0 rest =>
        rw [← hb]
        have hq := Quad.length_nonneg_of_contains q b0.1
          (hin b0 (by rw [hb]; exact List.mem_cons_self _ _))
        obtain ⟨r, hr, -, hl⟩ := Quadtree.insertAll_returns_bound q.length k q bodies
          (Quadtree.reset ⟨[], []⟩ q) (fun _ => False) (Geo.reset _ q hq)
          (Reachable.reset _ _) (Node.ofQuad q 0) rfl rfl hin
          (by
            intro b hb1 o ho hne
            rcases ho with ho | ⟨b1, hb2, hb3⟩
            · exact absurd ho id
            · subst hb3
              exact hsep b1 hb2 b hb1 hne)
          hsz (1 + 4 * k * bodies.length + k) (Nat.le_add_right _ _) (Nat.le_add_left _ _)
        refine ⟨_, r, hr, le_trans hl hsz⟩
    · exact h
  obtain ⟨fuel0, t, hins, hsz⟩ := hret
  have hR : Reachable t := Reachable.insertAll (Reachable.reset _ _) fuel0 bodies hins
  have hF : Fed t none := Quadtree.insertAll_fed fuel0 bodies hm _ t hins (Fed.reset_fed _ q) hsz
  obtain ⟨ds, h1, h2, h3⟩ := hR.divisors_pos hsz hF
  obtain ⟨t1, ht1, -⟩ := Quadtree.propogate_spec t hR
  exact ⟨fuel0, t, ds, fun fuel hf => Quadtree.insertAll_mono hf hins, h1, h2, h3, t1, ht1⟩

end FedSec

/-! ## Storage of new nodes (`Node(Quad)`, `Node(Quad, next)`) -/

section StorageSec

variable {K : Type} [LinearOrderedField K]

theorem Quadtree.resetSt_zero (t : Quadtree K) (q : Quad K) :
    t.resetSt Storage.zero q = t.reset q := rfl

theorem Quadtree.subdivideSt_eq (st : Storage K) (t : Quadtree K) (i : Nat) (n : Node K)
    (hn : t.nodes[i]? = some n) :
    t.subdivideSt st i = some (t.nodes.length,
      { nodes := t.nodes.modify (fun m => { m with children := t.nodes.length }) i ++
          [Node.ofStorage (st t.nodes.length).1 (st t.nodes.length).2
             (n.quad.into_quadrant 0) (t.nodes.length + 1),
           Node.ofStorage (st (t.nodes.length + 1)).1 (st (t.nodes.length + 1)).2
             (n.quad.into_quadrant 1) (t.nodes.length + 2),
           Node.ofStorage (st (t.nodes.length + 2)).1 (st (t.nodes.length + 2)).2
             (n.quad.into_quadrant 2) (t.nodes.length + 3),
           Node.ofStorage (st (t.nodes.length + 3)).1 (st (t.nodes.length + 3)).2
             (n.quad.into_quadrant 3) n.next],
        parents := t.parents ++ [i] }) := by
  simp [Quadtree.subdivideSt, hn, Quad.subdivide_quad]

theorem Quadtree.subdivideSt_zero (t : Quadtree K) (i : Nat) :
    t.subdivideSt Storage.zero i = t.subdivide i := by
  cases hn : t.nodes[i]? with
  | none => simp [Quadtree.subdivideSt, Quadtree.subdivide, hn]
  | some n =>
    rw [Quadtree.subdivideSt_eq _ t i n hn, Quadtree.subdivide_eq t i n hn]
    rfl

theorem Quadtree.splitSt_zero (body_pos : Vec2 K) (body_mass : K) (bp np : Vec2 K)
    (fuel : Nat) (t : Quadtree K) (node : Nat) :
    Quadtree.splitSt Storage.zero body_pos body_mass bp np fuel t node =
      Quadtree.split body_pos body_mass bp np fuel t node := by
  induction fuel generalizing t node with
  | zero => rfl
  | succ f ih =>
    simp only [Quadtree.splitSt, Quadtree.split, Quadtree.subdivideSt_zero]
    cases t.subdivide node with
    | none => rfl
    | some ct =>
      obtain ⟨c, t1⟩ := ct
      simp only
      cases t1.nodes[node]? with
      | none => rfl
      | some n =>
        simp only [ih]

theorem Quadtree.insertSt_zero (fuel : Nat) (t : Quadtree K) (p : Vec2 K) (m : K) :
    t.insertSt Storage.zero fuel p m = t.insert fuel p m := by
  simp only [Quadtree.insertSt, Quadtree.insert, Quadtree.splitSt_zero]

theorem Quadtree.insertAllSt_zero (fuel : Nat) (t : Quadtree K) (bodies : List (Vec2 K × K)) :
    Quadtree.insertAllSt Storage.zero fuel t bodies = Quadtree.insertAll fuel t bodies := by
  induction bodies generalizing t with
  | nil => rfl
  | cons b rest ih =>
    obtain ⟨pos, mass⟩ := b
    simp only [Quadtree.insertAllSt, Quadtree.insertAll, Quadtree.insertSt_zero]
    cases t.insert fuel pos mass with
    | none => rfl
    | some t1 => exact ih t1

theorem build_quadtreeSt_zero (fuel : Nat) (bodies : List (Body K)) :
    build_quadtreeSt Storage.zero fuel bodies = build_quadtree fuel bodies := by
  simp only [build_quadtreeSt, build_quadtree, Quadtree.insertAllSt_zero, Quadtree.resetSt_zero]

theorem Storage.eq_zero (st : Storage K) (h : ∀ i, st i = (⟨0, 0⟩, 0)) : st = Storage.zero :=
  funext h

theorem Quadtree.splitSt_mono (st : Storage K) (body_pos : Vec2 K) (body_mass : K)
    (bp np : Vec2 K) {f f1 : Nat}
    (hf : f ≤ f1) {t r : Quadtree K} {node : Nat}
    (h : Quadtree.splitSt st body_pos body_mass bp np f t node = some r) :
    Quadtree.splitSt st body_pos body_mass bp np f1 t node = some r := by
  induction f generalizing f1 t node with
  | zero => simp [Quadtree.splitSt] at h
  | succ f ih =>
    obtain ⟨g, rfl⟩ : ∃ g, f1 = g + 1 := ⟨f1 - 1, by omega⟩
    simp only [Quadtree.splitSt] at h ⊢
    cases hs : t.subdivideSt st node with
    | none => simp [hs] at h
    | some ct =>
      obtain ⟨c, t1⟩ := ct
      simp only [hs] at h ⊢
      cases hn : t1.nodes[node]? with
      | none => simp [hn] at h
      | some n =>
        simp only [hn] at h ⊢
        by_cases hq : n.quad.find_quadrant np = n.quad.find_quadrant bp
        · rw [if_pos hq] at h ⊢
          exact ih (Nat.le_of_succ_le_succ hf) h
        · rw [if_neg hq] at h ⊢
          exact h

theorem Quadtree.insertSt_mono (st : Storage K) {f f1 : Nat} (hf : f ≤ f1) {t r : Quadtree K}
    {p : Vec2 K} {m : K}
    (h : t.insertSt st f p m = some r) : t.insertSt st f1 p m = some r := by
  simp only [Quadtree.insertSt] at h ⊢
  cases hd : t.descend p f 0 with
  | none => simp [hd] at h
  | some node =>
    rw [Quadtree.descend_mono t p hf hd]
    simp only [hd] at h ⊢
    cases hn : t.nodes[node]? with
    | none => simp [hn] at h
    | some n =>
      simp only [hn] at h ⊢
      by_cases he : n.is_empty = true
      · rw [if_pos he] at h ⊢
        exact h
      · rw [if_neg he] at h ⊢
        by_cases hp : p = n.centm
        · rw [if_pos hp] at h ⊢
          exact h
        · rw [if_neg hp] at h ⊢
          exact Quadtree.splitSt_mono st _ _ _ _ hf h

theorem Quadtree.insertAllSt_mono (st : Storage K) {f f1 : Nat} (hf : f ≤ f1)
    {t r : Quadtree K}
    {bodies : List (Vec2 K × K)} (h : Quadtree.insertAllSt st f t bodies = some r) :
    Quadtree.insertAllSt st f1 t bodies = some r := by
  induction bodies generalizing t with
  | nil => simpa [Quadtree.insertAllSt] using h
  | cons b rest ih =>
    obtain ⟨pos, mass⟩ := b
    simp only [Quadtree.insertAllSt] at h ⊢
    cases hi : t.insertSt st f pos mass with
    | none => simp [hi] at h
    | some t1 =>
      rw [Quadtree.insertSt_mono st hf hi]
      simp only [hi] at h ⊢
      exact ih h

theorem Simulation.attract_mono (c : Constants K) (sqrt : K → K) (st : Storage K) {f f1 : Nat}
    (hf : f ≤ f1)
    {s r : Simulation K} (h : Simulation.attract c sqrt st f s = some r) :
    Simulation.attract c sqrt st f1 s = some r := by
  simp only [Simulation.attract, Option.bind_eq_bind, Option.bind_eq_some] at h ⊢
  obtain ⟨y1, h1, y2, h2, b, h3, h4⟩ := h
  exact ⟨y1, Quadtree.insertAllSt_mono st hf h1, y2, h2, b,
    Simulation.evaluate_mono c sqrt y2 hf h3, h4⟩

theorem Simulation.step_mono (c : Constants K) (sqrt : K → K) (st : Storage K) {f f1 : Nat}
    (hf : f ≤ f1)
    {s r : Simulation K} (h : Simulation.step c sqrt st f s = some r) :
    Simulation.step c sqrt st f1 s = some r := by
  simp only [Simulation.step] at h ⊢
  cases ha : Simulation.attract c sqrt st f s.iterate with
  | none => simp [ha] at h
  | some s1 =>
    rw [Simulation.attract_mono c sqrt st hf ha]
    simpa [ha] using h

end StorageSec

/-! ## Insertion (`Quadtree::insert`): the coincident case -/

section Merge

variable {K : Type} [LinearOrderedField K]

/-- C5 on the code. The merge itself is as claimed, whatever the storage of new nodes holds:
when the descent for `p` ends at a non-empty node whose `centm` is `p`, `insert p m` keeps
the number of nodes and `parents` and changes only the mass of that node, to the old mass
plus `m`. The instance `reset q; insert p m1; insert p m2` is not: the root that `reset`
makes has the `centm` and `mass` its storage held, and over storage reading mass `-6` at
`(0, 0)` the calls `insert((1, 1), 2); insert((1, 1), 3)` in a square of side 8 subdivide the
root and leave five nodes, the stored pair in the NW child and mass `5` in the NE child. -/
theorem insert_merge_stored_root :
    (∀ (F : Type) [LinearOrderedField F] (st : Storage F) (p : Vec2 F) (m : F)
      (t : Quadtree F) (fuel L : Nat) (n : Node F),
      t.descend p fuel 0 = some L → t.nodes[L]? = some n → n.mass ≠ 0 → n.centm = p →
      ∃ t1, t.insertSt st fuel p m = some t1 ∧
        t1.nodes.length = t.nodes.length ∧ t1.parents = t.parents ∧
        t1.nodes[L]? = some { n with mass := n.mass + m } ∧
        ∀ j, j ≠ L → t1.nodes[j]? = t.nodes[j]?) ∧
    (Quadtree.insertAllSt (Storage.rootHolds ⟨0, 0⟩ (-6)) 2
        (Quadtree.resetSt (Storage.rootHolds ⟨0, 0⟩ (-6)) ⟨[], []⟩ (⟨⟨0, 0⟩, 8⟩ : Quad ℚ))
        [(⟨1, 1⟩, 2), (⟨1, 1⟩, 3)]).map
      (fun t => (t.parents, t.nodes.map (fun n => (n.children, n.centm, n.mass)))) =
      some ([0], [(1, ⟨0, 0⟩, -6), (0, ⟨0, 0⟩, -6), (0, ⟨1, 1⟩, 5), (0, ⟨0, 0⟩, 0),
        (0, ⟨0, 0⟩, 0)]) := by
  constructor
  · intro F _ st p m t fuel L n hd hn hne hc
    refine ⟨{ t with nodes := t.nodes.modify (fun k => { k with mass := k.mass + m }) L },
      ?_, by simp, rfl, ?_, ?_⟩
    · simp [Quadtree.insertSt, hd, hn, Node.is_empty, hne, hc]
    · simp [List.getElem?_modify, hn]
    · intro j hj
      simp [List.getElem?_modify, Ne.symm hj]
  · decide!

end Merge

/-! ## Aggregation (`Quadtree::propogate`) over stored masses -/

section StoredKids

/-- C25 on the code: two bodies of mass `1` at `(1, 1)` and `(-1, -1)` in a square of side 8,
the root reading empty after `reset`; the four children that `subdivide` makes have the
`mass` their storage held, here `-1`. The two children that `insert` does not write keep it,
the masses of the four children are `-1, 1, 1, -1`, and the one pass of `propogate` divides
`centm` by their sum, `0`. -/
theorem propogate_divides_by_stored_sum :
    (Quadtree.insertAllSt (Storage.kidsHold (-1)) 2
        (Quadtree.resetSt (Storage.kidsHold (-1)) ⟨[], []⟩ (⟨⟨0, 0⟩, 8⟩ : Quad ℚ))
        [(⟨1, 1⟩, 1), (⟨-1, -1⟩, 1)]).map
      (fun t => (t.parents, t.nodes.map (fun n => (n.children, n.mass)),
        Quadtree.propogateDivisors t.nodes t.parents.reverse)) =
      some ([0], [(1, 1), (0, -1), (0, 1), (0, 1), (0, -1)], some [0]) := by
  decide!

end StoredKids

/-! ## One step of the two-body scenario (`Simulation::step`) -/

section Scenario

/-- C7 on the code: the scenario (`A` of mass 100 at `(0, 0)`, `B` of mass 1 at `(1, 0)`,
`delta_t = 0.05`, compiled constants), over zeroed storage. One call of `step` leaves both
positions unchanged, and its tree is the root, of mass `101`, with four childless nodes: the
NW and NE children, never written, of mass `0` at `(0, 0)`, then `A` and `B`. For `B` every
term of `accel` is defined and the result is `(-1/2, 0)`. For `A` at `(0, 0)` the root is not
accepted and the loop adds the terms of the four children; for the two never-written ones
the numerator `G * mass` and the denominator are both `0`, where `A` stands on their
`centm`: in the C++ that quotient is NaN, which `std::min(NaN, DBL_MAX)` keeps, and the sum
is NaN and not `(0.005, 0)`. -/
theorem step_two_body_zero_over_zero :
    (Simulation.step Constants.compiled sqrtQ Storage.zero 5
        ⟨1 / 20, 0, [bodyA, bodyB], ⟨[], []⟩⟩).map
      (fun s => (s.frame, s.bodies.map (fun b => b.pos))) = some (1, [⟨0, 0⟩, ⟨1, 0⟩]) ∧
    (Simulation.step Constants.compiled sqrtQ Storage.zero 5
        ⟨1 / 20, 0, [bodyA, bodyB], ⟨[], []⟩⟩).map
      (fun s => s.ygg.nodes.map (fun n => (n.children, n.centm, n.mass))) =
      some [(1, ⟨1 / 101, 0⟩, 101), (0, ⟨0, 0⟩, 0), (0, ⟨0, 0⟩, 0), (0, ⟨0, 0⟩, 100),
        (0, ⟨1, 0⟩, 1)] ∧
    (Simulation.step Constants.compiled sqrtQ Storage.zero 5
        ⟨1 / 20, 0, [bodyA, bodyB], ⟨[], []⟩⟩).bind
      (fun s => s.ygg.walkQuotients Constants.compiled sqrtQ ⟨0, 0⟩ 5 0 []) =
      some [(1 / 100, 2, ⟨1, 0⟩), (1, 0, ⟨0, 0⟩), (0, 0, ⟨0, 0⟩), (0, 0, ⟨0, 0⟩)] ∧
    ¬ QuotientDefined ((0, 0, ⟨0, 0⟩) : ℚ × ℚ × Vec2 ℚ) ∧
    (Simulation.step Constants.compiled sqrtQ Storage.zero 5
        ⟨1 / 20, 0, [bodyA, bodyB], ⟨[], []⟩⟩).bind
      (fun s => s.ygg.walkQuotients Constants.compiled sqrtQ ⟨1, 0⟩ 5 0 []) =
      some [(1 / 100, 0, ⟨0, 0⟩), (1, 2, ⟨-1, 0⟩), (0, 2, ⟨-1, 0⟩), (0, 2, ⟨-1, 0⟩)] ∧
    (∀ q ∈ [((1 / 100, 0, ⟨0, 0⟩) : ℚ × ℚ × Vec2 ℚ), (1, 2, ⟨-1, 0⟩), (0, 2, ⟨-1, 0⟩),
      (0, 2, ⟨-1, 0⟩)], QuotientDefined q) ∧
    (Simulation.step Constants.compiled sqrtQ Storage.zero 5
        ⟨1 / 20, 0, [bodyA, bodyB], ⟨[], []⟩⟩).map
      (fun s => (s.bodies.drop 1).map (fun b => b.accel)) = some [⟨-1 / 2, 0⟩] := by
  refine ⟨?_, ?_, ?_, ?_, ?_, ?_, ?_⟩ <;> decide!

end Scenario

/-! ## A single body and a far pair (`Quadtree::accel`) -/

section OneBody

variable {K : Type} [LinearOrderedField K]

/-- C12 as the code has it: for a tree holding a single body (`reset(q); insert(pos, m)`,
the root reading empty after `reset`) and a query position `p` at which the quotient of
`accel` is defined (its denominator is not zero, or `p = pos` and `G * m > 0`, where the
C++ quotient is `+inf`, clamped and multiplied by the zero displacement), `accel(p)` returns
`(pos - p) * min(G * m / ((|pos-p|^2 + EPSILON^2) * sqrt(|pos-p|^2)), DBL_MAX)`; this is the
unclamped formula `G * m * (pos - p) / ((|pos-p|^2 + EPSILON^2) * sqrt(|pos-p|^2))` whenever
the quotient is at most `DBL_MAX`; it is a non-negative multiple of `pos - p` when `G`, `m`
and the square root are non-negative; and it is the zero vector for `p = pos`. -/
theorem accel_single_body (c : Constants K) (sqrt : K → K) (st : Storage K) (t0 : Quadtree K)
    (q : Quad K) (pos : Vec2 K) (m : K) (p : Vec2 K) (fuel : Nat)
    (hroot : (st 0).2 = 0)
    (_hdef : ((Vec2.mag_sq ⟨pos.x - p.x, pos.y - p.y⟩) + c.EPSILON * c.EPSILON) *
        sqrt (Vec2.mag_sq ⟨pos.x - p.x, pos.y - p.y⟩) ≠ 0 ∨ (p = pos ∧ 0 < c.G * m)) :
    (((t0.resetSt st q).insertSt st (fuel + 1) pos m).bind
        (fun t => t.accel c sqrt (fuel + 1) p) = some (contribution c sqrt pos m p)) ∧
    (c.G * m / (((Vec2.mag_sq ⟨pos.x - p.x, pos.y - p.y⟩) + c.EPSILON * c.EPSILON) *
        sqrt (Vec2.mag_sq ⟨pos.x - p.x, pos.y - p.y⟩)) ≤ DBL_MAX →
      contribution c sqrt pos m p = newtonDirect c sqrt m pos p) ∧
    (0 ≤ c.G → 0 ≤ m → 0 ≤ sqrt (Vec2.mag_sq ⟨pos.x - p.x, pos.y - p.y⟩) →
      ∃ s : K, 0 ≤ s ∧ contribution c sqrt pos m p = (⟨pos.x - p.x, pos.y - p.y⟩ : Vec2 K).smul s) ∧
    (p = pos → contribution c sqrt pos m p = ⟨0, 0⟩) := by
  refine ⟨?_, ?_, ?_, ?_⟩
  · simp [Quadtree.insertSt, Quadtree.descend, Quadtree.resetSt, Node.ofStorage,
      Node.has_children, Node.is_empty, Quadtree.accel, Quadtree.walk, Node.is_leaf,
      contribution, Vec2.add, Vec2.smul, hroot]
  · intro h
    simp only [contribution, newtonDirect, min_eq_left h, Vec2.smul, Vec2.sdiv, Vec2.mk.injEq]
    constructor <;> ring
  · intro hG hm hs
    refine ⟨_, ?_, rfl⟩
    refine le_min (div_nonneg (mul_nonneg hG hm) (mul_nonneg ?_ hs)) (le_of_lt DBL_MAX_pos)
    exact add_nonneg (Vec2.mag_sq_nonneg _) (mul_self_nonneg _)
  · intro h
    subst h
    simp [contribution, Vec2.smul]

/-- Witness for the amended C12: mass 9 at `(4, 5)` seen from `(1, 1)` under the compiled
constants, the root storage holding `(7, 7)` and mass `0`. -/
theorem accel_single_body_witness :
    (Storage.rootHolds (⟨7, 7⟩ : Vec2 ℚ) 0 0).2 = 0 ∧
    ((25 : ℚ) + 1) * sqrtQ 25 ≠ 0 ∧
    ((Quadtree.resetSt (Storage.rootHolds ⟨7, 7⟩ 0) ⟨[], []⟩ demoRoot).insertSt
        (Storage.rootHolds ⟨7, 7⟩ 0) 1 ⟨4, 5⟩ 9).bind
        (fun t => t.accel Constants.compiled sqrtQ 1 ⟨1, 1⟩) =
      some (contribution Constants.compiled sqrtQ ⟨4, 5⟩ 9 ⟨1, 1⟩) ∧
    contribution Constants.compiled sqrtQ ⟨4, 5⟩ 9 ⟨1, 1⟩ =
      newtonDirect Constants.compiled sqrtQ 9 ⟨4, 5⟩ ⟨1, 1⟩ :=
  ⟨by decide!, by decide!,
    (accel_single_body Constants.compiled sqrtQ (Storage.rootHolds ⟨7, 7⟩ 0) ⟨[], []⟩ demoRoot
      ⟨4, 5⟩ 9 ⟨1, 1⟩ 0 (by decide!) (Or.inl (by decide!))).1,
    (accel_single_body Constants.compiled sqrtQ (Storage.rootHolds ⟨7, 7⟩ 0) ⟨[], []⟩ demoRoot
      ⟨4, 5⟩ 9 ⟨1, 1⟩ 0 (by decide!) (Or.inl (by decide!))).2.1 (by decide!)⟩

/-- C6 as the code has it: for two bodies `A`, `B` of positive mass whose positions fall in
different quadrants of the square of `new_containing`, with the tree built by
`new_containing`, `reset`, `insert A`, `insert B`, `propogate` over storage that reads as
zero, and constants under which the root passes the acceptance test at `B.pos` with a
denominator that is not zero, `accel(B.pos)` returns, and is the term of the root alone: mass
`A.mass + B.mass` at the centre of mass of both bodies. -/
theorem accel_two_body_root (c : Constants K) (sqrt : K → K) (st : Storage K) (A B : Body K)
    (hst : ∀ i, st i = (⟨0, 0⟩, 0))
    (hA : 0 < A.mass) (_hB : 0 < B.mass)
    (hq : (Quad.new_containing [A, B]).find_quadrant A.pos ≠
      (Quad.new_containing [A, B]).find_quadrant B.pos)
    (hacc : (Quad.new_containing [A, B]).length * (Quad.new_containing [A, B]).length <
      (Vec2.mag_sq ⟨(centroid2 A B).x - B.pos.x, (centroid2 A B).y - B.pos.y⟩) *
        (c.THETA * c.THETA))
    (_hden : ((Vec2.mag_sq ⟨(centroid2 A B).x - B.pos.x, (centroid2 A B).y - B.pos.y⟩) +
        c.EPSILON * c.EPSILON) *
      sqrt (Vec2.mag_sq ⟨(centroid2 A B).x - B.pos.x, (centroid2 A B).y - B.pos.y⟩) ≠ 0)
    (fuel : Nat) :
    ((build_quadtreeSt st (fuel + 1) [A, B]).bind Quadtree.propogate).bind
        (fun t => t.accel c sqrt (fuel + 1) B.pos) =
      some (contribution c sqrt (centroid2 A B) (A.mass + B.mass) B.pos) := by
  obtain ⟨c0, c1, c2, c3, hk, hm, hc⟩ := rootKids_sums (Quad.new_containing [A, B]) A.pos B.pos
    A.mass B.mass _ _ (Quad.find_quadrant_lt _ A.pos) (Quad.find_quadrant_lt _ B.pos) hq
  rw [Storage.eq_zero st hst, build_quadtreeSt_zero]
  simp only [build_quadtree, List.map_cons, List.map_nil]
  rw [Quadtree.insertAll_two_distinct _ _ _ _ _ _ (ne_of_gt hA) hq fuel, hk, Option.some_bind,
    Quadtree.propogate_root _ _ _ _ _ rfl, Option.some_bind, hm, hc]
  refine Quadtree.accel_root_accepted c sqrt _ B.pos
    ⟨1, 0, centroid2 A B, A.mass + B.mass, Quad.new_containing [A, B]⟩ ?_ rfl hacc fuel
  rfl

/-- Witness for the amended C6: the heavy body and the orbiter under the compiled constants,
over zeroed storage. -/
theorem accel_two_body_root_witness :
    ((build_quadtreeSt Storage.zero 1 [heavyBody, orbiter]).bind Quadtree.propogate).bind
        (fun t => t.accel Constants.compiled sqrtQ 1 orbiter.pos) =
      some (contribution Constants.compiled sqrtQ (centroid2 heavyBody orbiter)
        (heavyBody.mass + orbiter.mass) orbiter.pos) :=
  accel_two_body_root Constants.compiled sqrtQ Storage.zero heavyBody orbiter (fun _ => rfl)
    (by decide!) (by decide!) (by decide!) (by decide!) (by decide!) 0

end OneBody

/-! ## Insertion (`Quadtree::insert`) next to a stored occupant -/

section StoredOccupant

variable {K : Type} [LinearOrderedField K]

end StoredOccupant

/-! ## The step driver (`Simulation::step`) -/

section StepPost

variable {K : Type} [LinearOrderedField K]

/-- What a call of `step` that returns has done. -/
theorem Simulation.step_post (c : Constants K) (sqrt : K → K) (st : Storage K) (fuel : Nat)
    (s s1 : Simulation K) (h : Simulation.step c sqrt st fuel s = some s1) :
    s1.frame = (s.frame + 1) % SIZE_MOD ∧ s1.delta_t = s.delta_t ∧
    (∃ y1, build_quadtreeSt st fuel (s.bodies.map (fun b => b.update s.delta_t)) = some y1 ∧
      y1.propogate = some s1.ygg) ∧
    s1.bodies.length = s.bodies.length ∧
    ∀ (i : Nat) (b : Body K), s.bodies[i]? = some b →
      ∃ a, s1.ygg.accel c sqrt fuel (b.update s.delta_t).pos = some a ∧
        s1.bodies[i]? = some { b.update s.delta_t with accel := a } := by
  simp only [Simulation.step] at h
  cases ha : Simulation.attract c sqrt st fuel s.iterate with
  | none => simp [ha] at h
  | some s2 =>
    simp only [ha, Option.some.injEq] at h
    subst h
    simp only [Simulation.attract, Option.bind_eq_bind, Option.bind_eq_some,
      Option.some.injEq] at ha
    obtain ⟨y1, h1, y2, h2, bs, h3, h4⟩ := ha
    subst h4
    obtain ⟨hlen, hall⟩ := Simulation.evaluate_spec c sqrt fuel y2 _ bs h3
    refine ⟨rfl, rfl, ⟨y1, h1, h2⟩, ?_, ?_⟩
    · show bs.length = s.bodies.length
      rw [hlen]
      simp [Simulation.iterate]
    · intro i b hb
      have hb1 : (s.iterate).bodies[i]? = some (b.update s.delta_t) := by
        simp [Simulation.iterate, hb]
      exact hall i _ hb1

theorem Simulation.stepN_frame (c : Constants K) (sqrt : K → K) (fuel n : Nat)
    (sts : Nat → Storage K) (s s1 : Simulation K)
    (h : Simulation.stepN c sqrt fuel n sts s = some s1) (hs : s.frame < SIZE_MOD) :
    s1.frame = (s.frame + n) % SIZE_MOD := by
  induction n generalizing s sts with
  | zero =>
    simp only [Simulation.stepN, Option.some.injEq] at h
    subst h
    exact (Nat.mod_eq_of_lt hs).symm
  | succ n ih =>
    simp only [Simulation.stepN] at h
    cases hs1 : Simulation.step c sqrt (sts 0) fuel s with
    | none => simp [hs1] at h
    | some s2 =>
      simp only [hs1] at h
      have hf := (Simulation.step_post c sqrt (sts 0) fuel s s2 hs1).1
      have hlt : s2.frame < SIZE_MOD := by
        rw [hf]
        exact Nat.mod_lt _ (by decide)
      rw [ih _ s2 h hlt, hf, Nat.mod_add_mod]
      congr 1
      omega

/-- Method `step` returns, from some fuel on, over zeroed storage on a state whose moved
bodies are pairwise at the same position or separated. -/
theorem Simulation.step_returns (c : Constants K) (sqrt : K → K) (s : Simulation K) (k : Nat)
    (hsep : ∀ a ∈ s.iterate.bodies, ∀ b ∈ s.iterate.bodies, a.pos ≠ b.pos →
      (Quad.new_containing s.iterate.bodies).length < 2 ^ k * gap a.pos b.pos)
    (hsize : 1 + 4 * k * s.bodies.length ≤ UINT32_MOD) :
    ∃ (fuel0 : Nat) (s1 : Simulation K), ∀ fuel, fuel0 ≤ fuel →
      Simulation.step c sqrt Storage.zero fuel s = some s1 := by
  have hlen : s.iterate.bodies.length = s.bodies.length := by simp [Simulation.iterate]
  obtain ⟨y1, hy1, hR⟩ := build_quadtree_returns s.iterate.bodies k hsep (by rw [hlen]; exact hsize)
    (1 + 4 * k * s.iterate.bodies.length + k) (le_refl _)
  obtain ⟨y2, hy2, -, hfr, -⟩ := Quadtree.propogate_spec y1 hR
  have ht : Threaded (skel y2) := by
    rw [skel_eq_of_frame hfr]
    exact hR.threaded
  obtain ⟨k2, bs, hbs⟩ := Simulation.evaluate_returns c sqrt y2 ht s.iterate.bodies
  refine ⟨max (1 + 4 * k * s.iterate.bodies.length + k) k2,
    { s.iterate with bodies := bs, ygg := y2, frame := (s.iterate.frame + 1) % SIZE_MOD }, ?_⟩
  intro fuel hf
  have h1 : Quadtree.insertAllSt Storage.zero fuel
      (s.iterate.ygg.resetSt Storage.zero (Quad.new_containing s.iterate.bodies))
      (s.iterate.bodies.map (fun body => (body.pos, body.mass))) = some y1 := by
    rw [Quadtree.insertAllSt_zero, Quadtree.resetSt_zero]
    exact Quadtree.insertAll_mono (le_trans (le_max_left _ _) hf) hy1
  simp only [Simulation.step, Simulation.attract, Option.bind_eq_bind, h1, Option.some_bind,
    hy2, hbs fuel (le_trans (le_max_right _ _) hf)]

/-- C17 as the code has it. On a state whose bodies, once moved, are pairwise at the same
position or separated, over storage that reads as zero (there the call is proved to return),
and on every state and storage on which the call returns at all, `step` returns for every
fuel from some `fuel0` on, always the same state `s1`. The `frame` of `s1` is that of `s` plus
one modulo `2^64`, `delta_t` and the number of bodies are unchanged, and body `i` of `s1` has
the mass and radius of body `i` of `s` and the `pos` and `vel` of `Body.update(delta_t)` on
it. The tree `y1` built by `new_containing` over the moved bodies, `reset` and one `insert`
per body in order exists, and when no pass of `propogate` on it divides by zero, the tree of
`s1` is `propogate` of `y1` and the `accel` of body `i` of `s1` is the result of `accel` on
that tree at the new position, for every body whose terms are all defined. Also `n` calls of
`step` in a row that return, from a frame below `2^64`, leave the frame at its first value
plus `n` modulo `2^64`. -/
theorem step_postcondition (c : Constants K) (sqrt : K → K) (st : Storage K)
    (s : Simulation K) (k : Nat)
    (h : ((∀ i, st i = (⟨0, 0⟩, 0)) ∧ s.Separated k) ∨
      ∃ (fuel : Nat) (s1 : Simulation K), Simulation.step c sqrt st fuel s = some s1) :
    (∃ (fuel0 : Nat) (s1 : Simulation K) (y1 : Quadtree K),
      (∀ fuel, fuel0 ≤ fuel → Simulation.step c sqrt st fuel s = some s1) ∧
      s1.frame = (s.frame + 1) % SIZE_MOD ∧ s1.delta_t = s.delta_t ∧
      s1.bodies.length = s.bodies.length ∧
      (∀ fuel, fuel0 ≤ fuel →
        build_quadtreeSt st fuel (s.bodies.map (fun b => b.update s.delta_t)) = some y1) ∧
      ((∃ ds, Quadtree.propogateDivisors y1.nodes y1.parents.reverse = some ds ∧
          ∀ d ∈ ds, d ≠ 0) → y1.propogate = some s1.ygg) ∧
      ∀ (i : Nat) (b : Body K), s.bodies[i]? = some b →
        ∃ b1 : Body K,
          s1.bodies[i]? = some b1 ∧ b1.mass = b.mass ∧ b1.radius = b.radius ∧
          b1.pos = (b.update s.delta_t).pos ∧ b1.vel = (b.update s.delta_t).vel ∧
          ((∃ ds, Quadtree.propogateDivisors y1.nodes y1.parents.reverse = some ds ∧
              ∀ d ∈ ds, d ≠ 0) →
            (∃ (fuel : Nat) (qs : List (K × K × Vec2 K)),
              s1.ygg.walkQuotients c sqrt b1.pos fuel 0 [] = some qs ∧
              ∀ q ∈ qs, QuotientDefined q) →
            ∀ fuel, fuel0 ≤ fuel → s1.ygg.accel c sqrt fuel b1.pos = some b1.accel)) ∧
    ∀ (n : Nat) (sts : Nat → Storage K) (fuel : Nat) (sn : Simulation K),
      Simulation.stepN c sqrt fuel n sts s = some sn → s.frame < SIZE_MOD →
      sn.frame = (s.frame + n) % SIZE_MOD := by
  constructor
  · have hret : ∃ (fuel0 : Nat) (s1 : Simulation K),
        ∀ fuel, fuel0 ≤ fuel → Simulation.step c sqrt st fuel s = some s1 := by
      rcases h with ⟨hst, hsep⟩ | ⟨fuel, s1, hs⟩
      · rw [Storage.eq_zero st hst]
        exact Simulation.step_returns c sqrt s k hsep.1 hsep.2
      · exact ⟨fuel, s1, fun f hf => Simulation.step_mono c sqrt st hf hs⟩
    obtain ⟨fuel0, s1, hs1⟩ := hret
    obtain ⟨h1, h2, ⟨y1, hy1, hp⟩, h4, -⟩ :=
      Simulation.step_post c sqrt st fuel0 s s1 (hs1 fuel0 (le_refl _))
    refine ⟨fuel0, s1, y1, hs1, h1, h2, h4, ?_, fun _ => hp, ?_⟩
    · intro fuel hf
      exact Quadtree.insertAllSt_mono st hf hy1
    · intro i b hb
      obtain ⟨a, -, hb1⟩ :=
        (Simulation.step_post c sqrt st fuel0 s s1 (hs1 fuel0 (le_refl _))).2.2.2.2 i b hb
      refine ⟨_, hb1, rfl, rfl, rfl, rfl, ?_⟩
      intro _ _ fuel hf
      obtain ⟨a1, ha1, hb2⟩ :=
        (Simulation.step_post c sqrt st fuel s s1 (hs1 fuel hf)).2.2.2.2 i b hb
      rw [hb1] at hb2
      have e : a = a1 := congrArg Body.accel (Option.some.inj hb2)
      show s1.ygg.accel c sqrt fuel (b.update s.delta_t).pos = some a
      rw [e]
      exact ha1
  · intro n sts fuel sn hsn hlt
    exact Simulation.stepN_frame c sqrt fuel n sts s sn hsn hlt

/-- Witness for the amended C17: the heavy body at `(1, 1)` and the orbiter at `(4, 5)`, at
rest, over zeroed storage. The state is separated, the one pass of `propogate` divides by
`10`, and every term of `accel` is defined at both bodies. -/
theorem step_postcondition_witness :
    Simulation.Separated 1 (⟨1 / 20, 0, [heavyBody, orbiter], ⟨[], []⟩⟩ : Simulation ℚ) ∧
    (∃ (fuel0 : Nat) (s1 : Simulation ℚ),
      (∀ fuel, fuel0 ≤ fuel → Simulation.step Constants.compiled sqrtBisect Storage.zero fuel
        ⟨1 / 20, 0, [heavyBody, orbiter], ⟨[], []⟩⟩ = some s1) ∧
      s1.frame = 1 ∧ s1.bodies.length = 2) ∧
    (build_quadtreeSt Storage.zero 5
        ([heavyBody, orbiter].map (fun b => b.update (1 / 20)))).bind
      (fun y1 => Quadtree.propogateDivisors y1.nodes y1.parents.reverse) = some [10] ∧
    (Simulation.step Constants.compiled sqrtBisect Storage.zero 5
        ⟨1 / 20, 0, [heavyBody, orbiter], ⟨[], []⟩⟩).bind
      (fun s1 => (s1.ygg.walkQuotients Constants.compiled sqrtBisect ⟨1, 1⟩ 5 0 []).map
        (fun qs => decide (∀ q ∈ qs, QuotientDefined q))) = some true ∧
    (Simulation.step Constants.compiled sqrtBisect Storage.zero 5
        ⟨1 / 20, 0, [heavyBody, orbiter], ⟨[], []⟩⟩).bind
      (fun s1 => (s1.ygg.walkQuotients Constants.compiled sqrtBisect ⟨4, 5⟩ 5 0 []).map
        (fun qs => decide (∀ q ∈ qs, QuotientDefined q))) = some true :=
  ⟨by unfold Simulation.Separated; decide!,
    (step_postcondition Constants.compiled sqrtBisect Storage.zero
      ⟨1 / 20, 0, [heavyBody, orbiter], ⟨[], []⟩⟩ 1
      (Or.inl ⟨fun _ => rfl, by unfold Simulation.Separated; decide!⟩)).1.imp
      (fun _ h => h.imp (fun _ h => h.elim (fun _ h => ⟨h.1, h.2.1, h.2.2.2.1⟩))),
    by decide!, by decide!, by decide!⟩

/-- C17 as stated fails: `frame` is a `std::size_t`, and on a state whose frame is
`2^64 - 1` a call of `step` that returns leaves frame `0`, not `2^64`. -/
theorem step_frame_wraps :
    (Simulation.step Constants.compiled sqrtBisect Storage.zero 5
        ⟨1 / 20, 18446744073709551615, [heavyBody, orbiter], ⟨[], []⟩⟩).map
      (fun s1 => s1.frame) = some 0 ∧
    (0 : Nat) ≠ 18446744073709551615 + 1 := by
  decide!

end StepPost

end NBody
